import Mathlib

/-!
Verification development for the Flask-Unsign session-cookie tool.

The development shallowly embeds the code of `flask_unsign/session.py`,
`flask_unsign/helpers.py` and `flask_unsign/cracker.py`.  Library code the
repository calls but does not contain (the itsdangerous timestamp signer and
serializer, the Flask tagged-JSON serializer, and the Python standard library
routines for base64, zlib, UTF-8, JSON and UUID handling) is modelled from the
specification document; each such definition carries a doc comment naming what
it models.  Bytes are natural numbers below 256, machine words are natural
numbers reduced modulo 2 ^ 32 explicitly, and every fallible operation returns
an Except value.
-/

set_option maxRecDepth 100000

namespace FlaskUnsign

/-! ## Bytes and small helpers -/

/-- Big-endian interpretation of a byte list as a natural number. -/
def bytesToNatBE (bs : List Nat) : Nat :=
  bs.foldl (fun acc b => acc * 256 + b) 0

/-- Write a natural number as a given number of big-endian base-256 digits. -/
def natToBytesFix : Nat → Nat → List Nat
  | 0, _ => []
  | k + 1, n => natToBytesFix k (n / 256) ++ [n % 256]

/-- Minimal big-endian byte representation of a natural number (canonical
recursive definition; empty for zero). -/
def natBytesCore (n : Nat) : List Nat :=
  if h : n = 0 then []
  else
    have : n / 256 < n := Nat.div_lt_self (by omega) (by omega)
    natBytesCore (n / 256) ++ [n % 256]

/-- Minimal big-endian byte representation of a natural number.  Models the
itsdangerous helper int_to_bytes.  The branch on 256 ^ 16 only selects a
kernel-reducible fast path; the agreement lemma below shows the function
equals natBytesCore everywhere. -/
def natToBytesBE (n : Nat) : List Nat :=
  if n < 256 ^ 16 then (natToBytesFix 16 n).dropWhile (fun b => b = 0)
  else natBytesCore n

/-! ## UTF-8 -/

/-- UTF-8 encoding of a single unicode scalar value. -/
def utf8EncodeNat (n : Nat) : List Nat :=
  if n < 0x80 then [n]
  else if n < 0x800 then [0xc0 + n / 64, 0x80 + n % 64]
  else if n < 0x10000 then
    [0xe0 + n / 4096, 0x80 + n / 64 % 64, 0x80 + n % 64]
  else
    [0xf0 + n / 262144, 0x80 + n / 4096 % 64, 0x80 + n / 64 % 64, 0x80 + n % 64]

/-- UTF-8 encoding of a string (Lean chars are exactly the unicode scalars,
matching Python str content for the cookies this tool handles). -/
def utf8Encode (s : List Char) : List Nat :=
  (s.map (fun c => utf8EncodeNat c.toNat)).flatten

/-- Validating UTF-8 decoder returning unicode scalar values.  Models Python
bytes.decode with strict error handling: rejects truncated sequences,
continuation-byte errors, overlong encodings, surrogates and values above
0x10FFFF. -/
def utf8DecodeNats : Nat → List Nat → Option (List Nat)
  | _, [] => some []
  | 0, _ :: _ => none
  | fuel + 1, b :: rest =>
    if b < 0x80 then
      (utf8DecodeNats fuel rest).map (fun l => b :: l)
    else if b < 0xc2 then
      none
    else if b < 0xe0 then
      match rest with
      | c1 :: rest2 =>
        if 0x80 ≤ c1 ∧ c1 < 0xc0 then
          (utf8DecodeNats fuel rest2).map (fun l => ((b - 0xc0) * 64 + (c1 - 0x80)) :: l)
        else none
      | _ => none
    else if b < 0xf0 then
      match rest with
      | c1 :: c2 :: rest2 =>
        let n := (b - 0xe0) * 4096 + (c1 - 0x80) * 64 + (c2 - 0x80)
        if (0x80 ≤ c1 ∧ c1 < 0xc0) ∧ (0x80 ≤ c2 ∧ c2 < 0xc0)
            ∧ 0x800 ≤ n ∧ ¬ (0xd800 ≤ n ∧ n < 0xe000) then
          (utf8DecodeNats fuel rest2).map (fun l => n :: l)
        else none
      | _ => none
    else if b < 0xf5 then
      match rest with
      | c1 :: c2 :: c3 :: rest2 =>
        let n := (b - 0xf0) * 262144 + (c1 - 0x80) * 4096 + (c2 - 0x80) * 64 + (c3 - 0x80)
        if (0x80 ≤ c1 ∧ c1 < 0xc0) ∧ (0x80 ≤ c2 ∧ c2 < 0xc0) ∧ (0x80 ≤ c3 ∧ c3 < 0xc0)
            ∧ 0x10000 ≤ n ∧ n < 0x110000 then
          (utf8DecodeNats fuel rest2).map (fun l => n :: l)
        else none
      | _ => none
    else none

/-- Validating UTF-8 decoder producing chars.  The fuel argument of the
scalar decoder only bounds the recursion depth; one unit is spent per
decoded scalar and every scalar consumes at least one byte, so the byte
count is always sufficient. -/
def utf8Decode (bs : List Nat) : Option (List Char) :=
  (utf8DecodeNats bs.length bs).map (fun l => l.map Char.ofNat)

/-! ## Base64 (standard and url-safe alphabets, Python semantics) -/

/-- Value of a standard-alphabet base64 character. -/
def b64StdVal (c : Char) : Option Nat :=
  let n := c.toNat
  if 65 ≤ n ∧ n ≤ 90 then some (n - 65)
  else if 97 ≤ n ∧ n ≤ 122 then some (n - 97 + 26)
  else if 48 ≤ n ∧ n ≤ 57 then some (n - 48 + 52)
  else if n = 43 then some 62
  else if n = 47 then some 63
  else none

/-- Value of a url-safe-alphabet base64 character (minus and underscore in
place of plus and slash). -/
def b64UrlVal (c : Char) : Option Nat :=
  let n := c.toNat
  if 65 ≤ n ∧ n ≤ 90 then some (n - 65)
  else if 97 ≤ n ∧ n ≤ 122 then some (n - 97 + 26)
  else if 48 ≤ n ∧ n ≤ 57 then some (n - 48 + 52)
  else if n = 45 then some 62
  else if n = 95 then some 63
  else none

/-- Character of a 6-bit value in the standard base64 alphabet. -/
def b64StdChr (v : Nat) : Char :=
  if v < 26 then Char.ofNat (65 + v)
  else if v < 52 then Char.ofNat (97 + (v - 26))
  else if v < 62 then Char.ofNat (48 + (v - 52))
  else if v = 62 then Char.ofNat 43
  else Char.ofNat 47

/-- Character of a 6-bit value in the url-safe base64 alphabet. -/
def b64UrlChr (v : Nat) : Char :=
  if v < 26 then Char.ofNat (65 + v)
  else if v < 52 then Char.ofNat (97 + (v - 26))
  else if v < 62 then Char.ofNat (48 + (v - 52))
  else if v = 62 then Char.ofNat 45
  else Char.ofNat 95

/-- Base64 encoding without padding, parameterised by the alphabet. -/
def b64EncodeCore (chr : Nat → Char) : List Nat → List Char
  | [] => []
  | [b1] => [chr (b1 / 4), chr (b1 % 4 * 16)]
  | [b1, b2] => [chr (b1 / 4), chr (b1 % 4 * 16 + b2 / 16), chr (b2 % 16 * 4)]
  | b1 :: b2 :: b3 :: rest =>
    chr (b1 / 4) :: chr (b1 % 4 * 16 + b2 / 16) :: chr (b2 % 16 * 4 + b3 / 64)
      :: chr (b3 % 64) :: b64EncodeCore chr rest

/-- Unpadded url-safe base64 encoding.  Models the itsdangerous helper
base64_encode (urlsafe_b64encode with padding stripped). -/
def b64UrlEncode (bs : List Nat) : List Char :=
  b64EncodeCore b64UrlChr bs

/-- Padded standard base64 encoding.  Models Python base64.b64encode. -/
def b64StdEncode (bs : List Nat) : List Char :=
  b64EncodeCore b64StdChr bs ++ List.replicate ((3 - bs.length % 3) % 3) (Char.ofNat 61)

/-- Decode a list of 6-bit values whose length is not 1 modulo 4 into bytes,
three per quad, truncating the final partial group as Python does. -/
def b64DecodeVals : List Nat → List Nat
  | v1 :: v2 :: v3 :: v4 :: rest =>
    (v1 * 4 + v2 / 16) :: (v2 % 16 * 16 + v3 / 4) :: (v3 % 4 * 64 + v4)
      :: b64DecodeVals rest
  | [v1, v2] => [v1 * 4 + v2 / 16]
  | [v1, v2, v3] => [v1 * 4 + v2 / 16, v2 % 16 * 16 + v3 / 4]
  | _ => []

/-- Python base64.b64decode semantics without strict validation (the default
used by both itsdangerous and the tag decoder): characters outside the
alphabet are discarded, the count of data plus padding characters must be a
multiple of four, and a data-character count of one modulo four is rejected. -/
def b64DecodeLenient (val : Char → Option Nat) (cs : List Char) : Option (List Nat) :=
  let data := cs.filterMap val
  let pads := (cs.filter (fun c => c.toNat = 61)).length
  if (data.length + pads) % 4 = 0 ∧ data.length % 4 ≠ 1 then
    some (b64DecodeVals data)
  else
    none

/-- Models the itsdangerous helper base64_decode: append the padding that the
unfiltered length calls for, then url-safe-decode leniently. -/
def itsB64Decode (cs : List Char) : Option (List Nat) :=
  b64DecodeLenient b64UrlVal (cs ++ List.replicate ((4 - cs.length % 4) % 4) (Char.ofNat 61))

/-- Models Python base64.b64decode with the standard alphabet (used by the
tag decoder for binary blobs). -/
def b64StdDecode (cs : List Char) : Option (List Nat) :=
  b64DecodeLenient b64StdVal cs

/-! ## SHA-1 and HMAC-SHA1, modelled from the specification

The specification fixes the signature algorithm: the derived key is
HMAC-SHA1(secret, salt) and signatures are HMAC-SHA1 digests.  SHA-1 is
implemented over byte lists with 32-bit words as naturals reduced modulo
2 ^ 32. -/

/-- 2 ^ 32 as an explicit word modulus. -/
def w32 : Nat := 4294967296

/-- Left rotation of a 32-bit word. -/
def rotl (k : Nat) (x : Nat) : Nat :=
  (x * 2 ^ k + x / 2 ^ (32 - k)) % w32

/-- SHA-1 message padding: append 0x80, zeros, and the 8-byte big-endian
bit length, reaching a multiple of 64 bytes. -/
def sha1Pad (msg : List Nat) : List Nat :=
  msg ++ [0x80] ++ List.replicate ((119 - msg.length % 64) % 64) 0
      ++ natToBytesFix 8 (msg.length * 8)

/-- Split a list into 64-byte blocks (fuel-driven structural recursion). -/
def chunks64 : Nat → List Nat → List (List Nat)
  | 0, _ => []
  | _, [] => []
  | fuel + 1, l => l.take 64 :: chunks64 fuel (l.drop 64)

/-- The sixteen initial 32-bit words of a 64-byte block. -/
def blockWords : List Nat → List Nat
  | b1 :: b2 :: b3 :: b4 :: rest =>
    (((b1 * 256 + b2) * 256 + b3) * 256 + b4) :: blockWords rest
  | _ => []

/-- Extend the 16-word schedule to 80 words. -/
def sha1Extend : Nat → List Nat → List Nat
  | 0, ws => ws
  | fuel + 1, ws =>
    let n := ws.length
    let v := rotl 1 ((((ws.getD (n - 3) 0).xor (ws.getD (n - 8) 0)).xor
      (ws.getD (n - 14) 0)).xor (ws.getD (n - 16) 0))
    sha1Extend fuel (ws ++ [v])

/-- One round of the SHA-1 compression function. -/
def sha1Round (t : Nat) (st : Nat × Nat × Nat × Nat × Nat) (wt : Nat) :
    Nat × Nat × Nat × Nat × Nat :=
  let a := st.1
  let b := st.2.1
  let c := st.2.2.1
  let d := st.2.2.2.1
  let e := st.2.2.2.2
  let f :=
    if t < 20 then ((b.land c).lor ((w32 - 1 - b).land d)) % w32
    else if t < 40 then (b.xor c).xor d
    else if t < 60 then ((b.land c).lor (b.land d)).lor (c.land d)
    else (b.xor c).xor d
  let k :=
    if t < 20 then 0x5A827999
    else if t < 40 then 0x6ED9EBA1
    else if t < 60 then 0x8F1BBCDC
    else 0xCA62C1D6
  let temp := (rotl 5 a + f + e + k + wt) % w32
  (temp, a, rotl 30 b, c, d)

/-- Run the 80 compression rounds over a schedule. -/
def sha1Rounds (t : Nat) (st : Nat × Nat × Nat × Nat × Nat) :
    List Nat → Nat × Nat × Nat × Nat × Nat
  | [] => st
  | wt :: rest => sha1Rounds (t + 1) (sha1Round t st wt) rest

/-- Process one 64-byte block. -/
def sha1Block (h : Nat × Nat × Nat × Nat × Nat) (block : List Nat) :
    Nat × Nat × Nat × Nat × Nat :=
  let ws := sha1Extend 64 (blockWords block)
  let st := sha1Rounds 0 h ws
  ((h.1 + st.1) % w32, (h.2.1 + st.2.1) % w32, (h.2.2.1 + st.2.2.1) % w32,
    (h.2.2.2.1 + st.2.2.2.1) % w32, (h.2.2.2.2 + st.2.2.2.2) % w32)

/-- Serialize a 32-bit word big-endian. -/
def wordBytes (x : Nat) : List Nat :=
  natToBytesFix 4 x

/-- SHA-1 digest (20 bytes) of a byte list. -/
def sha1 (msg : List Nat) : List Nat :=
  let padded := sha1Pad msg
  let final := (chunks64 padded.length padded).foldl sha1Block
    (0x67452301, 0xEFCDAB89, 0x98BADCFE, 0x10325476, 0xC3D2E1F0)
  wordBytes final.1 ++ wordBytes final.2.1 ++ wordBytes final.2.2.1
    ++ wordBytes final.2.2.2.1 ++ wordBytes final.2.2.2.2

/-- HMAC-SHA1 (RFC 2104): keys longer than the 64-byte block are hashed,
shorter keys are zero-padded; inner and outer pads are 0x36 and 0x5c. -/
def hmacSha1 (key msg : List Nat) : List Nat :=
  let k0 := if key.length > 64 then sha1 key else key
  let kp := k0 ++ List.replicate (64 - k0.length) 0
  let ipad := kp.map (fun b => b.xor 0x36)
  let opad := kp.map (fun b => b.xor 0x5c)
  sha1 (opad ++ sha1 (ipad ++ msg))

/-! ## Wire JSON and session values

The session payload data model follows section 3 of the specification: a
recursive structured value with null, booleans, numbers, strings, sequences
and string-keyed mappings, plus the five extended variants (tuple, unique-id,
binary blob, safe-markup string, HTTP-date timestamp).  JSON numbers are
modelled as integers; fractional literals do not occur in any payload this
development evaluates.  Mutual list types are used instead of nested List so
that structural recursion and kernel reduction work throughout. -/

/-- Calendar date-time at HTTP-date precision (specification section 3). -/
structure DateTime where
  year : Nat
  month : Nat
  day : Nat
  hour : Nat
  minute : Nat
  second : Nat
deriving DecidableEq

mutual
/-- Plain wire JSON document. -/
inductive Json where
  | null
  | bool (b : Bool)
  | num (n : Int)
  | str (s : List Char)
  | arr (l : JArr)
  | obj (o : JObj)
/-- JSON array spine. -/
inductive JArr where
  | nil
  | cons (hd : Json) (tl : JArr)
/-- JSON object spine: ordered key/value entries. -/
inductive JObj where
  | nil
  | cons (key : List Char) (val : Json) (tl : JObj)
end

mutual
/-- Session payload value (specification section 3). -/
inductive SessionValue where
  | null
  | bool (b : Bool)
  | num (n : Int)
  | str (s : List Char)
  | seq (l : SVList)
  | obj (o : SVObj)
  | tup (l : SVList)
  | uuid (n : Nat)
  | bytes (b : List Nat)
  | markup (s : List Char)
  | date (d : DateTime)
/-- Sequence spine. -/
inductive SVList where
  | nil
  | cons (hd : SessionValue) (tl : SVList)
/-- Mapping spine: ordered key/value entries. -/
inductive SVObj where
  | nil
  | cons (key : List Char) (val : SessionValue) (tl : SVObj)
end

/-- Lower-case hexadecimal digit character. -/
def hexChr (v : Nat) : Char :=
  if v < 10 then Char.ofNat (48 + v) else Char.ofNat (87 + v % 16)

/-- Fixed-width lower-case hexadecimal rendering, most significant first. -/
def hexFix : Nat → Nat → List Char
  | 0, _ => []
  | k + 1, n => hexFix k (n / 16) ++ [hexChr (n % 16)]

/-- Decimal digit character. -/
def decChr (v : Nat) : Char :=
  Char.ofNat (48 + v % 10)

/-- Fixed-width zero-padded decimal rendering. -/
def decFix : Nat → Nat → List Char
  | 0, _ => []
  | k + 1, n => decFix k (n / 10) ++ [decChr (n % 10)]

/-- Decimal digits of a positive natural number (canonical recursive
definition; empty for zero). -/
def natDigitsCore (n : Nat) : List Char :=
  if h : n = 0 then []
  else
    have : n / 10 < n := Nat.div_lt_self (by omega) (by omega)
    natDigitsCore (n / 10) ++ [decChr (n % 10)]

/-- Decimal rendering of a natural number (matches Python int rendering).
The branch on 10 ^ 40 only selects a kernel-reducible fast path; the
agreement lemma below shows the rendering is the canonical one. -/
def natSer (n : Nat) : List Char :=
  if n = 0 then ['0']
  else if n < 10 ^ 40 then (decFix 40 n).dropWhile (fun c => c = '0')
  else natDigitsCore n

/-- Decimal rendering of an integer (matches Python int rendering). -/
def intSer (n : Int) : List Char :=
  if n < 0 then Char.ofNat 45 :: natSer n.natAbs else natSer n.natAbs

/-- Month name used by the HTTP date format. -/
def monthName (m : Nat) : List Char :=
  if m = 1 then ['J', 'a', 'n'] else if m = 2 then ['F', 'e', 'b']
  else if m = 3 then ['M', 'a', 'r'] else if m = 4 then ['A', 'p', 'r']
  else if m = 5 then ['M', 'a', 'y'] else if m = 6 then ['J', 'u', 'n']
  else if m = 7 then ['J', 'u', 'l'] else if m = 8 then ['A', 'u', 'g']
  else if m = 9 then ['S', 'e', 'p'] else if m = 10 then ['O', 'c', 't']
  else if m = 11 then ['N', 'o', 'v'] else ['D', 'e', 'c']

/-- Day-of-week index of a calendar date (0 = Saturday), Zeller congruence.
Only used to print a plausible weekday name; the date parser ignores it,
as the underlying email-date parser does. -/
def zeller (y m d : Nat) : Nat :=
  let ym := if m < 3 then y - 1 else y
  let mm := if m < 3 then m + 12 else m
  (d + (13 * (mm + 1)) / 5 + ym % 100 + ym % 100 / 4 + ym / 100 / 4 + 5 * (ym / 100)) % 7

/-- Weekday name for the HTTP date format. -/
def weekdayName (y m d : Nat) : List Char :=
  let w := zeller y m d
  if w = 0 then ['S', 'a', 't'] else if w = 1 then ['S', 'u', 'n']
  else if w = 2 then ['M', 'o', 'n'] else if w = 3 then ['T', 'u', 'e']
  else if w = 4 then ['W', 'e', 'd'] else if w = 5 then ['T', 'h', 'u']
  else ['F', 'r', 'i']

/-- Models werkzeug http_date: IMF-fixdate rendering of a UTC date-time,
for example Sun, 06 Nov 1994 08:49:37 GMT. -/
def httpDate (d : DateTime) : List Char :=
  weekdayName d.year d.month d.day ++ [',', ' ']
    ++ decFix 2 d.day ++ [' '] ++ monthName d.month ++ [' '] ++ decFix 4 d.year
    ++ [' '] ++ decFix 2 d.hour ++ [':'] ++ decFix 2 d.minute ++ [':']
    ++ decFix 2 d.second ++ [' ', 'G', 'M', 'T']

mutual
/-- Models the Flask tagged JSON serializer's tagging pass (specification
section 4.1): extended variants become single-key objects carrying the
two-character reserved tag, everything else passes through literally —
including mappings that themselves collide with the reserved single-entry
shape, which the specification inherits as a wire-format ambiguity. -/
def tag : SessionValue → Json
  | .null => .null
  | .bool b => .bool b
  | .num n => .num n
  | .str s => .str s
  | .seq l => .arr (tagList l)
  | .obj o => .obj (tagObj o)
  | .tup l => .obj (.cons [' ', 't'] (.arr (tagList l)) .nil)
  | .uuid n => .obj (.cons [' ', 'u'] (.str (hexFix 32 n)) .nil)
  | .bytes b => .obj (.cons [' ', 'b'] (.str (b64StdEncode b)) .nil)
  | .markup s => .obj (.cons [' ', 'm'] (.str s) .nil)
  | .date d => .obj (.cons [' ', 'd'] (.str (httpDate d)) .nil)
/-- Tagging pass over a sequence. -/
def tagList : SVList → JArr
  | .nil => .nil
  | .cons h t => .cons (tag h) (tagList t)
/-- Tagging pass over a mapping. -/
def tagObj : SVObj → JObj
  | .nil => .nil
  | .cons k v t => .cons k (tag v) (tagObj t)
end

/-- Escape one character as Python json.dumps with ensure_ascii does: the
short escapes for quote, backslash and the common controls, u-escapes for
other controls and for everything outside printable ASCII, surrogate pairs
for astral characters, and the character itself otherwise. -/
def jsonEscapeChar (c : Char) : List Char :=
  let n := c.toNat
  if n = 34 then ['\\', '"']
  else if n = 92 then ['\\', '\\']
  else if n = 8 then ['\\', 'b']
  else if n = 12 then ['\\', 'f']
  else if n = 10 then ['\\', 'n']
  else if n = 13 then ['\\', 'r']
  else if n = 9 then ['\\', 't']
  else if n < 32 ∨ 127 ≤ n then
    if n < 65536 then '\\' :: 'u' :: hexFix 4 n
    else
      '\\' :: 'u' :: hexFix 4 (55296 + (n - 65536) / 1024)
        ++ '\\' :: 'u' :: hexFix 4 (56320 + (n - 65536) % 1024)
  else [c]

/-- Escape a whole string body. -/
def jsonEscape : List Char → List Char
  | [] => []
  | c :: rest => jsonEscapeChar c ++ jsonEscape rest

/-- A JSON string literal. -/
def jsonStrLit (s : List Char) : List Char :=
  '"' :: jsonEscape s ++ ['"']

mutual
/-- Models Python json.dumps with ensure_ascii and the compact separators the
Flask tagged JSON serializer passes (comma and colon, no spaces). -/
def serJ : Json → List Char
  | .num n => intSer n
  | .bool false => ['f', 'a', 'l', 's', 'e']
  | .bool true => ['t', 'r', 'u', 'e']
  | .null => ['n', 'u', 'l', 'l']
  | .str s => jsonStrLit s
  | .arr .nil => ['[', ']']
  | .arr (.cons h t) => '[' :: serJ h ++ serArrRest t ++ [']']
  | .obj .nil => [Char.ofNat 123, Char.ofNat 125]
  | .obj (.cons k v t) =>
    Char.ofNat 123 :: jsonStrLit k ++ ':' :: serJ v ++ serObjRest t ++ [Char.ofNat 125]
/-- Comma-separated remaining array items. -/
def serArrRest : JArr → List Char
  | .nil => []
  | .cons h t => ',' :: serJ h ++ serArrRest t
/-- Comma-separated remaining object entries. -/
def serObjRest : JObj → List Char
  | .nil => []
  | .cons k v t => ',' :: jsonStrLit k ++ ':' :: serJ v ++ serObjRest t
end

/-! ## JSON parser

A recursive-descent parser for the documents Python json.loads accepts,
restricted to integer numbers (fractional and exponent literals, which no
session payload in this development contains, are rejected) and to unicode
scalar strings (lone-surrogate u-escapes are rejected; Lean characters cannot
carry them).  Duplicate object keys follow Python dict semantics: the later
value wins at the position of the first occurrence. -/

/-- JSON whitespace skip (space, tab, newline, carriage return). -/
def skipWs : List Char → List Char
  | c :: rest =>
    if c.toNat = 32 ∨ c.toNat = 9 ∨ c.toNat = 10 ∨ c.toNat = 13 then skipWs rest
    else c :: rest
  | [] => []

/-- Value of a hexadecimal digit character. -/
def hexVal (c : Char) : Option Nat :=
  let n := c.toNat
  if 48 ≤ n ∧ n ≤ 57 then some (n - 48)
  else if 97 ≤ n ∧ n ≤ 102 then some (n - 97 + 10)
  else if 65 ≤ n ∧ n ≤ 70 then some (n - 65 + 10)
  else none

/-- Parse exactly four hexadecimal digits. -/
def pHex4 : List Char → Option (Nat × List Char)
  | c1 :: c2 :: c3 :: c4 :: rest =>
    match hexVal c1, hexVal c2, hexVal c3, hexVal c4 with
    | some v1, some v2, some v3, some v4 =>
      some (((v1 * 16 + v2) * 16 + v3) * 16 + v4, rest)
    | _, _, _, _ => none
  | _ => none

/-! Parsing a string body after the opening quote: escapes and surrogate
pairs are handled; raw control characters are rejected as in strict
json.loads.  The helpers receive the continuation parser for the remaining
body, so only pStrBody itself recurses (structurally on its fuel). -/

/-- Parser results for a string body. -/
abbrev StrRes := Option (List Char × List Char)

/-- The low half of a surrogate pair after a high half with value v. -/
def pStrPair (k : List Char → StrRes) (v : Nat) : List Char → StrRes
  | d1 :: d2 :: h5 :: h6 :: h7 :: h8 :: rest5 =>
    if d1.toNat = 92 ∧ d2 = 'u' then
      match hexVal h5, hexVal h6, hexVal h7, hexVal h8 with
      | some u1, some u2, some u3, some u4 =>
        let v2 := ((u1 * 16 + u2) * 16 + u3) * 16 + u4
        if 56320 ≤ v2 ∧ v2 < 57344 then
          (k rest5).map (fun p =>
            (Char.ofNat (65536 + (v - 55296) * 1024 + (v2 - 56320)) :: p.1, p.2))
        else none
      | _, _, _, _ => none
    else none
  | _ => none

/-- A u-escape: four hexadecimal digits, possibly opening a surrogate pair. -/
def pStrU (k : List Char → StrRes) : List Char → StrRes
  | h1 :: h2 :: h3 :: h4 :: rest3 =>
    match hexVal h1, hexVal h2, hexVal h3, hexVal h4 with
    | some v1, some v2, some v3, some v4 =>
      let v := ((v1 * 16 + v2) * 16 + v3) * 16 + v4
      if 55296 ≤ v ∧ v < 56320 then pStrPair k v rest3
      else if 56320 ≤ v ∧ v < 57344 then none
      else (k rest3).map (fun p => (Char.ofNat v :: p.1, p.2))
    | _, _, _, _ => none
  | _ => none

/-- Dispatch on the character after a backslash. -/
def pStrEscape (k : List Char → StrRes) (e : Char) (rest2 : List Char) : StrRes :=
  if e.toNat = 34 ∨ e.toNat = 92 ∨ e.toNat = 47 then
    (k rest2).map (fun p => (e :: p.1, p.2))
  else if e = 'b' then (k rest2).map (fun p => (Char.ofNat 8 :: p.1, p.2))
  else if e = 'f' then (k rest2).map (fun p => (Char.ofNat 12 :: p.1, p.2))
  else if e = 'n' then (k rest2).map (fun p => (Char.ofNat 10 :: p.1, p.2))
  else if e = 'r' then (k rest2).map (fun p => (Char.ofNat 13 :: p.1, p.2))
  else if e = 't' then (k rest2).map (fun p => (Char.ofNat 9 :: p.1, p.2))
  else if e = 'u' then pStrU k rest2
  else none

/-- Main string-body loop (fuel-driven; one unit per character). -/
def pStrBody : Nat → List Char → StrRes
  | 0, _ => none
  | _ + 1, [] => none
  | fuel + 1, c :: rest =>
    if c.toNat = 34 then some ([], rest)
    else if c.toNat = 92 then
      match rest with
      | [] => none
      | e :: rest2 => pStrEscape (pStrBody fuel) e rest2
    else if c.toNat < 32 then none
    else (pStrBody fuel rest).map (fun p => (c :: p.1, p.2))

/-- Greedily read decimal digits. -/
def pDigits : List Char → List Char × List Char
  | [] => ([], [])
  | c :: rest =>
    if 48 ≤ c.toNat ∧ c.toNat ≤ 57 then
      let p := pDigits rest
      (c :: p.1, p.2)
    else ([], c :: rest)

/-- Numeric value of a digit list. -/
def digitsVal (ds : List Char) : Nat :=
  ds.foldl (fun acc c => acc * 10 + (c.toNat - 48)) 0

/-- Digits-and-delimiter part of number parsing: reject an empty digit run,
a leading zero on a longer run, and a following dot or exponent marker (a
fractional literal, which this model rejects; no evaluated payload contains
one); otherwise produce the signed integer value. -/
def pNumBody (sign : Bool) (cs : List Char) : Option (Int × List Char) :=
  match pDigits cs with
  | ([], _) => none
  | (d :: ds, rest) =>
    if d = '0' ∧ ds ≠ [] then none
    else
      match rest with
      | r :: _ =>
        if r = '.' ∨ r = 'e' ∨ r = 'E' then none
        else
          some (if sign then -(Int.ofNat (digitsVal (d :: ds))) else Int.ofNat (digitsVal (d :: ds)), rest)
      | [] =>
        some (if sign then -(Int.ofNat (digitsVal (d :: ds))) else Int.ofNat (digitsVal (d :: ds)), [])

/-- Parse a JSON number as an integer: an optional leading minus, then the
digit run.  Leading zeros are rejected as in Python. -/
def pNum (cs : List Char) : Option (Int × List Char) :=
  match cs with
  | c :: rest =>
    if c.toNat = 45 then pNumBody true rest else pNumBody false (c :: rest)
  | [] => none

/-- Insert an entry into an object following Python dict update semantics:
an existing key keeps its position but takes the new value. -/
def objInsert (k : List Char) (v : Json) : JObj → JObj
  | .nil => .cons k v .nil
  | .cons k0 v0 t =>
    if k0 = k then .cons k0 v t
    else .cons k0 v0 (objInsert k v t)

mutual
/-- Parse one JSON value (fuel-driven; fuel bounds the nesting work). -/
def pVal : Nat → List Char → Option (Json × List Char)
  | 0, _ => none
  | fuel + 1, cs =>
    match skipWs cs with
    | [] => none
    | c :: rest =>
      if c.toNat = 34 then
        (pStrBody fuel rest).map (fun p => (Json.str p.1, p.2))
      else if c.toNat = 123 then
        pObjBody fuel rest
      else if c = '[' then
        pArrBody fuel rest
      else if c = 'n' then
        match rest with
        | 'u' :: 'l' :: 'l' :: rest2 => some (.null, rest2)
        | _ => none
      else if c = 't' then
        match rest with
        | 'r' :: 'u' :: 'e' :: rest2 => some (.bool true, rest2)
        | _ => none
      else if c = 'f' then
        match rest with
        | 'a' :: 'l' :: 's' :: 'e' :: rest2 => some (.bool false, rest2)
        | _ => none
      else
        (pNum (c :: rest)).map (fun p => (Json.num p.1, p.2))
/-- Parse the remainder of an array after the opening bracket. -/
def pArrBody : Nat → List Char → Option (Json × List Char)
  | 0, _ => none
  | fuel + 1, cs =>
    match skipWs cs with
  | c :: rest =>
    if c = ']' then some (.arr .nil, rest)
    else
      match pVal fuel (c :: rest) with
      | none => none
      | some (v, rest2) => pArrRest fuel (JArr.cons v .nil) rest2
  | [] => none
/-- Parse array continuations: comma item, or the closing bracket.  The
accumulator holds the items parsed so far in reverse order. -/
def pArrRest : Nat → JArr → List Char → Option (Json × List Char)
  | 0, _, _ => none
  | fuel + 1, acc, cs =>
    match skipWs cs with
    | c :: rest =>
      if c = ']' then some (.arr (revArr acc .nil), rest)
      else if c = ',' then
        match pVal fuel rest with
        | none => none
        | some (v, rest2) => pArrRest fuel (JArr.cons v acc) rest2
      else none
    | [] => none
/-- Parse the remainder of an object after the opening brace. -/
def pObjBody : Nat → List Char → Option (Json × List Char)
  | 0, _ => none
  | fuel + 1, cs =>
    match skipWs cs with
  | c :: rest =>
    if c.toNat = 125 then some (.obj .nil, rest)
    else if c.toNat = 34 then
      match pStrBody fuel rest with
      | none => none
      | some (k, rest2) =>
        match skipWs rest2 with
        | c2 :: rest3 =>
          if c2 = ':' then
            match pVal fuel rest3 with
            | none => none
            | some (v, rest4) => pObjRest fuel (objInsert k v .nil) rest4
          else none
        | [] => none
    else none
  | [] => none
/-- Parse object continuations: comma entry, or the closing brace. -/
def pObjRest : Nat → JObj → List Char → Option (Json × List Char)
  | 0, _, _ => none
  | fuel + 1, acc, cs =>
    match skipWs cs with
    | c :: rest =>
      if c.toNat = 125 then some (.obj acc, rest)
      else if c = ',' then
        match skipWs rest with
        | c2 :: rest2 =>
          if c2.toNat = 34 then
            match pStrBody fuel rest2 with
            | none => none
            | some (k, rest3) =>
              match skipWs rest3 with
              | c3 :: rest4 =>
                if c3 = ':' then
                  match pVal fuel rest4 with
                  | none => none
                  | some (v, rest5) => pObjRest fuel (objInsert k v acc) rest5
                else none
              | [] => none
          else none
        | [] => none
      else none
    | [] => none
/-- Reverse an array spine onto an accumulator. -/
def revArr : JArr → JArr → JArr
  | .nil, acc => acc
  | .cons h t, acc => revArr t (.cons h acc)
end

/-- Models json.loads: parse one document and require only whitespace to
remain. -/
def jsonLoads (cs : List Char) : Option Json :=
  match pVal (2 * cs.length + 8) cs with
  | none => none
  | some (v, rest) =>
    match skipWs rest with
    | [] => some v
    | _ => none

/-! ## HTTP dates, UUID text, Python value rendering -/

/-- Value of a decimal digit character. -/
def decVal (c : Char) : Option Nat :=
  if 48 ≤ c.toNat ∧ c.toNat ≤ 57 then some (c.toNat - 48) else none

/-- Month number of an HTTP-date month name. -/
def monthNum (cs : List Char) : Option Nat :=
  if cs = ['J', 'a', 'n'] then some 1 else if cs = ['F', 'e', 'b'] then some 2
  else if cs = ['M', 'a', 'r'] then some 3 else if cs = ['A', 'p', 'r'] then some 4
  else if cs = ['M', 'a', 'y'] then some 5 else if cs = ['J', 'u', 'n'] then some 6
  else if cs = ['J', 'u', 'l'] then some 7 else if cs = ['A', 'u', 'g'] then some 8
  else if cs = ['S', 'e', 'p'] then some 9 else if cs = ['O', 'c', 't'] then some 10
  else if cs = ['N', 'o', 'v'] then some 11 else if cs = ['D', 'e', 'c'] then some 12
  else none

/-- Models werkzeug parse_date on the IMF-fixdate layout that http_date
produces (weekday name ignored, as the underlying email date parser does).
The other historic layouts that parser also accepts are not modelled; no
evaluated payload uses them. -/
def parseHttpDate (cs : List Char) : Option DateTime :=
  match cs with
  | _ :: _ :: _ :: c3 :: c4 :: d1 :: d2 :: c7 :: m1 :: m2 :: m3 :: c11
      :: y1 :: y2 :: y3 :: y4 :: c16 :: h1 :: h2 :: c19 :: n1 :: n2 :: c22
      :: s1 :: s2 :: rest =>
    if c3 = ',' ∧ c4 = ' ' ∧ c7 = ' ' ∧ c11 = ' ' ∧ c16 = ' ' ∧ c19 = ':'
        ∧ c22 = ':' ∧ rest = [' ', 'G', 'M', 'T'] then
      match decVal d1, decVal d2, monthNum [m1, m2, m3], decVal y1, decVal y2,
          decVal y3, decVal y4, decVal h1, decVal h2, decVal n1, decVal n2,
          decVal s1, decVal s2 with
      | some a1, some a2, some m, some b1, some b2, some b3, some b4, some c1,
          some c2, some e1, some e2, some f1, some f2 =>
        some ⟨((b1 * 10 + b2) * 10 + b3) * 10 + b4, m, a1 * 10 + a2,
          c1 * 10 + c2, e1 * 10 + e2, f1 * 10 + f2⟩
      | _, _, _, _, _, _, _, _, _, _, _, _, _ => none
    else none
  | _ => none

/-- Remove every occurrence of the text urn: (Python str.replace scan). -/
def stripUrn : List Char → List Char
  | 'u' :: 'r' :: 'n' :: ':' :: rest => stripUrn rest
  | c :: rest => c :: stripUrn rest
  | [] => []

/-- Remove every occurrence of the text uuid: (Python str.replace scan). -/
def stripUuidColon : List Char → List Char
  | 'u' :: 'u' :: 'i' :: 'd' :: ':' :: rest => stripUuidColon rest
  | c :: rest => c :: stripUuidColon rest
  | [] => []

/-- True for the two curly brace characters. -/
def isBrace (c : Char) : Bool :=
  c.toNat = 123 ∨ c.toNat = 125

/-- Models the Python UUID constructor's hex-string handling: remove urn and
uuid prefixes, strip braces at both ends, drop dashes, and require exactly
32 hexadecimal digits. -/
def uuidParse (cs : List Char) : Option Nat :=
  let cleaned := ((((stripUuidColon (stripUrn cs)).dropWhile isBrace).reverse.dropWhile
    isBrace).reverse).filter (fun c => c.toNat ≠ 45)
  if cleaned.length = 32 ∧ cleaned.all (fun c => (hexVal c).isSome) then
    some (cleaned.foldl (fun acc c => acc * 16 + (hexVal c).getD 0) 0)
  else none

/-- Canonical dashed 8-4-4-4-12 rendering of a 128-bit identifier. -/
def uuidDashed (n : Nat) : List Char :=
  let h := hexFix 32 n
  h.take 8 ++ '-' :: (h.drop 8).take 4 ++ '-' :: (h.drop 12).take 4
    ++ '-' :: (h.drop 16).take 4 ++ '-' :: h.drop 20

/-- Printable rendering of one byte inside a Python bytes literal
(simplified: quote and backslash are not special-cased; non-printable bytes
use a two-digit hex escape). -/
def byteReprChar (b : Nat) : List Char :=
  if 32 ≤ b ∧ b ≤ 126 then [Char.ofNat b]
  else '\\' :: 'x' :: hexFix 2 b

/-- Python bytes literal rendering, simplified as above. -/
def bytesRepr (bs : List Nat) : List Char :=
  'b' :: Char.ofNat 39 :: (bs.map byteReprChar).flatten ++ [Char.ofNat 39]

/-- Simplified ISO-style rendering of a date-time (Python str of datetime,
without the timezone suffix). -/
def dateStr (d : DateTime) : List Char :=
  decFix 4 d.year ++ '-' :: decFix 2 d.month ++ '-' :: decFix 2 d.day
    ++ ' ' :: decFix 2 d.hour ++ ':' :: decFix 2 d.minute ++ ':' :: decFix 2 d.second

mutual
/-- Models Python repr of a decoded session value, used when values are
stringified inside containers.  String escaping is simplified to plain
single quotes; no theorem in this development evaluates these renderings. -/
def pyRepr : SessionValue → List Char
  | .null => ['N', 'o', 'n', 'e']
  | .bool true => ['T', 'r', 'u', 'e']
  | .bool false => ['F', 'a', 'l', 's', 'e']
  | .num n => intSer n
  | .str s => Char.ofNat 39 :: s ++ [Char.ofNat 39]
  | .markup s =>
    'M' :: 'a' :: 'r' :: 'k' :: 'u' :: 'p' :: '(' :: Char.ofNat 39 :: s
      ++ [Char.ofNat 39, ')']
  | .seq l => '[' :: pyReprList l ++ [']']
  | .obj o => Char.ofNat 123 :: pyReprObj o ++ [Char.ofNat 125]
  | .tup (.cons h .nil) => '(' :: pyRepr h ++ [',', ')']
  | .tup l => '(' :: pyReprList l ++ [')']
  | .uuid n => 'U' :: 'U' :: 'I' :: 'D' :: '(' :: Char.ofNat 39 :: uuidDashed n
      ++ [Char.ofNat 39, ')']
  | .bytes bs => bytesRepr bs
  | .date d =>
    'd' :: 'a' :: 't' :: 'e' :: 't' :: 'i' :: 'm' :: 'e' :: '(' :: dateStr d ++ [')']
/-- Comma-separated container items. -/
def pyReprList : SVList → List Char
  | .nil => []
  | .cons h .nil => pyRepr h
  | .cons h t => pyRepr h ++ ',' :: ' ' :: pyReprList t
/-- Comma-separated mapping entries. -/
def pyReprObj : SVObj → List Char
  | .nil => []
  | .cons k v .nil => Char.ofNat 39 :: k ++ Char.ofNat 39 :: ':' :: ' ' :: pyRepr v
  | .cons k v t =>
    Char.ofNat 39 :: k ++ Char.ofNat 39 :: ':' :: ' ' :: pyRepr v
      ++ ',' :: ' ' :: pyReprObj t
end

/-- Models Python str of a decoded session value (differs from repr on
strings, markup, unique-ids and dates). -/
def pyStr : SessionValue → List Char
  | .str s => s
  | .markup s => s
  | .uuid n => uuidDashed n
  | .date d => dateStr d
  | v => pyRepr v

/-! ## zlib

decode only decompresses when the cookie carries the compressed-flag
leading dot.  Modelled from the specification (deflate decompression as a
decode-time accommodation): the zlib header is checked and stored
(uncompressed) deflate blocks are interpreted; Huffman-compressed blocks and
the trailing checksum are not modelled, as no claim in this development
evaluates decompression — every theorem treats its result opaquely. -/

/-- Copy the stored-block loop: fuel-driven over the remaining bytes. -/
def inflateStored : Nat → List Nat → Option (List Nat)
  | 0, _ => none
  | fuel + 1, bs =>
    match bs with
    | [] => none
    | h :: rest =>
      let bfinal := h % 2
      let btype := h / 2 % 4
      if btype ≠ 0 then none
      else
        match rest with
        | l1 :: l2 :: n1 :: n2 :: rest2 =>
          let len := l1 + l2 * 256
          if n1 = 255 - l1 ∧ n2 = 255 - l2 ∧ len ≤ rest2.length then
            if bfinal = 1 then some (rest2.take len)
            else
              (inflateStored fuel (rest2.drop len)).map
                (fun out => rest2.take len ++ out)
          else none
        | _ => none

/-- Models zlib.decompress restricted to stored deflate blocks. -/
def zlibDecompress (bs : List Nat) : Option (List Nat) :=
  match bs with
  | cmf :: flg :: rest =>
    if cmf % 16 = 8 ∧ (cmf * 256 + flg) % 31 = 0 then
      inflateStored (rest.length + 1) rest
    else none
  | _ => none

/-! ## The tag-decoding hook and flask_unsign decode -/

/-- Python exception kinds this embedding distinguishes (messages elided). -/
inductive PyExc where
  | decodeError
  | valueError
  | typeError
  | binasciiError
  | signingError
  | flaskUnsignException
deriving DecidableEq

/-- Split a character list on dots, Python str.split semantics. -/
def splitOnDot : List Char → List (List Char)
  | [] => [[]]
  | c :: rest =>
    if c = '.' then [] :: splitOnDot rest
    else
      match splitOnDot rest with
      | g :: gs => (c :: g) :: gs
      | [] => [[c]]

/-- Characters of a string as single-character string values (Python tuple
of an iterated string). -/
def charsTuple : List Char → SVList
  | [] => .nil
  | c :: rest => .cons (.str [c]) (charsTuple rest)

/-- Keys of a mapping as string values (Python tuple of an iterated dict). -/
def keysTuple : SVObj → SVList
  | .nil => .nil
  | .cons k _ t => .cons (.str k) (keysTuple t)

/-- Bytes as numbers (Python tuple of iterated bytes). -/
def bytesTuple : List Nat → SVList
  | [] => .nil
  | b :: rest => .cons (.num (Int.ofNat b)) (bytesTuple rest)

/-- The tag dispatch of the object hook in flask_unsign decode, applied to a
single-entry mapping whose children are already decoded.  Mirrors the
Python branches: tuple(val) for the tuple tag (iterating sequences, tuples,
strings, dict keys or bytes, and failing with a type error on
non-iterables), the UUID constructor for the unique-id tag, lenient
standard base64 for the blob tag, Markup for the markup tag (never fails;
stringifies), and parse_date for the date tag (None on failure). -/
def hookTag (k : List Char) (v : SessionValue) (o : SVObj) : Except PyExc SessionValue :=
  if k = [' ', 't'] then
    match v with
    | .seq l => .ok (.tup l)
    | .tup l => .ok (.tup l)
    | .str s => .ok (.tup (charsTuple s))
    | .markup s => .ok (.tup (charsTuple s))
    | .obj o2 => .ok (.tup (keysTuple o2))
    | .bytes bs => .ok (.tup (bytesTuple bs))
    | _ => .error .typeError
  else if k = [' ', 'u'] then
    match v with
    | .str s =>
      match uuidParse s with
      | some n => .ok (.uuid n)
      | none => .error .valueError
    | .markup s =>
      match uuidParse s with
      | some n => .ok (.uuid n)
      | none => .error .valueError
    | _ => .error .typeError
  else if k = [' ', 'b'] then
    match v with
    | .str s =>
      match b64StdDecode s with
      | some bs => .ok (.bytes bs)
      | none => .error .binasciiError
    | .markup s =>
      match b64StdDecode s with
      | some bs => .ok (.bytes bs)
      | none => .error .binasciiError
    | .bytes bs0 =>
      match b64StdDecode (bs0.map Char.ofNat) with
      | some bs => .ok (.bytes bs)
      | none => .error .binasciiError
    | _ => .error .typeError
  else if k = [' ', 'm'] then
    .ok (.markup (pyStr v))
  else if k = [' ', 'd'] then
    match v with
    | .str s =>
      match parseHttpDate s with
      | some d => .ok (.date d)
      | none => .ok .null
    | .markup s =>
      match parseHttpDate s with
      | some d => .ok (.date d)
      | none => .ok .null
    | _ => .ok .null
  else .ok (.obj o)

mutual
/-- Bottom-up conversion of parsed JSON into session values with the object
hook of flask_unsign decode applied to every mapping, as json.loads with an
object_hook does.  Hook failures are the raw Python exceptions; only JSON
syntax errors are turned into DecodeError by the caller. -/
def sessionOfJson : Json → Except PyExc SessionValue
  | .null => .ok .null
  | .bool b => .ok (.bool b)
  | .num n => .ok (.num n)
  | .str s => .ok (.str s)
  | .arr l =>
    match arrToSV l with
    | .ok sl => .ok (.seq sl)
    | .error e => .error e
  | .obj o =>
    match objToSV o with
    | .ok so =>
      match so with
      | .cons k v .nil => hookTag k v so
      | _ => .ok (.obj so)
    | .error e => .error e
/-- Convert array items left to right, first error wins. -/
def arrToSV : JArr → Except PyExc SVList
  | .nil => .ok .nil
  | .cons h t =>
    match sessionOfJson h with
    | .error e => .error e
    | .ok v =>
      match arrToSV t with
      | .error e => .error e
      | .ok vs => .ok (.cons v vs)
/-- Convert object entries left to right, first error wins. -/
def objToSV : JObj → Except PyExc SVObj
  | .nil => .ok .nil
  | .cons k v t =>
    match sessionOfJson v with
    | .error e => .error e
    | .ok sv =>
      match objToSV t with
      | .error e => .error e
      | .ok st => .ok (.cons k sv st)
end

/-- The payload-extraction stage of flask_unsign decode (session.py lines
71 to 91): note the compressed flag from a leading dot, strip it, keep only
the text before the first remaining dot, base64-decode it leniently,
decompress when flagged, and decode the bytes as UTF-8.  Any failure in
this stage is caught and re-raised as DecodeError by decode. -/
def decodePayloadText (cs : List Char) : Option (List Char) :=
  let compressed : Bool := match cs with
    | c :: _ => c == '.'
    | [] => false
  let payload := if compressed then cs.tail else cs
  let data := (splitOnDot payload).headD []
  match itsB64Decode data with
  | none => none
  | some bs =>
    match (if compressed then zlibDecompress bs else some bs) with
    | none => none
    | some bs2 =>
      match utf8Decode bs2 with
      | none => none
      | some text => some text

/-- Embeds flask_unsign.session.decode: extract the payload text (failures
become DecodeError), then json.loads with the tag hook (syntax failures
become DecodeError; hook failures propagate as their own exception kinds,
exactly as the Python code only catches JSONDecodeError). -/
def decodeL (cs : List Char) : Except PyExc SessionValue :=
  match decodePayloadText cs with
  | none => .error .decodeError
  | some text =>
    match jsonLoads text with
    | none => .error .decodeError
    | some j => sessionOfJson j

/-- String-level wrapper for decode. -/
def decode (s : String) : Except PyExc SessionValue :=
  decodeL s.data

/-- The five reserved tag keys of the tagged JSON format. -/
def resTag (k : List Char) : Bool :=
  decide (k = [' ', 't']) || decide (k = [' ', 'u']) || decide (k = [' ', 'b'])
    || decide (k = [' ', 'm']) || decide (k = [' ', 'd'])

/-- Key absent from a session mapping. -/
def keyNotInSVO (k : List Char) : SVObj → Bool
  | .nil => true
  | .cons k2 _ t => decide (k2 ≠ k) && keyNotInSVO k t

/-- A mapping whose wire shape the object hook leaves alone: anything but a
single entry under a reserved tag key. -/
def singleNotReserved : SVObj → Bool
  | .cons k _ .nil => !(resTag k)
  | _ => true

/-- Field bounds under which the http-date rendering parses back exactly:
a real month and two-digit-bounded day and time fields, a four-digit year. -/
def dateOK (d : DateTime) : Bool :=
  decide (1 ≤ d.month) && decide (d.month ≤ 12) && decide (d.day < 100)
    && decide (d.year < 10000) && decide (d.hour < 100) && decide (d.minute < 100)
    && decide (d.second < 100)

mutual
/-- The supported session values: shapes the tagged wire format represents
faithfully.  Mappings carry pairwise distinct keys and never collide with
the reserved single-entry tag shape, unique-ids fit 128 bits, blob bytes
are bytes, and date fields are within rendering bounds. -/
def svOK : SessionValue → Bool
  | .null => true
  | .bool _ => true
  | .num _ => true
  | .str _ => true
  | .seq l => svlOK l
  | .obj o => singleNotReserved o && svoOK o
  | .tup l => svlOK l
  | .uuid n => decide (n < 340282366920938463463374607431768211456)
  | .bytes bs => bs.all (fun b => decide (b < 256))
  | .markup _ => true
  | .date d => dateOK d
/-- Well-formedness of sequence items. -/
def svlOK : SVList → Bool
  | .nil => true
  | .cons h t => svOK h && svlOK t
/-- Well-formedness of mapping entries. -/
def svoOK : SVObj → Bool
  | .nil => true
  | .cons k v t => keyNotInSVO k t && svOK v && svoOK t
end

/-! ## Timestamps (helpers.py) and the signing pipeline

The signing pipeline itself lives in the itsdangerous library, which is not
part of this repository; it is modelled from the specification (sections 4.2
and 4.3): derive the key as HMAC-SHA1 of the secret over the salt, frame the
tagged-JSON payload uncompressed as unpadded url-safe base64, append the
base64 timestamp and the base64 HMAC-SHA1 signature of payload-dot-timestamp,
joined with dots.  Verification unframes into exactly three segments and
compares the recomputed signature segment exactly, with no age check. -/

/-- The EPOCH constant helpers.py imports from the Python calendar module:
the Gregorian epoch year, 1970, as a plain integer. -/
def EPOCH : Int := 1970

/-- Embeds LegacyTimestampSigner.get_timestamp (helpers.py line 40): the
current time in seconds with EPOCH subtracted. -/
def legacyGetTimestamp (now : Int) : Int :=
  now - EPOCH

/-- Models the modern itsdangerous TimestampSigner.get_timestamp from the
specification: seconds since the Unix epoch, unchanged. -/
def modernGetTimestamp (now : Int) : Int :=
  now

/-- The number of seconds from 0001-01-01T00:00:00Z to 1970-01-01T00:00:00Z
(719162 days), the constant the specification names for legacy mode. -/
def secondsYear1To1970 : Int := 62135596800

/-- The timestamp a signer in the given mode derives from the current time,
as a natural number of seconds (all concerned times are after 1970). -/
def getTimestamp (legacy : Bool) (now : Nat) : Nat :=
  if legacy then now - 1970 else now

/-- A Python value passed as a secret: a text string, a byte string, or a
value of any other type (only its type name matters to the guards in
session.py, which check isinstance against bytes and str). -/
inductive Secret where
  | str (s : List Char)
  | bytes (b : List Nat)
  | other (typeName : List Char)

/-- True for string-typed secrets (the isinstance guard in session.py). -/
def Secret.isStringType : Secret → Bool
  | .str _ => true
  | .bytes _ => true
  | .other _ => false

/-- Models itsdangerous want_bytes: text secrets are UTF-8 encoded. -/
def Secret.toBytes : Secret → List Nat
  | .str s => utf8Encode s
  | .bytes b => b
  | .other _ => []

/-- The default salt from flask_unsign (cookie-session). -/
def DEFAULT_SALT : List Char :=
  ['c', 'o', 'o', 'k', 'i', 'e', '-', 's', 'e', 's', 's', 'i', 'o', 'n']

/-- Modelled from the spec: derive_key is HMAC-SHA1 with the secret as key
over the salt, raw digest (the hmac key-derivation mode of the serializer
built in get_serializer). -/
def deriveKey (secretBytes : List Nat) (salt : List Char) : List Nat :=
  hmacSha1 secretBytes (utf8Encode salt)

/-- The payload segment: tagged JSON, UTF-8, unpadded url-safe base64.
Modelled from the spec: sign frames the encoded payload uncompressed. -/
def payloadSeg (v : SessionValue) : List Char :=
  b64UrlEncode (utf8Encode (serJ (tag v)))

/-- The timestamp segment for a signing moment. -/
def timestampSeg (legacy : Bool) (now : Nat) : List Char :=
  b64UrlEncode (natToBytesBE (getTimestamp legacy now))

/-- The signature segment over given payload and timestamp segments.
Modelled from the spec: HMAC-SHA1 of payload-dot-timestamp under the
derived key, base64url unpadded. -/
def sigSeg (secretBytes : List Nat) (salt : List Char) (p t : List Char) : List Char :=
  b64UrlEncode (hmacSha1 (deriveKey secretBytes salt) (utf8Encode (p ++ '.' :: t)))

/-- Modelled from the spec: the compose step of the serializer dumps chain —
payload, timestamp and signature segments joined with dots, never prefixed
with the compressed flag. -/
def signCore (v : SessionValue) (secretBytes : List Nat) (salt : List Char)
    (legacy : Bool) (now : Nat) : List Char :=
  let p := payloadSeg v
  let t := timestampSeg legacy now
  p ++ '.' :: t ++ '.' :: sigSeg secretBytes salt p t

/-- Embeds flask_unsign.session.sign: the string-type guard raises
SigningError before any signing work; otherwise the serializer signs.  The
signing moment is passed explicitly in place of the wall clock read. -/
def signL (v : SessionValue) (secret : Secret) (legacy : Bool) (salt : List Char)
    (now : Nat) : Except PyExc (List Char) :=
  if secret.isStringType then
    .ok (signCore v secret.toBytes salt legacy now)
  else
    .error .signingError

/-- Modelled from the spec: the check step of the Signature Engine — strip
an optional compressed-flag dot, split into exactly three dot segments,
recompute the signature from the extracted payload and timestamp segments,
and compare against the provided signature segment exactly; any framing
failure is a false result. -/
def check (cookie : List Char) (secretBytes : List Nat) (salt : List Char) : Bool :=
  let hasFlag : Bool := match cookie with
    | c :: _ => c == '.'
    | [] => false
  let body := if hasFlag then cookie.tail else cookie
  match splitOnDot body with
  | [p, t, g] => g == sigSeg secretBytes salt p t
  | _ => false

/-- Embeds flask_unsign.session.verify: the string-type guard raises
FlaskUnsignException before any cryptographic work; any signature or
framing failure is a false result, a match is true. -/
def verifyL (cookie : List Char) (secret : Secret) (legacy : Bool)
    (salt : List Char) : Except PyExc Bool :=
  if secret.isStringType then
    .ok (check cookie secret.toBytes salt)
  else
    .error .flaskUnsignException

/-- String-level wrapper for sign. -/
def sign (v : SessionValue) (secret : Secret) (legacy : Bool) (salt : String)
    (now : Nat) : Except PyExc String :=
  (signL v secret legacy salt.data now).map String.mk

/-- String-level wrapper for verify. -/
def verify (cookie : String) (secret : Secret) (legacy : Bool) (salt : String) :
    Except PyExc Bool :=
  verifyL cookie.data secret legacy salt.data

/-! ## The crack engine (cracker.py)

Cracker.crack launches a fixed number of worker threads all running
Cracker.unsign.  Each worker repeatedly pulls a chunk of candidates from the
shared stream under the lock (Cracker.secrets), re-evaluates the while
condition, tests every candidate of its batch with session.verify — writing
self.secret on a match, with no check between candidates of one batch — and
then adds the batch size to the shared attempts counter.  The model below is
a small-step interleaving semantics over that shared state: one step is one
atomic access to shared state, a scheduler picks which worker moves, and the
claims quantify over every schedule.  Thread-pool termination is
cooperative, matching the only checks the code performs (the while
condition); verify never fails on string candidates, so the error path of
the thread pool has no transitions here. -/

/-- Python truthiness of the found-secret slot: `not self.secret` is false
only for a non-empty found string. -/
def secretTruthy : Option (List Char) → Bool
  | none => false
  | some s => !s.isEmpty

/-- Python truthiness of a candidate batch: `any(secrets)` is true when some
batch element is a non-empty string. -/
def anyTruthy (batch : List (List Char)) : Bool :=
  batch.any (fun s => !s.isEmpty)

/-- Where one worker stands in Cracker.unsign:
pull — about to call self.secrets();
checkB — holding a freshly pulled batch, about to evaluate the while
condition;
test — inside the for loop with the candidates still to test and the full
batch size (the local attempts counter it will flush);
done — returned. -/
inductive WPhase where
  | pull
  | checkB (batch : List (List Char))
  | test (pending : List (List Char)) (size : Nat)
  | done

/-- Shared state of one crack run: the not-yet-pulled remainder of the
candidate stream, the found-secret slot, the attempts counter, and every
worker's phase. -/
structure CrackState where
  remaining : List (List Char)
  secret : Option (List Char)
  attempts : Nat
  workers : List WPhase

/-- Parameters of a run: the verifier applied to each candidate (session
verify against the fixed target cookie, salt and legacy flag, which are
read-only during the run) and the chunk size. -/
structure CrackConfig where
  verifyc : List Char → Bool
  chunk : Nat

/-- The while condition of Cracker.unsign (line 65):
`any(secrets) and not self.secret and not self.has_error`; the model has no
error transitions, so has_error stays false. -/
def whileCond (cfg : CrackConfig) (batch : List (List Char)) (st : CrackState) : Bool :=
  anyTruthy batch && !(secretTruthy st.secret)

/-- One atomic step of one worker of Cracker.unsign:
stepPull — Cracker.secrets: under the lock, islice the next chunk off the
shared stream;
stepRun — the while condition is true: enter the for loop over the batch;
stepExit — the while condition is false: return;
stepTest — one for-loop iteration: verify one candidate and write the
found-secret slot on a match (unconditionally, no check between candidates);
stepFlush — after the for loop: under the lock, add the batch size to the
shared attempts counter and go pull the next chunk. -/
inductive CStep (cfg : CrackConfig) : CrackState → CrackState → Prop where
  | stepPull (st : CrackState) (i : Nat)
      (h : st.workers.get? i = some .pull) :
      CStep cfg st
        { st with
          remaining := st.remaining.drop cfg.chunk,
          workers := st.workers.set i (.checkB (st.remaining.take cfg.chunk)) }
  | stepRun (st : CrackState) (i : Nat) (batch : List (List Char))
      (h : st.workers.get? i = some (.checkB batch))
      (hc : whileCond cfg batch st = true) :
      CStep cfg st
        { st with workers := st.workers.set i (.test batch batch.length) }
  | stepExit (st : CrackState) (i : Nat) (batch : List (List Char))
      (h : st.workers.get? i = some (.checkB batch))
      (hc : whileCond cfg batch st = false) :
      CStep cfg st { st with workers := st.workers.set i .done }
  | stepTest (st : CrackState) (i : Nat) (c : List Char)
      (pending : List (List Char)) (size : Nat)
      (h : st.workers.get? i = some (.test (c :: pending) size)) :
      CStep cfg st
        { st with
          secret := if cfg.verifyc c then some c else st.secret,
          workers := st.workers.set i (.test pending size) }
  | stepFlush (st : CrackState) (i : Nat) (size : Nat)
      (h : st.workers.get? i = some (.test [] size)) :
      CStep cfg st
        { st with
          attempts := st.attempts + size,
          workers := st.workers.set i .pull }

/-- Reachability along any schedule. -/
inductive CReaches (cfg : CrackConfig) : CrackState → CrackState → Prop where
  | refl (st : CrackState) : CReaches cfg st st
  | step (a b c : CrackState) : CStep cfg a b → CReaches cfg b c → CReaches cfg a c

/-- The initial state of Cracker.crack with the given stream and worker
count: nothing pulled, no secret, zero attempts, every worker at its first
secrets() call. -/
def crackInit (stream : List (List Char)) (threads : Nat) : CrackState :=
  ⟨stream, none, 0, List.replicate threads .pull⟩

/-- A run is finished when every worker has returned (pool join). -/
def AllDone (st : CrackState) : Prop :=
  ∀ w ∈ st.workers, w = WPhase.done

/-- Weight of one worker phase for the termination measure. -/
def wWeight : WPhase → Nat
  | .pull => 2
  | .checkB [] => 1
  | .checkB batch => 3 * batch.length + 4
  | .test pending _ => 3 * pending.length + 3
  | .done => 0

/-- Termination measure: strictly decreases on every step of every worker. -/
def cMeasure (st : CrackState) : Nat :=
  6 * st.remaining.length + (st.workers.map wWeight).sum

/-- Candidates a worker still holds (pulled but neither tested nor flushed). -/
def phaseSize : WPhase → Nat
  | .checkB b => b.length
  | .test _ s => s
  | _ => 0

/-- The local attempts counter a worker holds inside the for loop. -/
def testSize : WPhase → Nat
  | .test _ s => s
  | _ => 0

/-! ## Concrete scenario shared by the claims about the crack engine -/

/-- The known secret of the scenario the specification describes. -/
def KEY : List Char := ['C', 'H', 'A', 'N', 'G', 'E', 'M', 'E']

/-- The candidate list of that scenario. -/
def crackStream : List (List Char) :=
  [['f', 'o', 'o'], ['b', 'a', 'r'], ['b', 'a', 'z'], KEY]

/-- A session cookie signed with the known secret. -/
def targetCookie : List Char :=
  signCore (.obj (.cons ['a'] (.num 1) .nil)) (utf8Encode KEY) DEFAULT_SALT false 1700000000

/-- The run parameters: each candidate is verified against the target
cookie exactly as Cracker.unsign calls session.verify. -/
def crackCfg (chunk : Nat) : CrackConfig :=
  ⟨fun cand => check targetCookie (utf8Encode cand) DEFAULT_SALT, chunk⟩

/-- The run invariant of the concrete scenario: the unpulled remainder is a
suffix of the stream (the shared cursor only advances); every batch a worker
holds came off the stream, and a short batch certifies the stream ran dry;
pending counts never exceed the flushed size; the found slot only ever
holds the real key; the key is still in play somewhere until the slot is
set; the attempts counter plus all held batches never exceed the stream; and
a truthy slot guarantees at least one test is already counted or pending
flush. -/
def CrackInv (cfg : CrackConfig) (st : CrackState) : Prop :=
  (∃ k, st.remaining = crackStream.drop k)
  ∧ (∀ i batch, st.workers.get? i = some (.checkB batch) →
      (∀ c ∈ batch, c ∈ crackStream) ∧ (batch.length < cfg.chunk → st.remaining = []))
  ∧ (∀ i p s, st.workers.get? i = some (.test p s) →
      (∀ c ∈ p, c ∈ crackStream) ∧ p.length ≤ s ∧ 1 ≤ s)
  ∧ (st.secret = none ∨ st.secret = some KEY)
  ∧ (secretTruthy st.secret = true
      ∨ (KEY ∈ st.remaining ∧ ∃ i w, st.workers.get? i = some w ∧ w ≠ .done)
      ∨ (∃ i batch, st.workers.get? i = some (.checkB batch) ∧ KEY ∈ batch)
      ∨ (∃ i p s, st.workers.get? i = some (.test p s) ∧ KEY ∈ p))
  ∧ (st.attempts + (st.workers.map phaseSize).sum + st.remaining.length
      ≤ crackStream.length)
  ∧ (secretTruthy st.secret = true → 1 ≤ st.attempts + (st.workers.map testSize).sum)

/-! ## The two inputs decode actually reads -/

/-- The compressed flag decode notes: a leading dot. -/
def cookieFlag (cs : List Char) : Bool :=
  match cs with
  | c :: _ => c == '.'
  | [] => false

/-- The only text decode then looks at: the part before the first dot of
the remainder. -/
def cookieFirstSeg (cs : List Char) : List Char :=
  (splitOnDot (if cookieFlag cs then cs.tail else cs)).headD []

/-- The payload pipeline as a function of the two inputs it reads. -/
def decodePayloadOf (flag : Bool) (seg : List Char) : Option (List Char) :=
  match itsB64Decode seg with
  | none => none
  | some bs =>
    match (if flag then zlibDecompress bs else some bs) with
    | none => none
    | some bs2 =>
      match utf8Decode bs2 with
      | none => none
      | some text => some text

/-- The whole of decode as a function of the two inputs it reads. -/
def decodeOf (flag : Bool) (seg : List Char) : Except PyExc SessionValue :=
  match decodePayloadOf flag seg with
  | none => .error .decodeError
  | some text =>
    match jsonLoads text with
    | none => .error .decodeError
    | some j => sessionOfJson j

/-! ## Auxiliary definitions for the proofs -/

/-- A decimal digit character predicate. -/
abbrev isDigitChar (c : Char) : Prop :=
  48 ≤ c.toNat ∧ c.toNat ≤ 57

/-- What may legally follow a serialized number inside a JSON document: end
of input, or a character that is neither a digit nor a fraction or exponent
marker (in serializer output this is a comma, a closing bracket or brace, or
nothing). -/
def numDelim : List Char → Prop
  | [] => True
  | c :: _ => ¬ isDigitChar c ∧ c ≠ '.' ∧ c ≠ 'e' ∧ c ≠ 'E'

/-- Total fuel the string-body parser needs for an escaped string: one
unit per character plus one for the closing quote. -/
def escFuelAll : List Char → Nat
  | [] => 1
  | _ :: cs => 1 + escFuelAll cs

/-- Append of array spines. -/
def arrAppend : JArr → JArr → JArr
  | .nil, b => b
  | .cons h t, b => .cons h (arrAppend t b)

/-- Append of object spines. -/
def objAppend : JObj → JObj → JObj
  | .nil, b => b
  | .cons k v t, b => .cons k v (objAppend t b)

/-- True when the key differs from every key of the object. -/
def keyNotIn (k : List Char) : JObj → Bool
  | .nil => true
  | .cons k0 _ t => (k0 ≠ k) && keyNotIn k t

mutual
/-- Well-formed wire JSON: every object has pairwise distinct keys, the
invariant Python dicts guarantee on the serializing side. -/
def jsonOK : Json → Bool
  | .arr l => jaOK l
  | .obj o => joOK o
  | _ => true
/-- Well-formedness of array items. -/
def jaOK : JArr → Bool
  | .nil => true
  | .cons h t => jsonOK h && jaOK t
/-- Well-formedness of object entries. -/
def joOK : JObj → Bool
  | .nil => true
  | .cons k v t => keyNotIn k t && jsonOK v && joOK t
end

mutual
/-- Fuel sufficient for the value parser on a serialized document. -/
def jFuel : Json → Nat
  | .null => 1
  | .bool _ => 1
  | .num _ => 1
  | .str s => 1 + escFuelAll s
  | .arr .nil => 2
  | .arr (.cons h t) => 2 + jFuel h + jaFuel t
  | .obj .nil => 2
  | .obj (.cons k v t) => 2 + escFuelAll k + jFuel v + joFuel t
/-- Fuel for the remaining-array-items loop (one per comma plus the item). -/
def jaFuel : JArr → Nat
  | .nil => 1
  | .cons h t => 1 + jFuel h + jaFuel t
/-- Fuel for the remaining-object-entries loop. -/
def joFuel : JObj → Nat
  | .nil => 1
  | .cons k v t => 1 + escFuelAll k + jFuel v + joFuel t
end

/-- Key-freshness of a whole entry list against an accumulator. -/
def objFreshIn : JObj → JObj → Bool
  | .nil, _ => true
  | .cons k _ t, acc => keyNotIn k acc && objFreshIn t acc

/-! ## Basic lemmas: characters and decimal digits -/

theorem toNat_ofNat_valid (n : Nat) (h : Nat.isValidChar n) : (Char.ofNat n).toNat = n := by
  unfold Char.ofNat
  rw [dif_pos h]
  rfl

theorem toNat_ofNat_small (n : Nat) (h : n < 55296) : (Char.ofNat n).toNat = n :=
  toNat_ofNat_valid n (Or.inl h)

theorem decChr_toNat (v : Nat) : (decChr v).toNat = 48 + v % 10 := by
  unfold decChr
  exact toNat_ofNat_small _ (by omega)

theorem digitsVal_append (xs : List Char) (c : Char) :
    digitsVal (xs ++ [c]) = digitsVal xs * 10 + (c.toNat - 48) := by
  unfold digitsVal
  rw [List.foldl_append]
  rfl

theorem decFix_val (k n : Nat) : digitsVal (decFix k n) = n % 10 ^ k := by
  induction k generalizing n with
  | zero => simp [decFix, digitsVal, Nat.mod_one]
  | succ k ih =>
    unfold decFix
    rw [digitsVal_append, ih, decChr_toNat]
    have h1 : 48 + n % 10 % 10 - 48 = n % 10 := by omega
    have h2 : n % (10 ^ k * 10) = n % 10 + n / 10 % 10 ^ k * 10 := by
      rw [Nat.mul_comm, Nat.mod_mul]
      ring
    rw [h1, pow_succ, h2]
    ring

theorem digitsVal_dropZeros (xs : List Char) :
    digitsVal (xs.dropWhile (fun c => c = '0')) = digitsVal xs := by
  induction xs with
  | nil => rfl
  | cons c rest ih =>
    by_cases h : c = '0'
    · subst h
      rw [List.dropWhile_cons_of_pos (by simp)]
      rw [ih]
      show digitsVal rest = digitsVal ('0' :: rest)
      unfold digitsVal
      simp
    · rw [List.dropWhile_cons_of_neg (by simp [h])]

theorem char_eq_of_toNat (c d : Char) (h : c.toNat = d.toNat) : c = d := by
  cases c with
  | mk v hv =>
    cases d with
    | mk w hw =>
      congr 1
      exact UInt32.toNat.inj h

theorem dropWhile_head_false {p : Char → Bool} {l : List Char} {c : Char} {rest : List Char}
    (h : l.dropWhile p = c :: rest) : p c = false := by
  have h2 := List.head?_dropWhile_not p l
  rw [h] at h2
  simpa using h2

theorem decFix_digits (k n : Nat) : ∀ c ∈ decFix k n, isDigitChar c := by
  induction k generalizing n with
  | zero => intro c hc; simp [decFix] at hc
  | succ k ih =>
    intro c hc
    unfold decFix at hc
    rw [List.mem_append] at hc
    rcases hc with hc | hc
    · exact ih _ c hc
    · simp at hc
      subst hc
      constructor <;> rw [decChr_toNat] <;> omega

theorem natDigitsCore_val (n : Nat) : digitsVal (natDigitsCore n) = n := by
  induction n using Nat.strong_induction_on with
  | _ n ih =>
    rw [natDigitsCore]
    by_cases h : n = 0
    · subst h; simp [digitsVal]
    · rw [dif_neg h, digitsVal_append, ih (n / 10) (Nat.div_lt_self (by omega) (by omega)),
        decChr_toNat]
      omega

theorem natDigitsCore_digits (n : Nat) : ∀ c ∈ natDigitsCore n, isDigitChar c := by
  induction n using Nat.strong_induction_on with
  | _ n ih =>
    intro c hc
    rw [natDigitsCore] at hc
    by_cases h : n = 0
    · rw [dif_pos h] at hc; simp at hc
    · rw [dif_neg h, List.mem_append] at hc
      rcases hc with hc | hc
      · exact ih (n / 10) (Nat.div_lt_self (by omega) (by omega)) c hc
      · simp at hc
        subst hc
        constructor <;> rw [decChr_toNat] <;> omega

theorem natDigitsCore_head (n : Nat) (c : Char) (rest : List Char)
    (h : natDigitsCore n = c :: rest) : c.toNat ≠ 48 := by
  induction n using Nat.strong_induction_on generalizing c rest with
  | _ n ih =>
    rw [natDigitsCore] at h
    by_cases h0 : n = 0
    · rw [dif_pos h0] at h; cases h
    · rw [dif_neg h0] at h
      rcases he : natDigitsCore (n / 10) with _ | ⟨d, ds⟩
      · rw [he] at h
        simp at h
        have hv := natDigitsCore_val (n / 10)
        rw [he] at hv
        have h10 : n % 10 ≠ 0 := by
          intro hz
          apply h0
          have : digitsVal [] = 0 := rfl
          omega
        rw [← h.1, decChr_toNat]
        omega
      · rw [he] at h
        simp at h
        rcases h with ⟨h1, _⟩
        rw [← h1]
        exact ih (n / 10) (Nat.div_lt_self (by omega) (by omega)) d ds he

theorem natSer_val (n : Nat) : digitsVal (natSer n) = n := by
  unfold natSer
  by_cases h0 : n = 0
  · subst h0; rfl
  · rw [if_neg h0]
    by_cases hlt : n < 10 ^ 40
    · rw [if_pos hlt]
      rw [digitsVal_dropZeros, decFix_val, Nat.mod_eq_of_lt hlt]
    · rw [if_neg hlt]
      exact natDigitsCore_val n

theorem natSer_ne_nil (n : Nat) : natSer n ≠ [] := by
  by_cases h0 : n = 0
  · subst h0; simp [natSer]
  · intro h
    have := natSer_val n
    rw [h] at this
    exact h0 (by simpa [digitsVal] using this.symm)

theorem natSer_digits (n : Nat) : ∀ c ∈ natSer n, isDigitChar c := by
  intro c hc
  unfold natSer at hc
  by_cases h0 : n = 0
  · rw [if_pos h0] at hc
    simp at hc
    subst hc
    exact ⟨by decide, by decide⟩
  · rw [if_neg h0] at hc
    by_cases hlt : n < 10 ^ 40
    · rw [if_pos hlt] at hc
      exact decFix_digits 40 n c ((List.dropWhile_sublist _).mem hc)
    · rw [if_neg hlt] at hc
      exact natDigitsCore_digits n c hc

theorem natSer_head (n : Nat) (c : Char) (rest : List Char) (h0 : n ≠ 0)
    (h : natSer n = c :: rest) : c.toNat ≠ 48 := by
  unfold natSer at h
  rw [if_neg h0] at h
  by_cases hlt : n < 10 ^ 40
  · rw [if_pos hlt] at h
    have hf := dropWhile_head_false h
    intro hc
    have : c = '0' := char_eq_of_toNat c '0' (by simpa using hc)
    rw [this] at hf
    simp at hf
  · rw [if_neg hlt] at h
    exact natDigitsCore_head n c rest h

theorem pDigits_spec (ds rest : List Char) (hd : ∀ c ∈ ds, isDigitChar c)
    (hr : numDelim rest) : pDigits (ds ++ rest) = (ds, rest) := by
  induction ds with
  | nil =>
    cases rest with
    | nil => rfl
    | cons c r =>
      simp only [List.nil_append, pDigits]
      rw [if_neg]
      intro hc
      exact hr.1 ⟨by exact_mod_cast hc.1, by exact_mod_cast hc.2⟩
  | cons c cs ih =>
    have hc := hd c (by simp)
    unfold pDigits
    rw [List.cons_append]
    simp only []
    rw [ih (fun x hx => hd x (by simp [hx]))]
    rw [if_pos ⟨by exact_mod_cast hc.1, by exact_mod_cast hc.2⟩]

theorem pNumBody_ser (sign : Bool) (m : Nat) (rest : List Char) (hr : numDelim rest) :
    pNumBody sign (natSer m ++ rest) =
      some (if sign then -(Int.ofNat m) else Int.ofNat m, rest) := by
  have hne := natSer_ne_nil m
  rcases he : natSer m with _ | ⟨d, ds⟩
  · exact absurd he hne
  · have hdig : ∀ c ∈ d :: ds, isDigitChar c := by
      rw [← he]; exact natSer_digits m
    have hval : digitsVal (d :: ds) = m := by rw [← he]; exact natSer_val m
    unfold pNumBody
    rw [← he, pDigits_spec _ _ (by rw [he]; exact hdig) hr, he]
    simp only []
    have hdne : ¬ (d = '0' ∧ ds ≠ []) := by
      intro ⟨h1, h2⟩
      by_cases hm : m = 0
      · subst hm
        have : natSer 0 = ['0'] := rfl
        rw [this] at he
        cases he
        exact h2 rfl
      · exact natSer_head m d ds hm he (by rw [h1]; rfl)
    rw [if_neg hdne]
    cases rest with
    | nil => rw [hval]
    | cons r rs =>
      have hno : ¬ (r = '.' ∨ r = 'e' ∨ r = 'E') := by
        intro h
        rcases h with h | h | h
        · exact hr.2.1 h
        · exact hr.2.2.1 h
        · exact hr.2.2.2 h
      dsimp only
      rw [if_neg hno, hval]

theorem pNum_ser (n : Int) (rest : List Char) (hr : numDelim rest) :
    pNum (intSer n ++ rest) = some (n, rest) := by
  by_cases hneg : n < 0
  · unfold intSer
    rw [if_pos hneg]
    show pNum (Char.ofNat 45 :: (natSer n.natAbs ++ rest)) = some (n, rest)
    unfold pNum
    dsimp only
    rw [if_pos (by rfl)]
    rw [pNumBody_ser true n.natAbs rest hr]
    rw [if_pos rfl]
    have h2 : -(Int.ofNat n.natAbs) = n := by
      rw [Int.ofNat_eq_natCast]
      omega
    rw [h2]
  · unfold intSer
    rw [if_neg hneg]
    have hne := natSer_ne_nil n.natAbs
    rcases he : natSer n.natAbs with _ | ⟨d, ds⟩
    · exact absurd he hne
    · have hd := natSer_digits n.natAbs d (by rw [he]; simp)
      show pNum (d :: (ds ++ rest)) = some (n, rest)
      unfold pNum
      dsimp only
      rw [if_neg (by rcases hd with ⟨h1, h2⟩; omega)]
      rw [← List.cons_append, ← he, pNumBody_ser false n.natAbs rest hr]
      rw [if_neg (by simp)]
      have h2 : Int.ofNat n.natAbs = n := by
        rw [Int.ofNat_eq_natCast]
        omega
      rw [h2]

/-! ## Hexadecimal and string-literal round trips -/

theorem hexChr_toNat (v : Nat) (h : v < 16) :
    (hexChr v).toNat = if v < 10 then 48 + v else 87 + v := by
  unfold hexChr
  by_cases h10 : v < 10
  · rw [if_pos h10, if_pos h10]
    exact toNat_ofNat_small _ (by omega)
  · rw [if_neg h10, if_neg h10]
    rw [toNat_ofNat_small _ (by omega)]
    omega

theorem hexVal_hexChr (v : Nat) (h : v < 16) : hexVal (hexChr v) = some v := by
  unfold hexVal
  rw [hexChr_toNat v h]
  by_cases h10 : v < 10
  · rw [if_pos h10]
    rw [if_pos (by omega)]
    congr 1
    omega
  · rw [if_neg h10]
    rw [if_neg (by omega), if_pos (by omega)]
    congr 1
    omega

theorem char_valid_nat (c : Char) :
    c.toNat < 55296 ∨ (57344 ≤ c.toNat ∧ c.toNat < 1114112) := by
  cases c with
  | mk v hv =>
    rcases hv with h | ⟨h1, h2⟩
    · left
      exact h
    · right
      exact ⟨h1, h2⟩

theorem hexFix4_explicit (n : Nat) :
    hexFix 4 n = [hexChr (n / 4096 % 16), hexChr (n / 256 % 16),
      hexChr (n / 16 % 16), hexChr (n % 16)] := by
  show hexFix 3 (n / 16) ++ [hexChr (n % 16)] = _
  show (hexFix 2 (n / 16 / 16) ++ [hexChr (n / 16 % 16)]) ++ [hexChr (n % 16)] = _
  show ((hexFix 1 (n / 16 / 16 / 16) ++ [hexChr (n / 16 / 16 % 16)])
    ++ [hexChr (n / 16 % 16)]) ++ [hexChr (n % 16)] = _
  show ((([] ++ [hexChr (n / 16 / 16 / 16 % 16)]) ++ [hexChr (n / 16 / 16 % 16)])
    ++ [hexChr (n / 16 % 16)]) ++ [hexChr (n % 16)] = _
  simp only [Nat.div_div_eq_div_mul]
  norm_num

theorem pHex4_hexFix (n : Nat) (h : n < 65536) (rest : List Char) :
    pHex4 (hexFix 4 n ++ rest) = some (n, rest) := by
  rw [hexFix4_explicit]
  show pHex4 (hexChr (n / 4096 % 16) :: hexChr (n / 256 % 16)
    :: hexChr (n / 16 % 16) :: hexChr (n % 16) :: rest) = some (n, rest)
  unfold pHex4
  dsimp only
  rw [hexVal_hexChr _ (by omega), hexVal_hexChr _ (by omega),
    hexVal_hexChr _ (by omega), hexVal_hexChr _ (by omega)]
  dsimp only
  congr 2
  omega

theorem pStr_short (f0 : Nat) (e : Char) (d : Char) (tl cs rest : List Char)
    (he : e.toNat = 34 ∨ e.toNat = 92 ∨ e.toNat = 47)
    (hd : d = e)
    (hrec : pStrBody f0 tl = some (cs, rest)) :
    pStrBody (f0 + 1) ('\\' :: e :: tl) = some (d :: cs, rest) := by
  unfold pStrBody
  rw [if_neg (by decide), if_pos (by decide)]
  dsimp only
  unfold pStrEscape
  rw [if_pos he, hrec, hd]
  rfl

theorem pStr_ctrl (f0 : Nat) (e : Char) (v : Nat) (d : Char) (tl cs rest : List Char)
    (he : (e = 'b' ∧ v = 8) ∨ (e = 'f' ∧ v = 12) ∨ (e = 'n' ∧ v = 10)
      ∨ (e = 'r' ∧ v = 13) ∨ (e = 't' ∧ v = 9))
    (hd : d = Char.ofNat v)
    (hrec : pStrBody f0 tl = some (cs, rest)) :
    pStrBody (f0 + 1) ('\\' :: e :: tl) = some (d :: cs, rest) := by
  unfold pStrBody
  rw [if_neg (by decide), if_pos (by decide)]
  dsimp only
  unfold pStrEscape
  rcases he with ⟨he, hv⟩ | ⟨he, hv⟩ | ⟨he, hv⟩ | ⟨he, hv⟩ | ⟨he, hv⟩ <;> subst he <;> subst hv
  · rw [if_neg (by decide), if_pos (by decide), hrec, hd]
    rfl
  · rw [if_neg (by decide), if_neg (by decide), if_pos (by decide), hrec, hd]
    rfl
  · rw [if_neg (by decide), if_neg (by decide), if_neg (by decide),
      if_pos (by decide), hrec, hd]
    rfl
  · rw [if_neg (by decide), if_neg (by decide), if_neg (by decide),
      if_neg (by decide), if_pos (by decide), hrec, hd]
    rfl
  · rw [if_neg (by decide), if_neg (by decide), if_neg (by decide),
      if_neg (by decide), if_neg (by decide), if_pos (by decide), hrec, hd]
    rfl

theorem pStrBody_esc_step (f0 : Nat) (e : Char) (tl : List Char) :
    pStrBody (f0 + 1) ('\\' :: e :: tl) = pStrEscape (pStrBody f0) e tl := by
  unfold pStrBody
  rw [if_neg (by decide), if_pos (by decide)]

theorem pStrEscape_u (k : List Char → StrRes) (rest2 : List Char) :
    pStrEscape k 'u' rest2 = pStrU k rest2 := by
  unfold pStrEscape
  rw [if_neg (by decide), if_neg (by decide), if_neg (by decide), if_neg (by decide),
    if_neg (by decide), if_neg (by decide), if_pos (by decide)]

theorem pStrU_hex (k : List Char → StrRes) (w : Nat) (hw : w < 65536) (tl : List Char) :
    pStrU k (hexFix 4 w ++ tl) =
      if 55296 ≤ w ∧ w < 56320 then pStrPair k w tl
      else if 56320 ≤ w ∧ w < 57344 then none
      else (k tl).map (fun p => (Char.ofNat w :: p.1, p.2)) := by
  rw [hexFix4_explicit]
  show pStrU k (hexChr (w / 4096 % 16) :: hexChr (w / 256 % 16) :: hexChr (w / 16 % 16)
    :: hexChr (w % 16) :: tl) = _
  unfold pStrU
  dsimp only
  rw [hexVal_hexChr _ (by omega), hexVal_hexChr _ (by omega),
    hexVal_hexChr _ (by omega), hexVal_hexChr _ (by omega)]
  dsimp only
  have hval : ((w / 4096 % 16 * 16 + w / 256 % 16) * 16 + w / 16 % 16) * 16 + w % 16 = w := by
    omega
  rw [hval]

theorem pStrPair_hex (f0 v w : Nat) (tl cs rest : List Char)
    (hw1 : 56320 ≤ w) (hw2 : w < 57344)
    (hrec : pStrBody f0 tl = some (cs, rest)) :
    pStrPair (pStrBody f0) v ('\\' :: 'u' :: (hexFix 4 w ++ tl))
      = some (Char.ofNat (65536 + (v - 55296) * 1024 + (w - 56320)) :: cs, rest) := by
  rw [hexFix4_explicit]
  show pStrPair (pStrBody f0) v ('\\' :: 'u' :: hexChr (w / 4096 % 16)
    :: hexChr (w / 256 % 16) :: hexChr (w / 16 % 16) :: hexChr (w % 16) :: tl) = _
  unfold pStrPair
  dsimp only
  rw [if_pos (by constructor <;> decide)]
  rw [hexVal_hexChr _ (by omega), hexVal_hexChr _ (by omega),
    hexVal_hexChr _ (by omega), hexVal_hexChr _ (by omega)]
  dsimp only
  have hval : ((w / 4096 % 16 * 16 + w / 256 % 16) * 16 + w / 16 % 16) * 16 + w % 16 = w := by
    omega
  rw [hval, if_pos (by omega), hrec]
  rfl

theorem pStr_ubmp (f0 : Nat) (n : Nat) (d : Char) (tl cs rest : List Char)
    (hd : d = Char.ofNat n)
    (hn : n < 65536) (hs1 : ¬ (55296 ≤ n ∧ n < 56320)) (hs2 : ¬ (56320 ≤ n ∧ n < 57344))
    (hrec : pStrBody f0 tl = some (cs, rest)) :
    pStrBody (f0 + 1) ('\\' :: 'u' :: (hexFix 4 n ++ tl)) = some (d :: cs, rest) := by
  rw [pStrBody_esc_step, pStrEscape_u, pStrU_hex _ n hn tl, if_neg hs1, if_neg hs2, hrec, hd]
  rfl

theorem pStr_upair (f0 : Nat) (n : Nat) (d : Char) (tl cs rest : List Char)
    (hd : d = Char.ofNat n)
    (h1 : 65536 ≤ n) (h2 : n < 1114112)
    (hrec : pStrBody f0 tl = some (cs, rest)) :
    pStrBody (f0 + 1) ('\\' :: 'u' :: (hexFix 4 (55296 + (n - 65536) / 1024)
      ++ '\\' :: 'u' :: hexFix 4 (56320 + (n - 65536) % 1024) ++ tl))
      = some (d :: cs, rest) := by
  have hdiv : (n - 65536) / 1024 < 1024 := by
    apply Nat.div_lt_of_lt_mul
    omega
  have hmod : (n - 65536) % 1024 < 1024 := Nat.mod_lt _ (by omega)
  generalize hhi : 55296 + (n - 65536) / 1024 = hi
  generalize hlo : 56320 + (n - 65536) % 1024 = lo
  rw [pStrBody_esc_step, pStrEscape_u, List.append_assoc]
  rw [pStrU_hex (pStrBody f0) hi (by omega), if_pos (by omega)]
  have hshape : ('\\' :: 'u' :: hexFix 4 lo) ++ tl = '\\' :: 'u' :: (hexFix 4 lo ++ tl) := by
    simp
  rw [hshape, pStrPair_hex f0 hi lo tl cs rest (by omega) (by omega) hrec]
  have hcomb : 65536 + (hi - 55296) * 1024 + (lo - 56320) = n := by omega
  rw [hcomb, hd]

theorem pStr_plain (f0 : Nat) (c : Char) (tl cs rest : List Char)
    (h1 : ¬ c.toNat = 34) (h2 : ¬ c.toNat = 92) (h3 : ¬ c.toNat < 32)
    (hrec : pStrBody f0 tl = some (cs, rest)) :
    pStrBody (f0 + 1) (c :: tl) = some (c :: cs, rest) := by
  unfold pStrBody
  rw [if_neg h1, if_neg h2, if_neg h3, hrec]
  rfl

theorem pStrBody_escChar (c : Char) (need : Nat) (tl : List Char) (cs rest : List Char)
    (ih : ∀ f, need ≤ f → pStrBody f tl = some (cs, rest)) :
    ∀ f, 1 + need ≤ f → pStrBody f (jsonEscapeChar c ++ tl) = some (c :: cs, rest) := by
  intro f hf
  obtain ⟨f0, rfl⟩ : ∃ f0, f = f0 + 1 := ⟨f - 1, by omega⟩
  have hrec := ih f0 (by omega)
  have hv := char_valid_nat c
  have hofn := Char.ofNat_toNat c
  unfold jsonEscapeChar
  by_cases h34 : c.toNat = 34
  · rw [if_pos h34]
    exact pStr_short f0 '"' c tl cs rest (by decide)
      (char_eq_of_toNat c '"' (by rw [h34]; rfl)) hrec
  · rw [if_neg h34]
    by_cases h92 : c.toNat = 92
    · rw [if_pos h92]
      exact pStr_short f0 '\\' c tl cs rest (by decide)
        (char_eq_of_toNat c '\\' (by rw [h92]; rfl)) hrec
    · rw [if_neg h92]
      by_cases h8 : c.toNat = 8
      · rw [if_pos h8]
        exact pStr_ctrl f0 'b' 8 c tl cs rest (by simp) (by rw [← h8, hofn]) hrec
      · rw [if_neg h8]
        by_cases h12 : c.toNat = 12
        · rw [if_pos h12]
          exact pStr_ctrl f0 'f' 12 c tl cs rest (by simp) (by rw [← h12, hofn]) hrec
        · rw [if_neg h12]
          by_cases h10 : c.toNat = 10
          · rw [if_pos h10]
            exact pStr_ctrl f0 'n' 10 c tl cs rest (by simp) (by rw [← h10, hofn]) hrec
          · rw [if_neg h10]
            by_cases h13 : c.toNat = 13
            · rw [if_pos h13]
              exact pStr_ctrl f0 'r' 13 c tl cs rest (by simp) (by rw [← h13, hofn]) hrec
            · rw [if_neg h13]
              by_cases h9 : c.toNat = 9
              · rw [if_pos h9]
                exact pStr_ctrl f0 't' 9 c tl cs rest (by simp) (by rw [← h9, hofn]) hrec
              · rw [if_neg h9]
                by_cases hesc : c.toNat < 32 ∨ 127 ≤ c.toNat
                · rw [if_pos hesc]
                  by_cases hbmp : c.toNat < 65536
                  · rw [if_pos hbmp]
                    show pStrBody (f0 + 1) ('\\' :: 'u' :: (hexFix 4 c.toNat ++ tl)) = _
                    exact pStr_ubmp f0 c.toNat c tl cs rest hofn.symm hbmp (by omega) (by omega) hrec
                  · rw [if_neg hbmp]
                    show pStrBody (f0 + 1) ('\\' :: 'u' :: (hexFix 4 (55296 + (c.toNat - 65536) / 1024)
                      ++ '\\' :: 'u' :: hexFix 4 (56320 + (c.toNat - 65536) % 1024) ++ tl)) = _
                    exact pStr_upair f0 c.toNat c tl cs rest hofn.symm (by omega) (by omega) hrec
                · rw [if_neg hesc]
                  push_neg at hesc
                  exact pStr_plain f0 c tl cs rest h34 h92 (by omega) hrec

theorem pStrBody_escape (s : List Char) :
    ∀ f rest, escFuelAll s ≤ f → pStrBody f (jsonEscape s ++ '"' :: rest) = some (s, rest) := by
  induction s with
  | nil =>
    intro f rest hf
    unfold escFuelAll at hf
    obtain ⟨f0, rfl⟩ : ∃ f0, f = f0 + 1 := ⟨f - 1, by omega⟩
    show pStrBody (f0 + 1) ('"' :: rest) = some ([], rest)
    unfold pStrBody
    rw [if_pos (by decide)]
  | cons c cs ih =>
    intro f rest hf
    show pStrBody f ((jsonEscapeChar c ++ jsonEscape cs) ++ '"' :: rest) = _
    rw [List.append_assoc]
    apply pStrBody_escChar c (escFuelAll cs) _ cs rest
    · intro f2 hf2
      exact ih f2 rest hf2
    · unfold escFuelAll at hf
      omega

/-! ## JSON document round trip -/

theorem arrAppend_assoc : ∀ (a b c : JArr),
    arrAppend (arrAppend a b) c = arrAppend a (arrAppend b c)
  | .nil, _, _ => rfl
  | .cons h t, b, c => by
    show JArr.cons h (arrAppend (arrAppend t b) c) = JArr.cons h (arrAppend t (arrAppend b c))
    rw [arrAppend_assoc t b c]

theorem revArr_spec : ∀ (a b : JArr), revArr a b = arrAppend (revArr a .nil) b
  | .nil, _ => rfl
  | .cons h t, b => by
    show revArr t (.cons h b) = arrAppend (revArr t (.cons h .nil)) b
    rw [revArr_spec t (.cons h b), revArr_spec t (.cons h .nil), arrAppend_assoc]
    rfl

theorem objAppend_assoc : ∀ (a b c : JObj),
    objAppend (objAppend a b) c = objAppend a (objAppend b c)
  | .nil, _, _ => rfl
  | .cons k v t, b, c => by
    show JObj.cons k v (objAppend (objAppend t b) c) = JObj.cons k v (objAppend t (objAppend b c))
    rw [objAppend_assoc t b c]

theorem objAppend_nil : ∀ (a : JObj), objAppend a .nil = a
  | .nil => rfl
  | .cons k v t => by
    show JObj.cons k v (objAppend t .nil) = JObj.cons k v t
    rw [objAppend_nil t]

/-- Inserting a fresh key appends it at the end, Python dict semantics. -/
theorem objInsert_fresh (k : List Char) (v : Json) :
    ∀ (o : JObj), keyNotIn k o = true → objInsert k v o = objAppend o (.cons k v .nil)
  | .nil, _ => rfl
  | .cons k0 v0 t, h => by
    unfold keyNotIn at h
    rw [Bool.and_eq_true] at h
    unfold objInsert objAppend
    rw [if_neg (by simpa using h.1), objInsert_fresh k v t h.2]

/-- keyNotIn distributes over append. -/
theorem keyNotIn_append (k : List Char) :
    ∀ (a b : JObj), keyNotIn k (objAppend a b) = (keyNotIn k a && keyNotIn k b)
  | .nil, b => by simp [objAppend, keyNotIn]
  | .cons k0 v0 t, b => by
    show (decide (k0 ≠ k) && keyNotIn k (objAppend t b))
      = ((decide (k0 ≠ k) && keyNotIn k t) && keyNotIn k b)
    rw [keyNotIn_append k t b, Bool.and_assoc]

/-- Whitespace skipping is the identity on a list headed by a character
that is not JSON whitespace. -/
theorem skipWs_cons (c : Char) (l : List Char)
    (h : ¬ (c.toNat = 32 ∨ c.toNat = 9 ∨ c.toNat = 10 ∨ c.toNat = 13)) :
    skipWs (c :: l) = c :: l := by
  unfold skipWs
  rw [if_neg h]

/-- Append of a spine with nil on the right. -/
theorem arrAppend_nil : ∀ (a : JArr), arrAppend a .nil = a
  | .nil => rfl
  | .cons h t => by
    show JArr.cons h (arrAppend t .nil) = JArr.cons h t
    rw [arrAppend_nil t]

theorem objFreshIn_append : ∀ (t : JObj) (acc : JObj) (k : List Char) (v : Json),
    objFreshIn t acc = true → keyNotIn k t = true →
    objFreshIn t (objAppend acc (.cons k v .nil)) = true
  | .nil, _, _, _, _, _ => rfl
  | .cons k2 v2 t3, acc, k, v, hf, hk => by
    unfold objFreshIn at hf
    unfold keyNotIn at hk
    rw [Bool.and_eq_true] at hf hk
    show (keyNotIn k2 (objAppend acc (.cons k v .nil)) && objFreshIn t3 (objAppend acc (.cons k v .nil))) = true
    rw [Bool.and_eq_true]
    constructor
    · rw [keyNotIn_append]
      rw [Bool.and_eq_true]
      refine ⟨hf.1, ?_⟩
      show (decide (k ≠ k2) && keyNotIn k2 JObj.nil) = true
      have : k ≠ k2 := by
        intro he
        subst he
        simp at hk
      simp [this, keyNotIn]
    · exact objFreshIn_append t3 acc k v hf.2 hk.2

/-- The serialization of any document is non-empty and starts with a
character that is not JSON whitespace and not a closing bracket. -/
theorem serJ_head : ∀ (j : Json), ∃ c tl, serJ j = c :: tl
    ∧ ¬ (c.toNat = 32 ∨ c.toNat = 9 ∨ c.toNat = 10 ∨ c.toNat = 13) ∧ c.toNat ≠ 93 := by
  intro j
  match j with
  | .null => exact ⟨'n', _, rfl, by decide, by decide⟩
  | .bool true => exact ⟨'t', _, rfl, by decide, by decide⟩
  | .bool false => exact ⟨'f', _, rfl, by decide, by decide⟩
  | .str s => exact ⟨'"', _, rfl, by decide, by decide⟩
  | .arr .nil => exact ⟨'[', _, rfl, by decide, by decide⟩
  | .arr (.cons h t) => exact ⟨'[', _, rfl, by decide, by decide⟩
  | .obj .nil => exact ⟨Char.ofNat 123, _, rfl, by decide, by decide⟩
  | .obj (.cons k v t) => exact ⟨Char.ofNat 123, _, rfl, by decide, by decide⟩
  | .num n =>
    show ∃ c tl, intSer n = c :: tl ∧ _
    unfold intSer
    by_cases hneg : n < 0
    · rw [if_pos hneg]
      exact ⟨Char.ofNat 45, _, rfl, by decide, by decide⟩
    · rw [if_neg hneg]
      rcases he : natSer n.natAbs with _ | ⟨d, ds⟩
      · exact absurd he (natSer_ne_nil _)
      · have hd := natSer_digits n.natAbs d (by rw [he]; simp)
        rcases hd with ⟨h1, h2⟩
        exact ⟨d, ds, rfl, by omega, by omega⟩

theorem numDelim_comma (r : List Char) : numDelim (',' :: r) := by
  exact ⟨by decide, by decide, by decide, by decide⟩

theorem numDelim_rbracket (r : List Char) : numDelim (']' :: r) := by
  exact ⟨by decide, by decide, by decide, by decide⟩

theorem numDelim_rbrace (r : List Char) : numDelim (Char.ofNat 125 :: r) := by
  exact ⟨by decide, by decide, by decide, by decide⟩

theorem numDelim_serArrRest (t : JArr) (r : List Char) :
    numDelim (serArrRest t ++ ']' :: r) := by
  match t with
  | .nil => exact numDelim_rbracket r
  | .cons h t2 =>
    show numDelim ((',' :: serJ h ++ serArrRest t2) ++ ']' :: r)
    rw [List.cons_append]
    exact numDelim_comma _

theorem numDelim_serObjRest (t : JObj) (r : List Char) :
    numDelim (serObjRest t ++ Char.ofNat 125 :: r) := by
  match t with
  | .nil => exact numDelim_rbrace r
  | .cons k v t2 =>
    show numDelim ((',' :: jsonStrLit k ++ ':' :: serJ v ++ serObjRest t2) ++ Char.ofNat 125 :: r)
    rw [List.cons_append]
    exact numDelim_comma _

/-! Step equations for the value parser, one per head character; they keep
the round-trip induction small. -/

theorem pVal_quote (f : Nat) (tl : List Char) :
    pVal (f + 1) ('"' :: tl) = (pStrBody f tl).map (fun p => (Json.str p.1, p.2)) := by
  unfold pVal
  rw [skipWs_cons _ _ (by decide)]
  dsimp only
  rw [if_pos (by decide)]

theorem pVal_null (f : Nat) (tl : List Char) :
    pVal (f + 1) ('n' :: 'u' :: 'l' :: 'l' :: tl) = some (.null, tl) := by
  unfold pVal
  rw [skipWs_cons _ _ (by decide)]
  dsimp only
  rw [if_neg (by decide), if_neg (by decide), if_neg (by decide), if_pos (by decide)]
  rfl

theorem pVal_true (f : Nat) (tl : List Char) :
    pVal (f + 1) ('t' :: 'r' :: 'u' :: 'e' :: tl) = some (.bool true, tl) := by
  unfold pVal
  rw [skipWs_cons _ _ (by decide)]
  dsimp only
  rw [if_neg (by decide), if_neg (by decide), if_neg (by decide), if_neg (by decide),
    if_pos (by decide)]
  rfl

theorem pVal_false (f : Nat) (tl : List Char) :
    pVal (f + 1) ('f' :: 'a' :: 'l' :: 's' :: 'e' :: tl) = some (.bool false, tl) := by
  unfold pVal
  rw [skipWs_cons _ _ (by decide)]
  dsimp only
  rw [if_neg (by decide), if_neg (by decide), if_neg (by decide), if_neg (by decide),
    if_neg (by decide), if_pos (by decide)]
  rfl

theorem pVal_lbracket (f : Nat) (tl : List Char) :
    pVal (f + 1) ('[' :: tl) = pArrBody f tl := by
  unfold pVal
  rw [skipWs_cons _ _ (by decide)]
  dsimp only
  rw [if_neg (by decide), if_neg (by decide), if_pos (by decide)]

theorem pVal_lbrace (f : Nat) (tl : List Char) :
    pVal (f + 1) (Char.ofNat 123 :: tl) = pObjBody f tl := by
  unfold pVal
  rw [skipWs_cons _ _ (by decide)]
  dsimp only
  rw [if_neg (by decide), if_pos (by decide)]

theorem pVal_num (f : Nat) (c : Char) (tl : List Char)
    (hws : ¬ (c.toNat = 32 ∨ c.toNat = 9 ∨ c.toNat = 10 ∨ c.toNat = 13))
    (h34 : c.toNat ≠ 34) (h123 : c.toNat ≠ 123) (hlb : c ≠ '[')
    (hn : c ≠ 'n') (ht : c ≠ 't') (hf : c ≠ 'f') :
    pVal (f + 1) (c :: tl) = (pNum (c :: tl)).map (fun p => (Json.num p.1, p.2)) := by
  unfold pVal
  rw [skipWs_cons _ _ hws]
  dsimp only
  rw [if_neg h34, if_neg h123, if_neg hlb, if_neg hn, if_neg ht, if_neg hf]

theorem pArrBody_rb (f : Nat) (tl : List Char) :
    pArrBody (f + 1) (']' :: tl) = some (.arr .nil, tl) := by
  unfold pArrBody
  rw [skipWs_cons _ _ (by decide)]
  dsimp only
  rw [if_pos (by decide)]

theorem pArrBody_head (f : Nat) (c : Char) (tl : List Char)
    (hws : ¬ (c.toNat = 32 ∨ c.toNat = 9 ∨ c.toNat = 10 ∨ c.toNat = 13))
    (hnb : c ≠ ']') :
    pArrBody (f + 1) (c :: tl) =
      match pVal f (c :: tl) with
      | none => none
      | some (v, rest2) => pArrRest f (JArr.cons v .nil) rest2 := by
  unfold pArrBody
  rw [skipWs_cons _ _ hws]
  dsimp only
  rw [if_neg hnb]

theorem pArrRest_rb (f : Nat) (acc : JArr) (tl : List Char) :
    pArrRest (f + 1) acc (']' :: tl) = some (.arr (revArr acc .nil), tl) := by
  unfold pArrRest
  rw [skipWs_cons _ _ (by decide)]
  dsimp only
  rw [if_pos (by decide)]

theorem pArrRest_comma (f : Nat) (acc : JArr) (tl : List Char) :
    pArrRest (f + 1) acc (',' :: tl) =
      match pVal f tl with
      | none => none
      | some (v, rest2) => pArrRest f (JArr.cons v acc) rest2 := by
  conv_lhs => unfold pArrRest
  rw [skipWs_cons _ _ (by decide)]
  dsimp only
  rw [if_neg (by decide), if_pos (by decide)]

theorem pObjBody_rb (f : Nat) (tl : List Char) :
    pObjBody (f + 1) (Char.ofNat 125 :: tl) = some (.obj .nil, tl) := by
  unfold pObjBody
  rw [skipWs_cons _ _ (by decide)]
  dsimp only
  rw [if_pos (by decide)]

theorem pObjBody_quote (f : Nat) (tl : List Char) :
    pObjBody (f + 1) ('"' :: tl) =
      match pStrBody f tl with
      | none => none
      | some (k, rest2) =>
        match skipWs rest2 with
        | c2 :: rest3 =>
          if c2 = ':' then
            match pVal f rest3 with
            | none => none
            | some (v, rest4) => pObjRest f (objInsert k v .nil) rest4
          else none
        | [] => none := by
  unfold pObjBody
  rw [skipWs_cons _ _ (by decide)]
  dsimp only
  rw [if_neg (by decide), if_pos (by decide)]

theorem pObjRest_rb (f : Nat) (acc : JObj) (tl : List Char) :
    pObjRest (f + 1) acc (Char.ofNat 125 :: tl) = some (.obj acc, tl) := by
  unfold pObjRest
  rw [skipWs_cons _ _ (by decide)]
  dsimp only
  rw [if_pos (by decide)]

theorem pObjRest_comma (f : Nat) (acc : JObj) (tl : List Char) :
    pObjRest (f + 1) acc (',' :: tl) =
      match skipWs tl with
      | c2 :: rest2 =>
        if c2.toNat = 34 then
          match pStrBody f rest2 with
          | none => none
          | some (k, rest3) =>
            match skipWs rest3 with
            | c3 :: rest4 =>
              if c3 = ':' then
                match pVal f rest4 with
                | none => none
                | some (v, rest5) => pObjRest f (objInsert k v acc) rest5
              else none
            | [] => none
        else none
      | [] => none := by
  conv_lhs => unfold pObjRest
  rw [skipWs_cons _ _ (by decide)]
  dsimp only
  rw [if_neg (by decide), if_pos (by decide)]

theorem char_ne (c d : Char) (h : c.toNat ≠ d.toNat) : c ≠ d := by
  intro he
  rw [he] at h
  exact h rfl

theorem intSer_head (n : Int) : ∃ c tl, intSer n = c :: tl
    ∧ (c.toNat = 45 ∨ (48 ≤ c.toNat ∧ c.toNat ≤ 57)) := by
  unfold intSer
  by_cases hneg : n < 0
  · rw [if_pos hneg]
    exact ⟨Char.ofNat 45, _, rfl, Or.inl (by decide)⟩
  · rw [if_neg hneg]
    rcases he : natSer n.natAbs with _ | ⟨d, ds⟩
    · exact absurd he (natSer_ne_nil _)
    · have hd := natSer_digits n.natAbs d (by rw [he]; simp)
      exact ⟨d, ds, rfl, Or.inr hd⟩

theorem objFreshIn_nil : ∀ (t : JObj), objFreshIn t .nil = true
  | .nil => rfl
  | .cons k v t2 => by
    show (keyNotIn k .nil && objFreshIn t2 .nil) = true
    rw [objFreshIn_nil t2]
    rfl

mutual
/-- Parsing inverts serialization for every well-formed document, with any
sufficient fuel and any continuation a number may legally precede. -/
theorem pVal_ser : ∀ (j : Json), jsonOK j = true →
    ∀ f rest, jFuel j ≤ f → numDelim rest → pVal f (serJ j ++ rest) = some (j, rest)
  | .null, _, f, rest, hf, _ => by
    have h1 : 1 ≤ f := le_trans (by unfold jFuel; omega) hf
    obtain ⟨f0, rfl⟩ : ∃ f0, f = f0 + 1 := ⟨f - 1, by omega⟩
    show pVal (f0 + 1) ('n' :: 'u' :: 'l' :: 'l' :: rest) = _
    exact pVal_null f0 rest
  | .bool true, _, f, rest, hf, _ => by
    have h1 : 1 ≤ f := le_trans (by unfold jFuel; omega) hf
    obtain ⟨f0, rfl⟩ : ∃ f0, f = f0 + 1 := ⟨f - 1, by omega⟩
    show pVal (f0 + 1) ('t' :: 'r' :: 'u' :: 'e' :: rest) = _
    exact pVal_true f0 rest
  | .bool false, _, f, rest, hf, _ => by
    have h1 : 1 ≤ f := le_trans (by unfold jFuel; omega) hf
    obtain ⟨f0, rfl⟩ : ∃ f0, f = f0 + 1 := ⟨f - 1, by omega⟩
    show pVal (f0 + 1) ('f' :: 'a' :: 'l' :: 's' :: 'e' :: rest) = _
    exact pVal_false f0 rest
  | .num n, _, f, rest, hf, hrest => by
    have h1 : 1 ≤ f := le_trans (by unfold jFuel; omega) hf
    obtain ⟨f0, rfl⟩ : ∃ f0, f = f0 + 1 := ⟨f - 1, by omega⟩
    obtain ⟨c, tl, he, hc⟩ := intSer_head n
    show pVal (f0 + 1) (intSer n ++ rest) = _
    rw [he, List.cons_append]
    rw [pVal_num f0 c (tl ++ rest) (by omega) (by omega) (by omega)
      (char_ne c '[' (by intro h; rw [h] at hc; revert hc; decide))
      (char_ne c 'n' (by intro h; rw [h] at hc; revert hc; decide))
      (char_ne c 't' (by intro h; rw [h] at hc; revert hc; decide))
      (char_ne c 'f' (by intro h; rw [h] at hc; revert hc; decide))]
    rw [← List.cons_append, ← he, pNum_ser n rest hrest]
    rfl
  | .str s, _, f, rest, hf, _ => by
    have h1 : 1 + escFuelAll s ≤ f := le_trans (by unfold jFuel; omega) hf
    obtain ⟨f0, rfl⟩ : ∃ f0, f = f0 + 1 := ⟨f - 1, by omega⟩
    show pVal (f0 + 1) ('"' :: ((jsonEscape s ++ ['"']) ++ rest)) = _
    rw [pVal_quote f0, List.append_assoc]
    show (pStrBody f0 (jsonEscape s ++ '"' :: rest)).map (fun p => (Json.str p.1, p.2)) = _
    rw [pStrBody_escape s f0 rest (by omega)]
    rfl
  | .arr .nil, _, f, rest, hf, _ => by
    have h1 : 2 ≤ f := le_trans (by unfold jFuel; omega) hf
    obtain ⟨f0, rfl⟩ : ∃ f0, f = f0 + 1 + 1 := ⟨f - 2, by omega⟩
    show pVal (f0 + 1 + 1) ('[' :: (']' :: rest)) = _
    rw [pVal_lbracket (f0 + 1), pArrBody_rb f0 rest]
  | .arr (.cons h t), hok, f, rest, hf, _ => by
    have hok2 : jsonOK h = true ∧ jaOK t = true := by
      have hb : (jsonOK h && jaOK t) = true := hok
      rw [Bool.and_eq_true] at hb
      exact hb
    have h1 : 2 + jFuel h + jaFuel t ≤ f := by
      have h2 : jFuel (Json.arr (.cons h t)) = 2 + jFuel h + jaFuel t := rfl
      omega
    obtain ⟨f0, rfl⟩ : ∃ f0, f = f0 + 1 + 1 := ⟨f - 2, by omega⟩
    show pVal (f0 + 1 + 1) ('[' :: (((serJ h ++ serArrRest t) ++ [']']) ++ rest)) = _
    rw [pVal_lbracket (f0 + 1)]
    have hX : ((serJ h ++ serArrRest t) ++ [']']) ++ rest
        = serJ h ++ (serArrRest t ++ ']' :: rest) := by
      simp [List.append_assoc]
    rw [hX]
    obtain ⟨c, tl, he, hws, h93⟩ := serJ_head h
    rw [he, List.cons_append]
    rw [pArrBody_head f0 c _ hws (char_ne c ']' (by simpa using h93))]
    rw [← List.cons_append, ← he]
    rw [pVal_ser h hok2.1 f0 _ (by omega) (numDelim_serArrRest t rest)]
    dsimp only
    rw [pArrRest_ser t hok2.2 f0 (JArr.cons h .nil) rest (by omega)]
    rfl
  | .obj .nil, _, f, rest, hf, _ => by
    have h1 : 2 ≤ f := le_trans (by unfold jFuel; omega) hf
    obtain ⟨f0, rfl⟩ : ∃ f0, f = f0 + 1 + 1 := ⟨f - 2, by omega⟩
    show pVal (f0 + 1 + 1) (Char.ofNat 123 :: (Char.ofNat 125 :: rest)) = _
    rw [pVal_lbrace (f0 + 1), pObjBody_rb f0 rest]
  | .obj (.cons k v t), hok, f, rest, hf, _ => by
    have hok2 : keyNotIn k t = true ∧ jsonOK v = true ∧ joOK t = true := by
      have hb : ((keyNotIn k t && jsonOK v) && joOK t) = true := hok
      rw [Bool.and_eq_true, Bool.and_eq_true] at hb
      exact ⟨hb.1.1, hb.1.2, hb.2⟩
    have h1 : 2 + escFuelAll k + jFuel v + joFuel t ≤ f := by
      have h2 : jFuel (Json.obj (.cons k v t)) = 2 + escFuelAll k + jFuel v + joFuel t := rfl
      omega
    obtain ⟨f0, rfl⟩ : ∃ f0, f = f0 + 1 + 1 := ⟨f - 2, by omega⟩
    show pVal (f0 + 1 + 1) (Char.ofNat 123
      :: (((jsonStrLit k ++ ':' :: serJ v ++ serObjRest t) ++ [Char.ofNat 125]) ++ rest)) = _
    rw [pVal_lbrace (f0 + 1)]
    have hY : ((jsonStrLit k ++ ':' :: serJ v ++ serObjRest t) ++ [Char.ofNat 125]) ++ rest
        = '"' :: (jsonEscape k ++ '"' :: (':' :: (serJ v ++ (serObjRest t
          ++ Char.ofNat 125 :: rest)))) := by
      simp [jsonStrLit, List.append_assoc]
    rw [hY, pObjBody_quote f0]
    rw [pStrBody_escape k f0 _ (by omega)]
    dsimp only
    rw [skipWs_cons _ _ (by decide)]
    dsimp only
    rw [if_pos rfl]
    rw [pVal_ser v hok2.2.1 f0 _ (by omega) (numDelim_serObjRest t rest)]
    dsimp only
    have hins : objInsert k v .nil = JObj.cons k v .nil := rfl
    rw [hins]
    rw [pObjRest_ser t hok2.2.2 f0 (JObj.cons k v .nil) rest (by omega)
      (objFreshIn_append t .nil k v (objFreshIn_nil t) hok2.1)]
    rfl
/-- Parsing the serialized remaining array items extends the accumulator. -/
theorem pArrRest_ser : ∀ (t : JArr), jaOK t = true → ∀ f acc rest, jaFuel t ≤ f →
    pArrRest f acc (serArrRest t ++ ']' :: rest)
      = some (.arr (arrAppend (revArr acc .nil) t), rest)
  | .nil, _, f, acc, rest, hf => by
    have h1 : 1 ≤ f := le_trans (by unfold jaFuel; omega) hf
    obtain ⟨f0, rfl⟩ : ∃ f0, f = f0 + 1 := ⟨f - 1, by omega⟩
    show pArrRest (f0 + 1) acc (']' :: rest) = _
    rw [pArrRest_rb f0 acc rest, arrAppend_nil]
  | .cons h t2, hok, f, acc, rest, hf => by
    have hok2 : jsonOK h = true ∧ jaOK t2 = true := by
      have hb : (jsonOK h && jaOK t2) = true := hok
      rw [Bool.and_eq_true] at hb
      exact hb
    have h1 : 1 + jFuel h + jaFuel t2 ≤ f := by
      have h2 : jaFuel (JArr.cons h t2) = 1 + jFuel h + jaFuel t2 := rfl
      omega
    obtain ⟨f0, rfl⟩ : ∃ f0, f = f0 + 1 := ⟨f - 1, by omega⟩
    show pArrRest (f0 + 1) acc ((',' :: serJ h ++ serArrRest t2) ++ ']' :: rest) = _
    have hX : (',' :: serJ h ++ serArrRest t2) ++ ']' :: rest
        = ',' :: (serJ h ++ (serArrRest t2 ++ ']' :: rest)) := by
      simp [List.append_assoc]
    rw [hX, pArrRest_comma f0 acc]
    rw [pVal_ser h hok2.1 f0 _ (by omega) (numDelim_serArrRest t2 rest)]
    dsimp only
    rw [pArrRest_ser t2 hok2.2 f0 (JArr.cons h acc) rest (by omega)]
    have hrev : arrAppend (revArr (JArr.cons h acc) .nil) t2
        = arrAppend (revArr acc .nil) (.cons h t2) := by
      show arrAppend (revArr acc (.cons h .nil)) t2 = _
      rw [revArr_spec acc (.cons h .nil), arrAppend_assoc]
      rfl
    rw [hrev]
/-- Parsing the serialized remaining object entries appends them to the
accumulator, whose keys are fresh for all of them. -/
theorem pObjRest_ser : ∀ (t : JObj), joOK t = true → ∀ f acc rest, joFuel t ≤ f →
    objFreshIn t acc = true →
    pObjRest f acc (serObjRest t ++ Char.ofNat 125 :: rest)
      = some (.obj (objAppend acc t), rest)
  | .nil, _, f, acc, rest, hf, _ => by
    have h1 : 1 ≤ f := le_trans (by unfold joFuel; omega) hf
    obtain ⟨f0, rfl⟩ : ∃ f0, f = f0 + 1 := ⟨f - 1, by omega⟩
    show pObjRest (f0 + 1) acc (Char.ofNat 125 :: rest) = _
    rw [pObjRest_rb f0 acc rest, objAppend_nil]
  | .cons k v t2, hok, f, acc, rest, hf, hfresh => by
    have hok2 : keyNotIn k t2 = true ∧ jsonOK v = true ∧ joOK t2 = true := by
      have hb : ((keyNotIn k t2 && jsonOK v) && joOK t2) = true := hok
      rw [Bool.and_eq_true, Bool.and_eq_true] at hb
      exact ⟨hb.1.1, hb.1.2, hb.2⟩
    have hfresh2 : keyNotIn k acc = true ∧ objFreshIn t2 acc = true := by
      have hb : (keyNotIn k acc && objFreshIn t2 acc) = true := hfresh
      rw [Bool.and_eq_true] at hb
      exact hb
    have h1 : 1 + escFuelAll k + jFuel v + joFuel t2 ≤ f := by
      have h2 : joFuel (JObj.cons k v t2) = 1 + escFuelAll k + jFuel v + joFuel t2 := rfl
      omega
    obtain ⟨f0, rfl⟩ : ∃ f0, f = f0 + 1 := ⟨f - 1, by omega⟩
    show pObjRest (f0 + 1) acc
      ((',' :: jsonStrLit k ++ ':' :: serJ v ++ serObjRest t2) ++ Char.ofNat 125 :: rest) = _
    have hX : (',' :: jsonStrLit k ++ ':' :: serJ v ++ serObjRest t2) ++ Char.ofNat 125 :: rest
        = ',' :: ('"' :: (jsonEscape k ++ '"' :: (':' :: (serJ v
          ++ (serObjRest t2 ++ Char.ofNat 125 :: rest))))) := by
      simp [jsonStrLit, List.append_assoc]
    rw [hX, pObjRest_comma f0 acc]
    rw [skipWs_cons _ _ (by decide)]
    dsimp only
    rw [if_pos (by decide)]
    rw [pStrBody_escape k f0 _ (by omega)]
    dsimp only
    rw [skipWs_cons _ _ (by decide)]
    dsimp only
    rw [if_pos rfl]
    rw [pVal_ser v hok2.2.1 f0 _ (by omega) (numDelim_serObjRest t2 rest)]
    dsimp only
    rw [objInsert_fresh k v acc hfresh2.1]
    rw [pObjRest_ser t2 hok2.2.2 f0 (objAppend acc (.cons k v .nil)) rest (by omega)
      (objFreshIn_append t2 acc k v hfresh2.2 hok2.1)]
    rw [objAppend_assoc]
    rfl
end

theorem jsonEscapeChar_len (c : Char) : 1 ≤ (jsonEscapeChar c).length := by
  unfold jsonEscapeChar
  dsimp only
  repeat' split
  all_goals simp only [List.length_cons, List.cons_append, List.length_append, List.length]
  all_goals omega

theorem jsonEscape_len : ∀ (s : List Char), s.length ≤ (jsonEscape s).length
  | [] => le_refl 0
  | c :: rest => by
    show (c :: rest).length ≤ (jsonEscapeChar c ++ jsonEscape rest).length
    rw [List.length_cons, List.length_append]
    have h1 := jsonEscapeChar_len c
    have h2 := jsonEscape_len rest
    omega

theorem escFuelAll_eq : ∀ (s : List Char), escFuelAll s = s.length + 1
  | [] => rfl
  | c :: rest => by
    show 1 + escFuelAll rest = _
    rw [escFuelAll_eq rest, List.length_cons]
    omega

theorem jsonStrLit_len (s : List Char) :
    (jsonStrLit s).length = (jsonEscape s).length + 2 := by
  show ('"' :: (jsonEscape s ++ ['"'])).length = _
  rw [List.length_cons, List.length_append]
  rfl

mutual
/-- The constructed fuel bound is at most twice the serialized length. -/
theorem jFuel_le : ∀ (j : Json), jFuel j ≤ 2 * (serJ j).length
  | .null => by
    show (1 : Nat) ≤ 2 * 4
    omega
  | .bool true => by
    show (1 : Nat) ≤ 2 * 4
    omega
  | .bool false => by
    show (1 : Nat) ≤ 2 * 5
    omega
  | .num n => by
    obtain ⟨c, tl, he, _⟩ := intSer_head n
    show 1 ≤ 2 * (intSer n).length
    rw [he, List.length_cons]
    omega
  | .str s => by
    show 1 + escFuelAll s ≤ 2 * (jsonStrLit s).length
    rw [escFuelAll_eq, jsonStrLit_len]
    have := jsonEscape_len s
    omega
  | .arr .nil => by
    show (2 : Nat) ≤ 2 * 2
    omega
  | .arr (.cons h t) => by
    have ih1 := jFuel_le h
    have ih2 := jaFuel_le t
    have h2 : jFuel (Json.arr (.cons h t)) = 2 + jFuel h + jaFuel t := rfl
    have h3 : (serJ (Json.arr (.cons h t))).length
        = (serJ h).length + (serArrRest t).length + 2 := by
      show ('[' :: ((serJ h ++ serArrRest t) ++ [']'])).length = _
      rw [List.length_cons, List.length_append, List.length_append]
      rfl
    omega
  | .obj .nil => by
    show (2 : Nat) ≤ 2 * 2
    omega
  | .obj (.cons k v t) => by
    have ih1 := jFuel_le v
    have ih2 := joFuel_le t
    have h2 : jFuel (Json.obj (.cons k v t))
        = 2 + escFuelAll k + jFuel v + joFuel t := rfl
    have h3 : (serJ (Json.obj (.cons k v t))).length
        = (jsonStrLit k).length + (serJ v).length + (serObjRest t).length + 3 := by
      show (Char.ofNat 123
        :: ((jsonStrLit k ++ ':' :: serJ v ++ serObjRest t) ++ [Char.ofNat 125])).length = _
      simp only [List.length_cons, List.length_append, List.length_nil]
      omega
    have h4 := jsonEscape_len k
    have h5 := escFuelAll_eq k
    have h6 := jsonStrLit_len k
    omega
/-- Fuel bound for remaining array items. -/
theorem jaFuel_le : ∀ (t : JArr), jaFuel t ≤ 2 * (serArrRest t).length + 2
  | .nil => by
    show (1 : Nat) ≤ 2 * 0 + 2
    omega
  | .cons h t2 => by
    have ih1 := jFuel_le h
    have ih2 := jaFuel_le t2
    have h2 : jaFuel (JArr.cons h t2) = 1 + jFuel h + jaFuel t2 := rfl
    have h3 : (serArrRest (JArr.cons h t2)).length
        = (serJ h).length + (serArrRest t2).length + 1 := by
      show (',' :: (serJ h ++ serArrRest t2)).length = _
      rw [List.length_cons, List.length_append]
    omega
/-- Fuel bound for remaining object entries. -/
theorem joFuel_le : ∀ (t : JObj), joFuel t ≤ 2 * (serObjRest t).length + 2
  | .nil => by
    show (1 : Nat) ≤ 2 * 0 + 2
    omega
  | .cons k v t2 => by
    have ih1 := jFuel_le v
    have ih2 := joFuel_le t2
    have h2 : joFuel (JObj.cons k v t2) = 1 + escFuelAll k + jFuel v + joFuel t2 := rfl
    have h3 : (serObjRest (JObj.cons k v t2)).length
        = (jsonStrLit k).length + (serJ v).length + (serObjRest t2).length + 2 := by
      show (',' :: (jsonStrLit k ++ ':' :: serJ v ++ serObjRest t2)).length = _
      simp only [List.length_cons, List.length_append, List.length_nil]
      omega
    have h4 := jsonEscape_len k
    have h5 := escFuelAll_eq k
    have h6 := jsonStrLit_len k
    omega
end

/-- Parsing inverts serialization at the jsonLoads entry point. -/
theorem jsonLoads_serJ (j : Json) (h : jsonOK j = true) : jsonLoads (serJ j) = some j := by
  have hp : pVal (2 * (serJ j).length + 8) (serJ j ++ []) = some (j, []) :=
    pVal_ser j h _ [] (le_trans (jFuel_le j) (by omega)) trivial
  rw [List.append_nil] at hp
  unfold jsonLoads
  rw [hp]
  rfl

/-! ### Dot framing -/

theorem splitOnDot_nodot : ∀ (p : List Char), (∀ c ∈ p, c ≠ '.') → splitOnDot p = [p]
  | [], _ => rfl
  | c :: p, hp => by
    conv_lhs => unfold splitOnDot
    rw [if_neg (hp c (by simp))]
    rw [splitOnDot_nodot p (fun d hd => hp d (by simp [hd]))]

theorem splitOnDot_append : ∀ (p : List Char) (rest : List Char), (∀ c ∈ p, c ≠ '.') →
    splitOnDot (p ++ '.' :: rest) = p :: splitOnDot rest
  | [], rest, _ => by
    show splitOnDot ('.' :: rest) = [] :: splitOnDot rest
    conv_lhs => unfold splitOnDot
    rw [if_pos rfl]
  | c :: p, rest, hp => by
    show splitOnDot (c :: (p ++ '.' :: rest)) = (c :: p) :: splitOnDot rest
    conv_lhs => unfold splitOnDot
    rw [if_neg (hp c (by simp))]
    rw [splitOnDot_append p rest (fun d hd => hp d (by simp [hd]))]

/-! ### Base64 alphabet facts and the decode-of-encode round trips -/

theorem b64UrlVal_chr (v : Nat) (h : v < 64) : b64UrlVal (b64UrlChr v) = some v := by
  unfold b64UrlChr b64UrlVal
  by_cases h1 : v < 26
  · rw [if_pos h1]
    dsimp only
    rw [toNat_ofNat_small (65 + v) (by omega), if_pos (by omega)]
    congr 1
    omega
  · rw [if_neg h1]
    by_cases h2 : v < 52
    · rw [if_pos h2]
      dsimp only
      rw [toNat_ofNat_small (97 + (v - 26)) (by omega),
        if_neg (by omega), if_pos (by omega)]
      congr 1
      omega
    · rw [if_neg h2]
      by_cases h3 : v < 62
      · rw [if_pos h3]
        dsimp only
        rw [toNat_ofNat_small (48 + (v - 52)) (by omega),
          if_neg (by omega), if_neg (by omega), if_pos (by omega)]
        congr 1
        omega
      · by_cases h4 : v = 62
        · rw [if_neg h3, if_pos h4]
          dsimp only
          rw [toNat_ofNat_small 45 (by omega), if_neg (by omega), if_neg (by omega),
            if_neg (by omega), if_pos rfl]
          rw [h4]
        · rw [if_neg h3, if_neg h4]
          dsimp only
          rw [toNat_ofNat_small 95 (by omega), if_neg (by omega), if_neg (by omega),
            if_neg (by omega), if_neg (by omega), if_pos rfl]
          congr 1
          omega

theorem b64StdVal_chr (v : Nat) (h : v < 64) : b64StdVal (b64StdChr v) = some v := by
  unfold b64StdChr b64StdVal
  by_cases h1 : v < 26
  · rw [if_pos h1]
    dsimp only
    rw [toNat_ofNat_small (65 + v) (by omega), if_pos (by omega)]
    congr 1
    omega
  · rw [if_neg h1]
    by_cases h2 : v < 52
    · rw [if_pos h2]
      dsimp only
      rw [toNat_ofNat_small (97 + (v - 26)) (by omega),
        if_neg (by omega), if_pos (by omega)]
      congr 1
      omega
    · rw [if_neg h2]
      by_cases h3 : v < 62
      · rw [if_pos h3]
        dsimp only
        rw [toNat_ofNat_small (48 + (v - 52)) (by omega),
          if_neg (by omega), if_neg (by omega), if_pos (by omega)]
        congr 1
        omega
      · by_cases h4 : v = 62
        · rw [if_neg h3, if_pos h4]
          dsimp only
          rw [toNat_ofNat_small 43 (by omega), if_neg (by omega), if_neg (by omega),
            if_neg (by omega), if_pos rfl]
          rw [h4]
        · rw [if_neg h3, if_neg h4]
          dsimp only
          rw [toNat_ofNat_small 47 (by omega), if_neg (by omega), if_neg (by omega),
            if_neg (by omega), if_neg (by omega), if_pos rfl]
          congr 1
          omega

theorem b64UrlChr_range (v : Nat) (h : v < 64) :
    (65 ≤ (b64UrlChr v).toNat ∧ (b64UrlChr v).toNat ≤ 90)
    ∨ (97 ≤ (b64UrlChr v).toNat ∧ (b64UrlChr v).toNat ≤ 122)
    ∨ (48 ≤ (b64UrlChr v).toNat ∧ (b64UrlChr v).toNat ≤ 57)
    ∨ (b64UrlChr v).toNat = 45 ∨ (b64UrlChr v).toNat = 95 := by
  unfold b64UrlChr
  by_cases h1 : v < 26
  · rw [if_pos h1, toNat_ofNat_small (65 + v) (by omega)]
    omega
  · rw [if_neg h1]
    by_cases h2 : v < 52
    · rw [if_pos h2, toNat_ofNat_small (97 + (v - 26)) (by omega)]
      omega
    · rw [if_neg h2]
      by_cases h3 : v < 62
      · rw [if_pos h3, toNat_ofNat_small (48 + (v - 52)) (by omega)]
        omega
      · rw [if_neg h3]
        by_cases h4 : v = 62
        · rw [if_pos h4, toNat_ofNat_small 45 (by omega)]
          omega
        · rw [if_neg h4, toNat_ofNat_small 95 (by omega)]
          omega

theorem b64StdChr_range (v : Nat) (h : v < 64) :
    (65 ≤ (b64StdChr v).toNat ∧ (b64StdChr v).toNat ≤ 90)
    ∨ (97 ≤ (b64StdChr v).toNat ∧ (b64StdChr v).toNat ≤ 122)
    ∨ (48 ≤ (b64StdChr v).toNat ∧ (b64StdChr v).toNat ≤ 57)
    ∨ (b64StdChr v).toNat = 43 ∨ (b64StdChr v).toNat = 47 := by
  unfold b64StdChr
  by_cases h1 : v < 26
  · rw [if_pos h1, toNat_ofNat_small (65 + v) (by omega)]
    omega
  · rw [if_neg h1]
    by_cases h2 : v < 52
    · rw [if_pos h2, toNat_ofNat_small (97 + (v - 26)) (by omega)]
      omega
    · rw [if_neg h2]
      by_cases h3 : v < 62
      · rw [if_pos h3, toNat_ofNat_small (48 + (v - 52)) (by omega)]
        omega
      · rw [if_neg h3]
        by_cases h4 : v = 62
        · rw [if_pos h4, toNat_ofNat_small 43 (by omega)]
          omega
        · rw [if_neg h4, toNat_ofNat_small 47 (by omega)]
          omega

theorem b64Core_mem (chr : Nat → Char) : ∀ (bs : List Nat), (∀ b ∈ bs, b < 256) →
    ∀ c ∈ b64EncodeCore chr bs, ∃ v, v < 64 ∧ c = chr v
  | [], _, c, hc => by simp [b64EncodeCore] at hc
  | [b1], hb, c, hc => by
    have h1 : b1 < 256 := hb b1 (by simp)
    have hc2 : c = chr (b1 / 4) ∨ c = chr (b1 % 4 * 16) := by
      simpa [b64EncodeCore] using hc
    rcases hc2 with h | h
    · exact ⟨b1 / 4, by omega, h⟩
    · exact ⟨b1 % 4 * 16, by omega, h⟩
  | [b1, b2], hb, c, hc => by
    have h1 : b1 < 256 := hb b1 (by simp)
    have h2 : b2 < 256 := hb b2 (by simp)
    have hc2 : c = chr (b1 / 4) ∨ c = chr (b1 % 4 * 16 + b2 / 16)
        ∨ c = chr (b2 % 16 * 4) := by
      simpa [b64EncodeCore] using hc
    rcases hc2 with h | h | h
    · exact ⟨b1 / 4, by omega, h⟩
    · exact ⟨b1 % 4 * 16 + b2 / 16, by omega, h⟩
    · exact ⟨b2 % 16 * 4, by omega, h⟩
  | b1 :: b2 :: b3 :: rest, hb, c, hc => by
    have h1 : b1 < 256 := hb b1 (by simp)
    have h2 : b2 < 256 := hb b2 (by simp)
    have h3 : b3 < 256 := hb b3 (by simp)
    have hc2 : c = chr (b1 / 4) ∨ c = chr (b1 % 4 * 16 + b2 / 16)
        ∨ c = chr (b2 % 16 * 4 + b3 / 64) ∨ c = chr (b3 % 64)
        ∨ c ∈ b64EncodeCore chr rest := by
      simpa [b64EncodeCore] using hc
    rcases hc2 with h | h | h | h | h
    · exact ⟨b1 / 4, by omega, h⟩
    · exact ⟨b1 % 4 * 16 + b2 / 16, by omega, h⟩
    · exact ⟨b2 % 16 * 4 + b3 / 64, by omega, h⟩
    · exact ⟨b3 % 64, by omega, h⟩
    · exact b64Core_mem chr rest (fun b hb2 => hb b (by simp [hb2])) c h

theorem b64Core_roundtrip (val : Char → Option Nat) (chr : Nat → Char)
    (hv : ∀ v, v < 64 → val (chr v) = some v) :
    ∀ (bs : List Nat), (∀ b ∈ bs, b < 256) →
      b64DecodeVals ((b64EncodeCore chr bs).filterMap val) = bs
  | [], _ => rfl
  | [b1], hb => by
    have h1 : b1 < 256 := hb b1 (by simp)
    show b64DecodeVals (List.filterMap val [chr (b1 / 4), chr (b1 % 4 * 16)]) = [b1]
    rw [List.filterMap_cons, hv _ (by omega), List.filterMap_cons, hv _ (by omega)]
    show b64DecodeVals [b1 / 4, b1 % 4 * 16] = [b1]
    unfold b64DecodeVals
    simp only [List.cons.injEq, and_true, eq_self_iff_true]
    omega
  | [b1, b2], hb => by
    have h1 : b1 < 256 := hb b1 (by simp)
    have h2 : b2 < 256 := hb b2 (by simp)
    show b64DecodeVals (List.filterMap val
      [chr (b1 / 4), chr (b1 % 4 * 16 + b2 / 16), chr (b2 % 16 * 4)]) = [b1, b2]
    rw [List.filterMap_cons, hv _ (by omega), List.filterMap_cons, hv _ (by omega),
      List.filterMap_cons, hv _ (by omega)]
    show b64DecodeVals [b1 / 4, b1 % 4 * 16 + b2 / 16, b2 % 16 * 4] = [b1, b2]
    unfold b64DecodeVals
    simp only [List.cons.injEq, and_true, eq_self_iff_true]
    constructor
    · omega
    · omega
  | b1 :: b2 :: b3 :: rest, hb => by
    have h1 : b1 < 256 := hb b1 (by simp)
    have h2 : b2 < 256 := hb b2 (by simp)
    have h3 : b3 < 256 := hb b3 (by simp)
    show b64DecodeVals (List.filterMap val (chr (b1 / 4) :: chr (b1 % 4 * 16 + b2 / 16)
      :: chr (b2 % 16 * 4 + b3 / 64) :: chr (b3 % 64) :: b64EncodeCore chr rest))
      = b1 :: b2 :: b3 :: rest
    rw [List.filterMap_cons, hv _ (by omega), List.filterMap_cons, hv _ (by omega),
      List.filterMap_cons, hv _ (by omega), List.filterMap_cons, hv _ (by omega)]
    show b64DecodeVals (b1 / 4 :: (b1 % 4 * 16 + b2 / 16) :: (b2 % 16 * 4 + b3 / 64)
      :: b3 % 64 :: List.filterMap val (b64EncodeCore chr rest)) = b1 :: b2 :: b3 :: rest
    unfold b64DecodeVals
    rw [b64Core_roundtrip val chr hv rest (fun b hb2 => hb b (by simp [hb2]))]
    simp only [List.cons.injEq, and_true, eq_self_iff_true]
    refine ⟨by omega, by omega, by omega⟩

theorem b64Core_len (chr : Nat → Char) :
    ∀ (bs : List Nat), (b64EncodeCore chr bs).length = (4 * bs.length + 2) / 3
  | [] => rfl
  | [b1] => by
    show ([chr (b1 / 4), chr (b1 % 4 * 16)] : List Char).length = (4 * 1 + 2) / 3
    rfl
  | [b1, b2] => by
    show ([chr (b1 / 4), chr (b1 % 4 * 16 + b2 / 16), chr (b2 % 16 * 4)] : List Char).length
      = (4 * 2 + 2) / 3
    rfl
  | b1 :: b2 :: b3 :: rest => by
    show (chr (b1 / 4) :: chr (b1 % 4 * 16 + b2 / 16) :: chr (b2 % 16 * 4 + b3 / 64)
      :: chr (b3 % 64) :: b64EncodeCore chr rest).length
      = (4 * (b1 :: b2 :: b3 :: rest).length + 2) / 3
    simp only [List.length_cons]
    rw [b64Core_len chr rest]
    omega

theorem filterMap_none_replicate (val : Char → Option Nat) (k : Nat) (c : Char)
    (h : val c = none) : List.filterMap val (List.replicate k c) = [] := by
  induction k with
  | zero => rfl
  | succ k ih =>
    rw [List.replicate_succ, List.filterMap_cons, h]
    exact ih

theorem filter_false_all (p : Char → Bool) :
    ∀ (l : List Char), (∀ c ∈ l, p c = false) → l.filter p = []
  | [], _ => rfl
  | c :: l, h => by
    rw [List.filter_cons, h c (by simp)]
    simp only [Bool.false_eq_true, if_false]
    exact filter_false_all p l (fun d hd => h d (by simp [hd]))

theorem filter_true_replicate (p : Char → Bool) (k : Nat) (c : Char) (h : p c = true) :
    ((List.replicate k c).filter p).length = k := by
  induction k with
  | zero => rfl
  | succ k ih =>
    rw [List.replicate_succ, List.filter_cons, h]
    simp only [if_true, List.length_cons]
    omega

theorem filterMap_all_some_length (val : Char → Option Nat) :
    ∀ (l : List Char), (∀ c ∈ l, (val c).isSome) → (l.filterMap val).length = l.length
  | [], _ => rfl
  | c :: l, h => by
    have hs := h c (by simp)
    rcases ho : val c with _ | v
    · rw [ho] at hs
      simp at hs
    · rw [List.filterMap_cons, ho]
      simp only [List.length_cons]
      rw [filterMap_all_some_length val l (fun d hd => h d (by simp [hd]))]

theorem itsB64Decode_encode (bs : List Nat) (hb : ∀ b ∈ bs, b < 256) :
    itsB64Decode (b64UrlEncode bs) = some bs := by
  unfold itsB64Decode b64UrlEncode b64DecodeLenient
  have hmem := b64Core_mem b64UrlChr bs hb
  have hvnone : b64UrlVal (Char.ofNat 61) = none := by decide
  have hdata : (b64EncodeCore b64UrlChr bs
      ++ List.replicate ((4 - (b64EncodeCore b64UrlChr bs).length % 4) % 4)
        (Char.ofNat 61)).filterMap b64UrlVal
      = (b64EncodeCore b64UrlChr bs).filterMap b64UrlVal := by
    rw [List.filterMap_append, filterMap_none_replicate _ _ _ hvnone, List.append_nil]
  have hlen : ((b64EncodeCore b64UrlChr bs).filterMap b64UrlVal).length
      = (b64EncodeCore b64UrlChr bs).length := by
    apply filterMap_all_some_length
    intro c hc
    obtain ⟨v, hv, rfl⟩ := hmem c hc
    rw [b64UrlVal_chr v hv]
    rfl
  have hno61 : ∀ c ∈ b64EncodeCore b64UrlChr bs, (decide (c.toNat = 61)) = false := by
    intro c hc
    obtain ⟨v, hv, rfl⟩ := hmem c hc
    have := b64UrlChr_range v hv
    rw [decide_eq_false_iff_not]
    omega
  have hpadcount : (((b64EncodeCore b64UrlChr bs)
      ++ List.replicate ((4 - (b64EncodeCore b64UrlChr bs).length % 4) % 4)
        (Char.ofNat 61)).filter (fun c => c.toNat = 61)).length
      = (4 - (b64EncodeCore b64UrlChr bs).length % 4) % 4 := by
    rw [List.filter_append, filter_false_all _ _ hno61, List.nil_append]
    apply filter_true_replicate
    rw [decide_eq_true_eq]
    exact toNat_ofNat_small 61 (by omega)
  have hL := b64Core_len b64UrlChr bs
  dsimp only
  rw [hdata, hpadcount, hlen]
  rw [if_pos (by constructor <;> omega)]
  rw [b64Core_roundtrip b64UrlVal b64UrlChr b64UrlVal_chr bs hb]

theorem b64StdDecode_encode (bs : List Nat) (hb : ∀ b ∈ bs, b < 256) :
    b64StdDecode (b64StdEncode bs) = some bs := by
  unfold b64StdDecode b64StdEncode b64DecodeLenient
  have hmem := b64Core_mem b64StdChr bs hb
  have hvnone : b64StdVal (Char.ofNat 61) = none := by decide
  have hdata : (b64EncodeCore b64StdChr bs
      ++ List.replicate ((3 - bs.length % 3) % 3) (Char.ofNat 61)).filterMap b64StdVal
      = (b64EncodeCore b64StdChr bs).filterMap b64StdVal := by
    rw [List.filterMap_append, filterMap_none_replicate _ _ _ hvnone, List.append_nil]
  have hlen : ((b64EncodeCore b64StdChr bs).filterMap b64StdVal).length
      = (b64EncodeCore b64StdChr bs).length := by
    apply filterMap_all_some_length
    intro c hc
    obtain ⟨v, hv, rfl⟩ := hmem c hc
    rw [b64StdVal_chr v hv]
    rfl
  have hno61 : ∀ c ∈ b64EncodeCore b64StdChr bs, (decide (c.toNat = 61)) = false := by
    intro c hc
    obtain ⟨v, hv, rfl⟩ := hmem c hc
    have := b64StdChr_range v hv
    rw [decide_eq_false_iff_not]
    omega
  have hpadcount : (((b64EncodeCore b64StdChr bs)
      ++ List.replicate ((3 - bs.length % 3) % 3) (Char.ofNat 61)).filter
        (fun c => c.toNat = 61)).length
      = (3 - bs.length % 3) % 3 := by
    rw [List.filter_append, filter_false_all _ _ hno61, List.nil_append]
    apply filter_true_replicate
    rw [decide_eq_true_eq]
    exact toNat_ofNat_small 61 (by omega)
  have hL := b64Core_len b64StdChr bs
  have h3 : bs.length % 3 = 0 ∨ bs.length % 3 = 1 ∨ bs.length % 3 = 2 := by omega
  dsimp only
  rw [hdata, hpadcount, hlen]
  rw [if_pos (by rcases h3 with h3 | h3 | h3 <;> rw [h3] <;> constructor <;> omega)]
  rw [b64Core_roundtrip b64StdVal b64StdChr b64StdVal_chr bs hb]

/-! ### UTF-8 round trip -/

theorem utf8DecodeNats_step (f : Nat) (n : Nat) (rest : List Nat)
    (hn : n < 55296 ∨ (57343 < n ∧ n < 1114112)) :
    utf8DecodeNats (f + 1) (utf8EncodeNat n ++ rest)
      = (utf8DecodeNats f rest).map (fun l => n :: l) := by
  by_cases h1 : n < 128
  · have he : utf8EncodeNat n = [n] := by
      unfold utf8EncodeNat
      rw [if_pos h1]
    rw [he]
    show utf8DecodeNats (f + 1) (n :: rest) = _
    conv_lhs => unfold utf8DecodeNats
    rw [if_pos h1]
  · by_cases h2 : n < 2048
    · have he : utf8EncodeNat n = [192 + n / 64, 128 + n % 64] := by
        unfold utf8EncodeNat
        rw [if_neg h1, if_pos h2]
      rw [he]
      show utf8DecodeNats (f + 1) ((192 + n / 64) :: (128 + n % 64) :: rest) = _
      conv_lhs => unfold utf8DecodeNats
      rw [if_neg (by omega), if_neg (by omega), if_pos (by omega)]
      dsimp only
      rw [if_pos (by omega)]
      have hval : (192 + n / 64 - 192) * 64 + (128 + n % 64 - 128) = n := by omega
      rw [hval]
    · by_cases h3 : n < 65536
      · have he : utf8EncodeNat n = [224 + n / 4096, 128 + n / 64 % 64, 128 + n % 64] := by
          unfold utf8EncodeNat
          rw [if_neg h1, if_neg h2, if_pos h3]
        rw [he]
        show utf8DecodeNats (f + 1)
          ((224 + n / 4096) :: (128 + n / 64 % 64) :: (128 + n % 64) :: rest) = _
        conv_lhs => unfold utf8DecodeNats
        rw [if_neg (by omega), if_neg (by omega), if_neg (by omega), if_pos (by omega)]
        dsimp only
        have hval : (224 + n / 4096 - 224) * 4096 + (128 + n / 64 % 64 - 128) * 64
            + (128 + n % 64 - 128) = n := by omega
        rw [hval]
        rw [if_pos (by omega)]
      · have h4 : n < 1114112 := by omega
        have he : utf8EncodeNat n = [240 + n / 262144, 128 + n / 4096 % 64,
            128 + n / 64 % 64, 128 + n % 64] := by
          unfold utf8EncodeNat
          rw [if_neg h1, if_neg h2, if_neg h3]
        rw [he]
        show utf8DecodeNats (f + 1) ((240 + n / 262144) :: (128 + n / 4096 % 64)
          :: (128 + n / 64 % 64) :: (128 + n % 64) :: rest) = _
        conv_lhs => unfold utf8DecodeNats
        rw [if_neg (by omega), if_neg (by omega), if_neg (by omega), if_neg (by omega),
          if_pos (by omega)]
        dsimp only
        have hval : (240 + n / 262144 - 240) * 262144 + (128 + n / 4096 % 64 - 128) * 4096
            + (128 + n / 64 % 64 - 128) * 64 + (128 + n % 64 - 128) = n := by omega
        rw [hval]
        rw [if_pos (by omega)]

theorem char_toNat_valid (c : Char) :
    c.toNat < 55296 ∨ (57343 < c.toNat ∧ c.toNat < 1114112) := by
  have hv := c.valid
  rcases hv with h | ⟨h1, h2⟩
  · exact Or.inl h
  · exact Or.inr ⟨h1, h2⟩

theorem utf8DecodeNats_nil (f : Nat) : utf8DecodeNats f [] = some [] := by
  cases f with
  | zero => rfl
  | succ f => rfl

theorem utf8DecodeNats_encode :
    ∀ (s : List Char) (f : Nat), s.length ≤ f →
      utf8DecodeNats f (utf8Encode s) = some (s.map Char.toNat)
  | [], f, _ => utf8DecodeNats_nil f
  | c :: s, f, hf => by
    obtain ⟨f0, rfl⟩ : ∃ f0, f = f0 + 1 := ⟨f - 1, by simp at hf; omega⟩
    show utf8DecodeNats (f0 + 1) (utf8EncodeNat c.toNat ++ utf8Encode s) = _
    rw [utf8DecodeNats_step f0 c.toNat (utf8Encode s) (char_toNat_valid c)]
    rw [utf8DecodeNats_encode s f0 (by simp at hf; omega)]
    rfl

theorem utf8EncodeNat_len (n : Nat) : 1 ≤ (utf8EncodeNat n).length := by
  unfold utf8EncodeNat
  repeat' split
  all_goals simp

theorem utf8Encode_len : ∀ (s : List Char), s.length ≤ (utf8Encode s).length
  | [] => le_refl 0
  | c :: s => by
    show (c :: s).length ≤ (utf8EncodeNat c.toNat ++ utf8Encode s).length
    rw [List.length_cons, List.length_append]
    have h1 := utf8EncodeNat_len c.toNat
    have h2 := utf8Encode_len s
    omega

theorem utf8Decode_encode (s : List Char) : utf8Decode (utf8Encode s) = some s := by
  unfold utf8Decode
  rw [utf8DecodeNats_encode s (utf8Encode s).length (utf8Encode_len s)]
  have h : ∀ c : Char, Char.ofNat c.toNat = c := by
    intro c
    exact char_eq_of_toNat _ _ (toNat_ofNat_valid c.toNat c.valid)
  show some ((s.map Char.toNat).map Char.ofNat) = some s
  congr 1
  induction s with
  | nil => rfl
  | cons c s ih =>
    show Char.ofNat c.toNat :: (s.map Char.toNat).map Char.ofNat = c :: s
    rw [h c, ih]

/-! ### Unique-id round trip -/

theorem hexFix_len : ∀ (k n : Nat), (hexFix k n).length = k
  | 0, _ => rfl
  | k + 1, n => by
    show (hexFix k (n / 16) ++ [hexChr (n % 16)]).length = k + 1
    rw [List.length_append, hexFix_len k (n / 16)]
    rfl

theorem hexFix_mem : ∀ (k n : Nat), ∀ c ∈ hexFix k n, ∃ v, v < 16 ∧ c = hexChr v
  | 0, _, c, hc => by simp [hexFix] at hc
  | k + 1, n, c, hc => by
    have hc2 : c ∈ hexFix k (n / 16) ++ [hexChr (n % 16)] := hc
    rw [List.mem_append] at hc2
    rcases hc2 with h | h
    · exact hexFix_mem k (n / 16) c h
    · exact ⟨n % 16, by omega, by simpa using h⟩

theorem hexChr_range (v : Nat) (h : v < 16) :
    (48 ≤ (hexChr v).toNat ∧ (hexChr v).toNat ≤ 57)
    ∨ (97 ≤ (hexChr v).toNat ∧ (hexChr v).toNat ≤ 102) := by
  rw [hexChr_toNat v h]
  by_cases h10 : v < 10
  · rw [if_pos h10]
    omega
  · rw [if_neg h10]
    omega

theorem stripUrn_id : ∀ (cs : List Char), (∀ c ∈ cs, c.toNat ≠ 117) → stripUrn cs = cs
  | [], _ => rfl
  | c :: rest, h => by
    have hc : c ≠ 'u' := by
      intro he
      exact h c (by simp) (by rw [he]; rfl)
    have he : stripUrn (c :: rest) = c :: stripUrn rest := by
      conv_lhs => unfold stripUrn
      split
      · rename_i rest2 heq
        injection heq with h1 h2
        exact absurd h1 hc
      · rename_i c2 rest2 heq
        injection heq with h1 h2
        rw [h1, h2]
      · rename_i heq
        simp at heq
    rw [he, stripUrn_id rest (fun d hd => h d (by simp [hd]))]

theorem stripUuidColon_id : ∀ (cs : List Char), (∀ c ∈ cs, c.toNat ≠ 117) →
    stripUuidColon cs = cs
  | [], _ => rfl
  | c :: rest, h => by
    have hc : c ≠ 'u' := by
      intro he
      exact h c (by simp) (by rw [he]; rfl)
    have he : stripUuidColon (c :: rest) = c :: stripUuidColon rest := by
      conv_lhs => unfold stripUuidColon
      split
      · rename_i rest2 heq
        injection heq with h1 h2
        exact absurd h1 hc
      · rename_i c2 rest2 heq
        injection heq with h1 h2
        rw [h1, h2]
      · rename_i heq
        simp at heq
    rw [he, stripUuidColon_id rest (fun d hd => h d (by simp [hd]))]

theorem dropWhile_false_all (p : Char → Bool) :
    ∀ (l : List Char), (∀ c ∈ l, p c = false) → l.dropWhile p = l
  | [], _ => rfl
  | c :: l, h => by
    rw [List.dropWhile_cons, h c (by simp)]
    simp only [Bool.false_eq_true, if_false]

theorem filter_true_all (p : Char → Bool) :
    ∀ (l : List Char), (∀ c ∈ l, p c = true) → l.filter p = l
  | [], _ => rfl
  | c :: l, h => by
    rw [List.filter_cons, h c (by simp)]
    simp only [if_true]
    rw [filter_true_all p l (fun d hd => h d (by simp [hd]))]

theorem hexFix_foldl : ∀ (k n acc : Nat),
    (hexFix k n).foldl (fun acc c => acc * 16 + (hexVal c).getD 0) acc
      = acc * 16 ^ k + n % 16 ^ k
  | 0, n, acc => by simp [hexFix, Nat.mod_one]
  | k + 1, n, acc => by
    show ((hexFix k (n / 16) ++ [hexChr (n % 16)]).foldl
      (fun acc c => acc * 16 + (hexVal c).getD 0) acc) = _
    rw [List.foldl_append, hexFix_foldl k (n / 16) acc]
    show (acc * 16 ^ k + n / 16 % 16 ^ k) * 16 + (hexVal (hexChr (n % 16))).getD 0 = _
    rw [hexVal_hexChr (n % 16) (by omega)]
    show (acc * 16 ^ k + n / 16 % 16 ^ k) * 16 + n % 16 = _
    have h2 : n % (16 ^ k * 16) = n % 16 + n / 16 % 16 ^ k * 16 := by
      rw [Nat.mul_comm, Nat.mod_mul]
      ring
    rw [pow_succ, h2]
    ring

theorem hexVal_isSome (c : Char)
    (h : (48 ≤ c.toNat ∧ c.toNat ≤ 57) ∨ (97 ≤ c.toNat ∧ c.toNat ≤ 102)) :
    (hexVal c).isSome = true := by
  unfold hexVal
  dsimp only
  rcases h with h | h
  · rw [if_pos (by omega)]
    rfl
  · rw [if_neg (by omega), if_pos (by omega)]
    rfl

theorem uuidParse_hex (cs : List Char) (hlen : cs.length = 32)
    (hrange : ∀ c ∈ cs, (48 ≤ c.toNat ∧ c.toNat ≤ 57) ∨ (97 ≤ c.toNat ∧ c.toNat ≤ 102)) :
    uuidParse cs = some (cs.foldl (fun acc c => acc * 16 + (hexVal c).getD 0) 0) := by
  unfold uuidParse
  rw [stripUrn_id _ (fun c hc => by have := hrange c hc; omega)]
  rw [stripUuidColon_id _ (fun c hc => by have := hrange c hc; omega)]
  rw [dropWhile_false_all isBrace cs (fun c hc => by
    have := hrange c hc
    unfold isBrace
    rw [decide_eq_false_iff_not]
    omega)]
  rw [dropWhile_false_all isBrace cs.reverse (fun c hc => by
    have := hrange c (List.mem_reverse.mp hc)
    unfold isBrace
    rw [decide_eq_false_iff_not]
    omega)]
  rw [List.reverse_reverse]
  rw [filter_true_all _ _ (fun c hc => by
    have := hrange c hc
    rw [decide_eq_true_eq]
    omega)]
  rw [if_pos ⟨hlen, List.all_eq_true.mpr (fun c hc => hexVal_isSome c (hrange c hc))⟩]

theorem uuidParse_hexFix (n : Nat) (h : n < 16 ^ 32) :
    uuidParse (hexFix 32 n) = some n := by
  have hmem := hexFix_mem 32 n
  rw [uuidParse_hex (hexFix 32 n) (hexFix_len 32 n) (fun c hc => by
    obtain ⟨v, hv, rfl⟩ := hmem c hc
    exact hexChr_range v hv)]
  rw [hexFix_foldl 32 n 0]
  rw [Nat.zero_mul, Nat.zero_add, Nat.mod_eq_of_lt h]

/-! ### Http-date round trip -/

theorem decVal_decChr (x : Nat) : decVal (decChr x) = some (x % 10) := by
  unfold decVal
  rw [decChr_toNat]
  rw [if_pos (by omega)]
  congr 1
  omega

theorem len3_shape : ∀ (l : List Char), l.length = 3 → ∃ a b c, l = [a, b, c]
  | [a, b, c], _ => ⟨a, b, c, rfl⟩
  | [], h => by simp at h
  | [_], h => by simp at h
  | [_, _], h => by simp at h
  | _ :: _ :: _ :: _ :: _, h => by simp at h

theorem weekdayName_len (y m dd : Nat) : (weekdayName y m dd).length = 3 := by
  unfold weekdayName
  dsimp only
  repeat' split
  all_goals rfl

theorem weekdayName_shape (y m dd : Nat) : ∃ a b c, weekdayName y m dd = [a, b, c] :=
  len3_shape _ (weekdayName_len y m dd)

set_option maxHeartbeats 1000000 in
theorem monthName_len (m : Nat) : (monthName m).length = 3 := by
  unfold monthName
  repeat' split
  all_goals rfl

theorem monthName_shape (m : Nat) : ∃ a b c, monthName m = [a, b, c] :=
  len3_shape _ (monthName_len m)

theorem monthNum_monthName (m : Nat) (h1 : 1 ≤ m) (h2 : m ≤ 12) :
    monthNum (monthName m) = some m := by
  have hc : m = 1 ∨ m = 2 ∨ m = 3 ∨ m = 4 ∨ m = 5 ∨ m = 6 ∨ m = 7 ∨ m = 8 ∨ m = 9
      ∨ m = 10 ∨ m = 11 ∨ m = 12 := by omega
  rcases hc with rfl | rfl | rfl | rfl | rfl | rfl | rfl | rfl | rfl | rfl | rfl | rfl
    <;> rfl

theorem parseHttpDate_httpDate (d : DateTime) (h : dateOK d = true) :
    parseHttpDate (httpDate d) = some d := by
  obtain ⟨yr, mo, dy, hh, mi, se⟩ := d
  have hb : 1 ≤ mo ∧ mo ≤ 12 ∧ dy < 100 ∧ yr < 10000 ∧ hh < 100 ∧ mi < 100
      ∧ se < 100 := by
    have hb0 : (decide (1 ≤ mo) && decide (mo ≤ 12) && decide (dy < 100)
        && decide (yr < 10000) && decide (hh < 100) && decide (mi < 100)
        && decide (se < 100)) = true := h
    simp only [Bool.and_eq_true, decide_eq_true_eq] at hb0
    exact ⟨hb0.1.1.1.1.1.1, hb0.1.1.1.1.1.2, hb0.1.1.1.1.2, hb0.1.1.1.2, hb0.1.1.2,
      hb0.1.2, hb0.2⟩
  obtain ⟨a, b, c, hw⟩ := weekdayName_shape yr mo dy
  obtain ⟨x, y, z, hm⟩ := monthName_shape mo
  have hhttp : httpDate ⟨yr, mo, dy, hh, mi, se⟩
      = a :: b :: c :: ',' :: ' ' :: decChr (dy / 10 % 10) :: decChr (dy % 10)
        :: ' ' :: x :: y :: z :: ' ' :: decChr (yr / 10 / 10 / 10 % 10)
        :: decChr (yr / 10 / 10 % 10) :: decChr (yr / 10 % 10) :: decChr (yr % 10)
        :: ' ' :: decChr (hh / 10 % 10) :: decChr (hh % 10) :: ':'
        :: decChr (mi / 10 % 10) :: decChr (mi % 10) :: ':'
        :: decChr (se / 10 % 10) :: decChr (se % 10) :: [' ', 'G', 'M', 'T'] := by
    unfold httpDate
    rw [hw, hm]
    rfl
  rw [hhttp]
  unfold parseHttpDate
  dsimp only
  rw [if_pos (by refine ⟨rfl, rfl, rfl, rfl, rfl, rfl, rfl, rfl⟩)]
  rw [decVal_decChr, decVal_decChr, decVal_decChr, decVal_decChr, decVal_decChr,
    decVal_decChr, decVal_decChr, decVal_decChr, decVal_decChr, decVal_decChr,
    decVal_decChr, decVal_decChr]
  rw [show monthNum [x, y, z] = some mo from hm ▸ monthNum_monthName mo hb.1 hb.2.1]
  dsimp only
  congr 1
  simp only [DateTime.mk.injEq]
  refine ⟨by omega, trivial, by omega, by omega, by omega, by omega⟩

/-! ### The tagged-value round trip -/

theorem pyStr_str (s : List Char) : pyStr (.str s) = s := rfl

theorem hookTag_notReserved (k : List Char) (v : SessionValue) (o : SVObj)
    (h : resTag k = false) : hookTag k v o = .ok (.obj o) := by
  have h5 : ¬ k = [' ', 't'] ∧ ¬ k = [' ', 'u'] ∧ ¬ k = [' ', 'b'] ∧ ¬ k = [' ', 'm']
      ∧ ¬ k = [' ', 'd'] := by
    have hb : (decide (k = [' ', 't']) || decide (k = [' ', 'u']) || decide (k = [' ', 'b'])
        || decide (k = [' ', 'm']) || decide (k = [' ', 'd'])) = false := h
    simp only [Bool.or_eq_false_iff, decide_eq_false_iff_not] at hb
    exact ⟨hb.1.1.1.1, hb.1.1.1.2, hb.1.1.2, hb.1.2, hb.2⟩
  unfold hookTag
  rw [if_neg h5.1, if_neg h5.2.1, if_neg h5.2.2.1, if_neg h5.2.2.2.1, if_neg h5.2.2.2.2]

theorem objToSV_single (k : List Char) (j : Json) (v : SessionValue)
    (h : sessionOfJson j = .ok v) : objToSV (.cons k j .nil) = .ok (.cons k v .nil) := by
  show (match sessionOfJson j with
    | .error e => Except.error e
    | .ok sv =>
      match objToSV .nil with
      | .error e => Except.error e
      | .ok st => .ok (SVObj.cons k sv st)) = _
  rw [h]
  rfl

theorem sessionOfJson_singleObj (k : List Char) (j : Json) (v : SessionValue)
    (h : sessionOfJson j = .ok v) :
    sessionOfJson (.obj (.cons k j .nil)) = hookTag k v (.cons k v .nil) := by
  show (match objToSV (.cons k j .nil) with
    | .ok so =>
      match so with
      | .cons k2 v2 .nil => hookTag k2 v2 so
      | _ => .ok (.obj so)
    | .error e => .error e) = _
  rw [objToSV_single k j v h]

theorem keyNotIn_tagObj : ∀ (k : List Char) (o : SVObj),
    keyNotInSVO k o = true → keyNotIn k (tagObj o) = true
  | _, .nil, _ => rfl
  | k, .cons k2 v t, h => by
    have h2 : (decide (k2 ≠ k) && keyNotInSVO k t) = true := h
    rw [Bool.and_eq_true] at h2
    show (decide (k2 ≠ k) && keyNotIn k (tagObj t)) = true
    rw [h2.1, keyNotIn_tagObj k t h2.2]
    rfl

mutual
/-- Tagging a supported value yields wire JSON with distinct object keys. -/
theorem jsonOK_tag : ∀ (v : SessionValue), svOK v = true → jsonOK (tag v) = true
  | .null, _ => rfl
  | .bool _, _ => rfl
  | .num _, _ => rfl
  | .str _, _ => rfl
  | .seq l, h => jaOK_tagList l h
  | .obj o, h => by
    have h2 : (singleNotReserved o && svoOK o) = true := h
    rw [Bool.and_eq_true] at h2
    exact joOK_tagObj o h2.2
  | .tup l, h => by
    have h3 := jaOK_tagList l h
    show (keyNotIn [' ', 't'] .nil && jsonOK (.arr (tagList l)) && joOK .nil) = true
    show (true && jaOK (tagList l) && true) = true
    rw [h3]
    rfl
  | .uuid _, _ => rfl
  | .bytes _, _ => rfl
  | .markup _, _ => rfl
  | .date _, _ => rfl
/-- Well-formedness of a tagged sequence. -/
theorem jaOK_tagList : ∀ (l : SVList), svlOK l = true → jaOK (tagList l) = true
  | .nil, _ => rfl
  | .cons h t, hok => by
    have h2 : (svOK h && svlOK t) = true := hok
    rw [Bool.and_eq_true] at h2
    show (jsonOK (tag h) && jaOK (tagList t)) = true
    rw [jsonOK_tag h h2.1, jaOK_tagList t h2.2]
    rfl
/-- Well-formedness of a tagged mapping. -/
theorem joOK_tagObj : ∀ (o : SVObj), svoOK o = true → joOK (tagObj o) = true
  | .nil, _ => rfl
  | .cons k v t, hok => by
    have h2 : ((keyNotInSVO k t && svOK v) && svoOK t) = true := hok
    rw [Bool.and_eq_true, Bool.and_eq_true] at h2
    show (keyNotIn k (tagObj t) && jsonOK (tag v) && joOK (tagObj t)) = true
    rw [keyNotIn_tagObj k t h2.1.1, jsonOK_tag v h2.1.2, joOK_tagObj t h2.2]
    rfl
end

theorem hookTag_u (s : List Char) (o : SVObj) :
    hookTag [' ', 'u'] (.str s) o
      = (match uuidParse s with
        | some n => Except.ok (SessionValue.uuid n)
        | none => Except.error PyExc.valueError) := by
  unfold hookTag
  rw [if_neg (by decide), if_pos rfl]

theorem hookTag_b (s : List Char) (o : SVObj) :
    hookTag [' ', 'b'] (.str s) o
      = (match b64StdDecode s with
        | some bs => Except.ok (SessionValue.bytes bs)
        | none => Except.error PyExc.binasciiError) := by
  unfold hookTag
  rw [if_neg (by decide), if_neg (by decide), if_pos rfl]

theorem hookTag_d (s : List Char) (o : SVObj) :
    hookTag [' ', 'd'] (.str s) o
      = (match parseHttpDate s with
        | some d => Except.ok (SessionValue.date d)
        | none => Except.ok SessionValue.null) := by
  unfold hookTag
  rw [if_neg (by decide), if_neg (by decide), if_neg (by decide), if_neg (by decide),
    if_pos rfl]

mutual
/-- Decoding inverts tagging on every supported session value: converting
the tagged wire JSON back with the object hook applied to every mapping
returns exactly the original value. -/
theorem sessionOfJson_tag : ∀ (v : SessionValue), svOK v = true →
    sessionOfJson (tag v) = .ok v
  | .null, _ => rfl
  | .bool _, _ => rfl
  | .num _, _ => rfl
  | .str _, _ => rfl
  | .seq l, h => by
    show (match arrToSV (tagList l) with
      | .ok sl => Except.ok (SessionValue.seq sl)
      | .error e => .error e) = Except.ok (SessionValue.seq l)
    rw [arrToSV_tagList l h]
  | .obj o, h => by
    have h2 : (singleNotReserved o && svoOK o) = true := h
    rw [Bool.and_eq_true] at h2
    show (match objToSV (tagObj o) with
      | .ok so =>
        match so with
        | .cons k2 v2 .nil => hookTag k2 v2 so
        | _ => .ok (.obj so)
      | .error e => .error e) = Except.ok (SessionValue.obj o)
    rw [objToSV_tagObj o h2.2]
    rcases o with _ | ⟨k, v, _ | ⟨k2, v2, t2⟩⟩
    · rfl
    · have hres : resTag k = false := by
        have hb : (!(resTag k)) = true := h2.1
        cases hr : resTag k
        · rfl
        · rw [hr] at hb
          simp at hb
      show hookTag k v (.cons k v .nil) = _
      rw [hookTag_notReserved k v _ hres]
    · rfl
  | .tup l, h => by
    have h2 : sessionOfJson (.arr (tagList l)) = .ok (.seq l) := by
      show (match arrToSV (tagList l) with
        | .ok sl => Except.ok (SessionValue.seq sl)
        | .error e => .error e) = _
      rw [arrToSV_tagList l h]
    show sessionOfJson (.obj (.cons [' ', 't'] (.arr (tagList l)) .nil)) = .ok (.tup l)
    rw [sessionOfJson_singleObj [' ', 't'] (.arr (tagList l)) (.seq l) h2]
    rfl
  | .uuid n, h => by
    have hn : n < 340282366920938463463374607431768211456 := of_decide_eq_true h
    have h2 : sessionOfJson (.str (hexFix 32 n)) = .ok (.str (hexFix 32 n)) := rfl
    show sessionOfJson (.obj (.cons [' ', 'u'] (.str (hexFix 32 n)) .nil)) = .ok (.uuid n)
    rw [sessionOfJson_singleObj [' ', 'u'] (.str (hexFix 32 n)) (.str (hexFix 32 n)) h2]
    rw [hookTag_u]
    rw [uuidParse_hexFix n (by
      rw [show (16 : Nat) ^ 32 = 340282366920938463463374607431768211456 from by norm_num]
      exact hn)]
  | .bytes bs, h => by
    have hb : ∀ b ∈ bs, b < 256 := by
      have hball : bs.all (fun b => decide (b < 256)) = true := h
      rw [List.all_eq_true] at hball
      intro b hbm
      exact of_decide_eq_true (hball b hbm)
    have h2 : sessionOfJson (.str (b64StdEncode bs)) = .ok (.str (b64StdEncode bs)) := rfl
    show sessionOfJson (.obj (.cons [' ', 'b'] (.str (b64StdEncode bs)) .nil))
      = .ok (.bytes bs)
    rw [sessionOfJson_singleObj [' ', 'b'] (.str (b64StdEncode bs))
      (.str (b64StdEncode bs)) h2]
    rw [hookTag_b]
    rw [b64StdDecode_encode bs hb]
  | .markup s, _ => by
    have h2 : sessionOfJson (.str s) = .ok (.str s) := rfl
    show sessionOfJson (.obj (.cons [' ', 'm'] (.str s) .nil)) = .ok (.markup s)
    rw [sessionOfJson_singleObj [' ', 'm'] (.str s) (.str s) h2]
    rfl
  | .date d, h => by
    have hd : dateOK d = true := h
    have h2 : sessionOfJson (.str (httpDate d)) = .ok (.str (httpDate d)) := rfl
    show sessionOfJson (.obj (.cons [' ', 'd'] (.str (httpDate d)) .nil)) = .ok (.date d)
    rw [sessionOfJson_singleObj [' ', 'd'] (.str (httpDate d)) (.str (httpDate d)) h2]
    rw [hookTag_d]
    rw [parseHttpDate_httpDate d hd]
/-- Sequence items convert back one for one. -/
theorem arrToSV_tagList : ∀ (l : SVList), svlOK l = true →
    arrToSV (tagList l) = .ok l
  | .nil, _ => rfl
  | .cons h t, hok => by
    have h2 : (svOK h && svlOK t) = true := hok
    rw [Bool.and_eq_true] at h2
    show (match sessionOfJson (tag h) with
      | .error e => Except.error e
      | .ok v =>
        match arrToSV (tagList t) with
        | .error e => Except.error e
        | .ok vs => .ok (SVList.cons v vs)) = Except.ok (SVList.cons h t)
    rw [sessionOfJson_tag h h2.1, arrToSV_tagList t h2.2]
/-- Mapping entries convert back one for one. -/
theorem objToSV_tagObj : ∀ (o : SVObj), svoOK o = true →
    objToSV (tagObj o) = .ok o
  | .nil, _ => rfl
  | .cons k v t, hok => by
    have h2 : ((keyNotInSVO k t && svOK v) && svoOK t) = true := hok
    rw [Bool.and_eq_true, Bool.and_eq_true] at h2
    show (match sessionOfJson (tag v) with
      | .error e => Except.error e
      | .ok sv =>
        match objToSV (tagObj t) with
        | .error e => Except.error e
        | .ok st => .ok (SVObj.cons k sv st)) = Except.ok (SVObj.cons k v t)
    rw [sessionOfJson_tag v h2.1.2, objToSV_tagObj t h2.2]
end

/-! ### Byte ranges of every producer, segment shapes, and the pipeline
round trips -/

theorem natToBytesFix_mem : ∀ (k n : Nat), ∀ b ∈ natToBytesFix k n, b < 256
  | 0, _, b, hb => by simp [natToBytesFix] at hb
  | k + 1, n, b, hb => by
    have hb2 : b ∈ natToBytesFix k (n / 256) ++ [n % 256] := hb
    rw [List.mem_append] at hb2
    rcases hb2 with h | h
    · exact natToBytesFix_mem k (n / 256) b h
    · simp at h
      omega

theorem natBytesCore_mem : ∀ (n : Nat), ∀ b ∈ natBytesCore n, b < 256 := by
  intro n
  induction n using Nat.strong_induction_on with
  | _ n ih =>
    rw [natBytesCore]
    by_cases h : n = 0
    · rw [dif_pos h]
      intro b hb
      simp at hb
    · rw [dif_neg h]
      intro b hb
      rw [List.mem_append] at hb
      rcases hb with hb | hb
      · exact ih (n / 256) (Nat.div_lt_self (by omega) (by omega)) b hb
      · simp at hb
        omega

theorem mem_dropWhile_sub {p : Nat → Bool} : ∀ (l : List Nat) (b : Nat),
    b ∈ l.dropWhile p → b ∈ l
  | [], _, hb => hb
  | c :: l, b, hb => by
    rw [List.dropWhile_cons] at hb
    by_cases hp : p c = true
    · rw [if_pos hp] at hb
      exact List.mem_cons_of_mem c (mem_dropWhile_sub l b hb)
    · rw [if_neg hp] at hb
      exact hb

theorem natToBytesBE_mem (n : Nat) : ∀ b ∈ natToBytesBE n, b < 256 := by
  intro b hb
  unfold natToBytesBE at hb
  by_cases h : n < 256 ^ 16
  · rw [if_pos h] at hb
    exact natToBytesFix_mem 16 n b (mem_dropWhile_sub _ b hb)
  · rw [if_neg h] at hb
    exact natBytesCore_mem n b hb

theorem sha1_mem (msg : List Nat) : ∀ b ∈ sha1 msg, b < 256 := by
  intro b hb
  unfold sha1 at hb
  dsimp only at hb
  rw [List.mem_append, List.mem_append, List.mem_append, List.mem_append] at hb
  rcases hb with (((h | h) | h) | h) | h
    <;> exact natToBytesFix_mem 4 _ b h

theorem hmacSha1_mem (key msg : List Nat) : ∀ b ∈ hmacSha1 key msg, b < 256 := by
  intro b hb
  unfold hmacSha1 at hb
  dsimp only at hb
  exact sha1_mem _ b hb

theorem utf8EncodeNat_mem (n : Nat) (hn : n < 1114112) :
    ∀ b ∈ utf8EncodeNat n, b < 256 := by
  intro b hb
  unfold utf8EncodeNat at hb
  by_cases h1 : n < 128
  · rw [if_pos h1] at hb
    simp at hb
    omega
  · rw [if_neg h1] at hb
    by_cases h2 : n < 2048
    · rw [if_pos h2] at hb
      simp at hb
      rcases hb with rfl | rfl <;> omega
    · rw [if_neg h2] at hb
      by_cases h3 : n < 65536
      · rw [if_pos h3] at hb
        simp at hb
        rcases hb with rfl | rfl | rfl <;> omega
      · rw [if_neg h3] at hb
        simp at hb
        rcases hb with rfl | rfl | rfl | rfl <;> omega

theorem utf8Encode_mem : ∀ (s : List Char), ∀ b ∈ utf8Encode s, b < 256
  | [], _, hb => by simp [utf8Encode] at hb
  | c :: s, b, hb => by
    have hb2 : b ∈ utf8EncodeNat c.toNat ++ utf8Encode s := hb
    rw [List.mem_append] at hb2
    rcases hb2 with h | h
    · exact utf8EncodeNat_mem c.toNat (by have := char_toNat_valid c; omega) b h
    · exact utf8Encode_mem s b h

theorem utf8Encode_shape (c : Char) (s : List Char) :
    ∃ b bs, utf8Encode (c :: s) = b :: bs := by
  have hl := utf8EncodeNat_len c.toNat
  rcases he : utf8EncodeNat c.toNat with _ | ⟨b, bs⟩
  · rw [he] at hl
    simp at hl
  · refine ⟨b, bs ++ utf8Encode s, ?_⟩
    show utf8EncodeNat c.toNat ++ utf8Encode s = _
    rw [he]
    rfl

theorem b64Core_shape (chr : Nat → Char) (b : Nat) (rest : List Nat) :
    ∃ tl, b64EncodeCore chr (b :: rest) = chr (b / 4) :: tl := by
  rcases rest with _ | ⟨b2, _ | ⟨b3, rest2⟩⟩ <;> exact ⟨_, rfl⟩

theorem b64UrlEncode_nodot (bs : List Nat) (hb : ∀ b ∈ bs, b < 256) :
    ∀ c ∈ b64UrlEncode bs, c ≠ '.' := by
  intro c hc
  obtain ⟨v, hv, rfl⟩ := b64Core_mem b64UrlChr bs hb c hc
  have := b64UrlChr_range v hv
  exact char_ne _ '.' (by intro he; rw [show ('.').toNat = 46 from rfl] at he; omega)

theorem payloadSeg_shape (v : SessionValue) :
    ∃ c tl, payloadSeg v = c :: tl ∧ c ≠ '.' := by
  obtain ⟨c0, tl0, hs, _, _⟩ := serJ_head (tag v)
  obtain ⟨b, bs, hu⟩ : ∃ b bs, utf8Encode (serJ (tag v)) = b :: bs := by
    rw [hs]
    exact utf8Encode_shape c0 tl0
  obtain ⟨tl, ht⟩ := b64Core_shape b64UrlChr b bs
  refine ⟨b64UrlChr (b / 4), tl, ?_, ?_⟩
  · show b64EncodeCore b64UrlChr (utf8Encode (serJ (tag v))) = _
    rw [hu, ht]
  · apply b64UrlEncode_nodot (utf8Encode (serJ (tag v))) (utf8Encode_mem _)
    show b64UrlChr (b / 4) ∈ b64EncodeCore b64UrlChr (utf8Encode (serJ (tag v)))
    rw [hu, ht]
    simp

theorem timestampSeg_nodot (legacy : Bool) (now : Nat) :
    ∀ c ∈ timestampSeg legacy now, c ≠ '.' :=
  b64UrlEncode_nodot _ (natToBytesBE_mem _)

theorem sigSeg_nodot (sb : List Nat) (salt : List Char) (p t : List Char) :
    ∀ c ∈ sigSeg sb salt p t, c ≠ '.' :=
  b64UrlEncode_nodot _ (hmacSha1_mem _ _)

theorem signCore_split (v : SessionValue) (sb : List Nat) (salt : List Char)
    (legacy : Bool) (now : Nat) :
    splitOnDot (signCore v sb salt legacy now)
      = [payloadSeg v, timestampSeg legacy now,
        sigSeg sb salt (payloadSeg v) (timestampSeg legacy now)] := by
  have hassoc : signCore v sb salt legacy now
      = payloadSeg v ++ '.' :: (timestampSeg legacy now
        ++ '.' :: sigSeg sb salt (payloadSeg v) (timestampSeg legacy now)) := by
    show (payloadSeg v ++ ('.' :: timestampSeg legacy now))
      ++ ('.' :: sigSeg sb salt (payloadSeg v) (timestampSeg legacy now)) = _
    simp [List.append_assoc]
  rw [hassoc]
  rw [splitOnDot_append _ _ (fun c hc => by
    obtain ⟨c0, tl0, hp, hne⟩ := payloadSeg_shape v
    exact (b64UrlEncode_nodot _ (utf8Encode_mem _)) c hc)]
  rw [splitOnDot_append _ _ (timestampSeg_nodot legacy now)]
  rw [splitOnDot_nodot _ (sigSeg_nodot sb salt _ _)]

theorem signCore_head (v : SessionValue) (sb : List Nat) (salt : List Char)
    (legacy : Bool) (now : Nat) :
    ∃ c tl, signCore v sb salt legacy now = c :: tl ∧ c ≠ '.' := by
  obtain ⟨c, tl0, hp, hne⟩ := payloadSeg_shape v
  refine ⟨c, tl0 ++ '.' :: timestampSeg legacy now
    ++ '.' :: sigSeg sb salt (payloadSeg v) (timestampSeg legacy now), ?_, hne⟩
  show (payloadSeg v ++ ('.' :: timestampSeg legacy now))
    ++ ('.' :: sigSeg sb salt (payloadSeg v) (timestampSeg legacy now)) = _
  rw [hp]
  simp [List.append_assoc]

theorem check_signCore (v : SessionValue) (sb : List Nat) (salt : List Char)
    (legacy : Bool) (now : Nat) :
    check (signCore v sb salt legacy now) sb salt = true := by
  obtain ⟨c, tl, hck, hne⟩ := signCore_head v sb salt legacy now
  unfold check
  rw [hck]
  dsimp only
  rw [show (c == '.') = false from beq_eq_false_iff_ne.mpr hne]
  rw [if_neg Bool.false_ne_true]
  rw [← hck, signCore_split v sb salt legacy now]
  dsimp only
  simp

theorem decodePayload_signCore (v : SessionValue) (sb : List Nat) (salt : List Char)
    (legacy : Bool) (now : Nat) :
    decodePayloadText (signCore v sb salt legacy now) = some (serJ (tag v)) := by
  obtain ⟨c, tl, hck, hne⟩ := signCore_head v sb salt legacy now
  unfold decodePayloadText
  rw [hck]
  dsimp only
  rw [show (c == '.') = false from beq_eq_false_iff_ne.mpr hne]
  rw [if_neg Bool.false_ne_true]
  rw [← hck, signCore_split v sb salt legacy now]
  dsimp only [List.headD]
  rw [show (payloadSeg v : List Char)
    = b64UrlEncode (utf8Encode (serJ (tag v))) from rfl]
  rw [itsB64Decode_encode _ (utf8Encode_mem _)]
  dsimp only
  rw [if_neg Bool.false_ne_true]
  dsimp only
  rw [utf8Decode_encode]

theorem decodeL_signCore (v : SessionValue) (hv : svOK v = true) (sb : List Nat)
    (salt : List Char) (legacy : Bool) (now : Nat) :
    decodeL (signCore v sb salt legacy now) = .ok v := by
  unfold decodeL
  rw [decodePayload_signCore v sb salt legacy now]
  dsimp only
  rw [jsonLoads_serJ (tag v) (jsonOK_tag v hv)]
  dsimp only
  exact sessionOfJson_tag v hv

/-! ### Claim-support theorems on the string pipeline -/

theorem decodeL_eq_of (cs : List Char) :
    decodeL cs = decodeOf (cookieFlag cs) (cookieFirstSeg cs) := rfl

theorem verifyL_signL (v : SessionValue) (secret : Secret) (legacy legacy2 : Bool)
    (salt : List Char) (now : Nat) (h : secret.isStringType = true) :
    ∃ cookie, signL v secret legacy salt now = .ok cookie
      ∧ verifyL cookie secret legacy2 salt = .ok true := by
  refine ⟨signCore v secret.toBytes salt legacy now, ?_, ?_⟩
  · unfold signL
    rw [if_pos h]
  · unfold verifyL
    rw [if_pos h, check_signCore]

theorem sign_uncompressed_core (v : SessionValue) (secret : Secret) (legacy : Bool)
    (salt : List Char) (now : Nat) (cookie : List Char)
    (h : signL v secret legacy salt now = .ok cookie) :
    ∃ c tl, cookie = c :: tl ∧ c ≠ '.' := by
  unfold signL at h
  by_cases hg : secret.isStringType = true
  · rw [if_pos hg] at h
    injection h with h2
    rw [← h2]
    exact signCore_head v secret.toBytes salt legacy now
  · rw [if_neg hg] at h
    exact Except.noConfusion h

theorem decode_sign_core (v : SessionValue) (secret : Secret) (legacy : Bool)
    (salt : List Char) (now : Nat) (cookie : List Char) (hv : svOK v = true)
    (h : signL v secret legacy salt now = .ok cookie) :
    decodeL cookie = .ok v := by
  unfold signL at h
  by_cases hg : secret.isStringType = true
  · rw [if_pos hg] at h
    injection h with h2
    rw [← h2]
    exact decodeL_signCore v hv secret.toBytes salt legacy now
  · rw [if_neg hg] at h
    exact Except.noConfusion h

theorem cookieFlag_nodot (c : Char) (tl : List Char) (hne : c ≠ '.') :
    cookieFlag (c :: tl) = false := by
  unfold cookieFlag
  exact beq_eq_false_iff_ne.mpr hne

theorem cookieFirstSeg_nodot (c : Char) (tl : List Char) (hnd : ∀ d ∈ c :: tl, d ≠ '.') :
    cookieFirstSeg (c :: tl) = c :: tl := by
  unfold cookieFirstSeg
  rw [cookieFlag_nodot c tl (hnd c (by simp)), if_neg Bool.false_ne_true]
  rw [splitOnDot_nodot _ hnd]
  rfl

theorem cookieFirstSeg_append (c : Char) (tl rest : List Char)
    (hnd : ∀ d ∈ c :: tl, d ≠ '.') :
    cookieFirstSeg ((c :: tl) ++ '.' :: rest) = c :: tl := by
  unfold cookieFirstSeg
  have hflag : cookieFlag ((c :: tl) ++ '.' :: rest) = false := by
    show cookieFlag (c :: (tl ++ '.' :: rest)) = false
    exact cookieFlag_nodot c _ (hnd c (by simp))
  rw [hflag, if_neg Bool.false_ne_true]
  rw [splitOnDot_append _ _ hnd]
  rfl

/-! ### List bookkeeping for the crack engine -/

theorem get?_set_self {α : Type} : ∀ (l : List α) (i : Nat) (x w : α),
    l.get? i = some w → (l.set i x).get? i = some x
  | [], i, _, _, h => by simp at h
  | _ :: l, 0, x, w, _ => rfl
  | a :: l, i + 1, x, w, h => get?_set_self l i x w h

theorem get?_set_other {α : Type} : ∀ (l : List α) (i j : Nat) (x : α), i ≠ j →
    (l.set i x).get? j = l.get? j
  | [], _, _, _, _ => rfl
  | a :: l, 0, 0, x, hne => absurd rfl hne
  | a :: l, 0, j + 1, x, _ => rfl
  | a :: l, i + 1, 0, x, _ => rfl
  | a :: l, i + 1, j + 1, x, hne =>
    get?_set_other l i j x (fun he => hne (by rw [he]))

theorem sum_map_set (f : WPhase → Nat) : ∀ (l : List WPhase) (i : Nat) (x w : WPhase),
    l.get? i = some w → ((l.set i x).map f).sum + f w = (l.map f).sum + f x
  | [], i, _, _, h => by simp at h
  | a :: l, 0, x, w, h => by
    have ha : a = w := by
      have : some a = some w := h
      injection this
    show (f x + (l.map f).sum) + f w = (f a + (l.map f).sum) + f x
    rw [ha]
    ring
  | a :: l, i + 1, x, w, h => by
    show (f a + ((l.set i x).map f).sum) + f w = (f a + (l.map f).sum) + f x
    have := sum_map_set f l i x w h
    omega

theorem mem_of_get? {α : Type} : ∀ (l : List α) (i : Nat) (x : α),
    l.get? i = some x → x ∈ l
  | [], _, _, h => by simp at h
  | a :: l, 0, x, h => by
    have : some a = some x := h
    injection this with h2
    rw [h2]
    simp
  | a :: l, i + 1, x, h => List.mem_cons_of_mem a (mem_of_get? l i x h)

theorem get?_of_mem {α : Type} : ∀ (l : List α) (x : α), x ∈ l →
    ∃ i, l.get? i = some x
  | [], _, h => by simp at h
  | a :: l, x, h => by
    rcases List.mem_cons.mp h with rfl | h2
    · exact ⟨0, rfl⟩
    · obtain ⟨i, hi⟩ := get?_of_mem l x h2
      exact ⟨i + 1, hi⟩

theorem mem_take_sub {α : Type} : ∀ (n : Nat) (l : List α) (x : α),
    x ∈ l.take n → x ∈ l
  | 0, _, _, h => by simp at h
  | n + 1, [], _, h => by simp at h
  | n + 1, a :: l, x, h => by
    rcases List.mem_cons.mp h with rfl | h2
    · simp
    · exact List.mem_cons_of_mem a (mem_take_sub n l x h2)

theorem mem_drop_sub {α : Type} : ∀ (n : Nat) (l : List α) (x : α),
    x ∈ l.drop n → x ∈ l
  | 0, _, _, h => h
  | n + 1, [], _, h => by simp at h
  | n + 1, a :: l, x, h => List.mem_cons_of_mem a (mem_drop_sub n l x h)

theorem get?_replicate_pull : ∀ (n i : Nat) (w : WPhase),
    (List.replicate n WPhase.pull).get? i = some w → w = .pull
  | 0, _, _, h => by simp at h
  | n + 1, 0, w, h => by
    have : some WPhase.pull = some w := h
    injection this with h2
    exact h2.symm
  | n + 1, i + 1, w, h => get?_replicate_pull n i w h

theorem sum_map_replicate_pull (f : WPhase → Nat) (hf : f .pull = 0) :
    ∀ (n : Nat), ((List.replicate n WPhase.pull).map f).sum = 0
  | 0 => rfl
  | n + 1 => by
    show (f .pull + ((List.replicate n WPhase.pull).map f).sum) = 0
    rw [hf, sum_map_replicate_pull f hf n]

theorem sum_map_zero_of_allDone (f : WPhase → Nat) (hf : f .done = 0) :
    ∀ (l : List WPhase), (∀ w ∈ l, w = WPhase.done) → ((l.map f).sum) = 0
  | [], _ => rfl
  | a :: l, h => by
    show f a + ((l.map f).sum) = 0
    rw [h a (by simp), hf,
      sum_map_zero_of_allDone f hf l (fun w hw => h w (by simp [hw]))]

/-! ### Termination and progress of the crack engine -/

theorem cStep_measure (cfg : CrackConfig) (a b : CrackState) (h : CStep cfg a b) :
    cMeasure b < cMeasure a := by
  cases h with
  | stepPull i hi =>
    have hs := sum_map_set wWeight a.workers i
      (.checkB (a.remaining.take cfg.chunk)) .pull hi
    unfold cMeasure
    dsimp only
    rcases hb : a.remaining.take cfg.chunk with _ | ⟨c, t⟩
    · rw [hb] at hs
      have hlen : (a.remaining.drop cfg.chunk).length = a.remaining.length := by
        have h1 : (a.remaining.take cfg.chunk).length = 0 := by rw [hb]; rfl
        rw [List.length_take] at h1
        rw [List.length_drop]
        omega
      rw [hlen]
      have hw1 : wWeight .pull = 2 := rfl
      have hw2 : wWeight (.checkB []) = 1 := rfl
      rw [hw1, hw2] at hs
      omega
    · rw [hb] at hs
      have hw1 : wWeight .pull = 2 := rfl
      have hw2 : wWeight (.checkB (c :: t)) = 3 * (c :: t).length + 4 := rfl
      rw [hw1, hw2] at hs
      have h1 : (a.remaining.take cfg.chunk).length = min cfg.chunk a.remaining.length := by
        rw [List.length_take]
      rw [hb] at h1
      have h2 : (a.remaining.drop cfg.chunk).length
          = a.remaining.length - cfg.chunk := by rw [List.length_drop]
      simp only [List.length_cons] at h1 hs
      omega
  | stepRun i batch hi hc =>
    rcases batch with _ | ⟨c, t⟩
    · exact absurd hc (by simp [whileCond, anyTruthy])
    · have hs := sum_map_set wWeight a.workers i
        (.test (c :: t) (c :: t).length) (.checkB (c :: t)) hi
      have hw1 : wWeight (.checkB (c :: t)) = 3 * (c :: t).length + 4 := rfl
      have hw2 : wWeight (.test (c :: t) (c :: t).length) = 3 * (c :: t).length + 3 := rfl
      rw [hw1, hw2] at hs
      unfold cMeasure
      dsimp only
      omega
  | stepExit i batch hi hc =>
    have hs := sum_map_set wWeight a.workers i .done (.checkB batch) hi
    have hw1 : wWeight .done = 0 := rfl
    have hw2 : 1 ≤ wWeight (.checkB batch) := by
      rcases batch with _ | ⟨c, t⟩
      · exact le_refl 1
      · show 1 ≤ 3 * (c :: t).length + 4
        omega
    rw [hw1] at hs
    unfold cMeasure
    dsimp only
    omega
  | stepTest i c pending size hi =>
    have hs := sum_map_set wWeight a.workers i
      (.test pending size) (.test (c :: pending) size) hi
    have hw1 : wWeight (.test (c :: pending) size) = 3 * (c :: pending).length + 3 := rfl
    have hw2 : wWeight (.test pending size) = 3 * pending.length + 3 := rfl
    rw [hw1, hw2] at hs
    unfold cMeasure
    dsimp only
    simp only [List.length_cons] at hs
    omega
  | stepFlush i size hi =>
    have hs := sum_map_set wWeight a.workers i .pull (.test [] size) hi
    have hw1 : wWeight (.test [] size) = 3 := rfl
    have hw2 : wWeight .pull = 2 := rfl
    rw [hw1, hw2] at hs
    unfold cMeasure
    dsimp only
    omega

theorem cStep_progress (cfg : CrackConfig) (st : CrackState) (h : ¬ AllDone st) :
    ∃ st', CStep cfg st st' := by
  unfold AllDone at h
  push_neg at h
  obtain ⟨w, hw, hne⟩ := h
  obtain ⟨i, hi⟩ := get?_of_mem st.workers w hw
  cases w with
  | pull => exact ⟨_, CStep.stepPull st i hi⟩
  | checkB batch =>
    by_cases hc : whileCond cfg batch st = true
    · exact ⟨_, CStep.stepRun st i batch hi hc⟩
    · exact ⟨_, CStep.stepExit st i batch hi (by simp at hc; exact hc)⟩
  | test pending size =>
    rcases pending with _ | ⟨c, p⟩
    · exact ⟨_, CStep.stepFlush st i size hi⟩
    · exact ⟨_, CStep.stepTest st i c p size hi⟩
  | done => exact absurd rfl hne

/-! ### The run invariant of the concrete crack scenario -/

theorem crackStream_mem_ne_nil : ∀ c ∈ crackStream, c ≠ [] := by decide

theorem KEY_mem_crackStream : KEY ∈ crackStream := by decide

theorem secretTruthy_KEY : secretTruthy (some KEY) = true := rfl

theorem sum_map_le_of_get? (f : WPhase → Nat) : ∀ (l : List WPhase) (i : Nat) (w : WPhase),
    l.get? i = some w → f w ≤ (l.map f).sum
  | [], _, _, h => by simp at h
  | a :: l, 0, w, h => by
    have h2 : some a = some w := h
    injection h2 with h3
    show f w ≤ f a + (l.map f).sum
    rw [h3]
    omega
  | a :: l, i + 1, w, h => by
    show f w ≤ f a + (l.map f).sum
    have := sum_map_le_of_get? f l i w h
    omega

theorem crackInv_init (cfg : CrackConfig) (threads : Nat) (ht : 1 ≤ threads) :
    CrackInv cfg (crackInit crackStream threads) := by
  refine ⟨⟨0, rfl⟩, ?_, ?_, Or.inl rfl, ?_, ?_, ?_⟩
  · intro i batch h
    exact absurd (get?_replicate_pull threads i _ h) (by intro h2; exact WPhase.noConfusion h2)
  · intro i p s h
    exact absurd (get?_replicate_pull threads i _ h) (by intro h2; exact WPhase.noConfusion h2)
  · refine Or.inr (Or.inl ⟨KEY_mem_crackStream, 0, .pull, ?_, ?_⟩)
    · show (List.replicate threads WPhase.pull).get? 0 = some .pull
      rcases threads with _ | t
      · omega
      · rfl
    · intro h
      exact WPhase.noConfusion h
  · show 0 + ((List.replicate threads WPhase.pull).map phaseSize).sum
      + crackStream.length ≤ crackStream.length
    rw [sum_map_replicate_pull phaseSize rfl threads]
    omega
  · intro h
    exact absurd h (by simp [crackInit, secretTruthy])

theorem crackInv_step (cfg : CrackConfig) (hchunk : 1 ≤ cfg.chunk)
    (hver : ∀ c ∈ crackStream, cfg.verifyc c = true → c = KEY)
    (hkey : cfg.verifyc KEY = true)
    (a b : CrackState) (hstep : CStep cfg a b) (hinv : CrackInv cfg a) :
    CrackInv cfg b := by
  obtain ⟨I1, I2, I3, I4, I5, I6, I7⟩ := hinv
  cases hstep with
  | stepPull i hi =>
    refine ⟨?_, ?_, ?_, I4, ?_, ?_, ?_⟩
    · obtain ⟨k, hk⟩ := I1
      refine ⟨cfg.chunk + k, ?_⟩
      show List.drop cfg.chunk a.remaining = _
      rw [hk, List.drop_drop, Nat.add_comm]
    · intro j batch2 hj
      by_cases hij : i = j
      · subst hij
        rw [get?_set_self _ _ _ _ hi] at hj
        injection hj with hj2
        injection hj2 with hj3
        constructor
        · intro c hc
          obtain ⟨k, hk⟩ := I1
          have hc2 : c ∈ a.remaining := mem_take_sub _ _ _ (by rw [hj3]; exact hc)
          rw [hk] at hc2
          exact mem_drop_sub _ _ _ hc2
        · intro hlen
          have h1 : (a.remaining.take cfg.chunk).length
              = min cfg.chunk a.remaining.length := List.length_take ..
          rw [← hj3] at hlen
          show List.drop cfg.chunk a.remaining = []
          apply List.drop_eq_nil_of_le
          rw [h1] at hlen
          omega
      · rw [get?_set_other _ _ _ _ hij] at hj
        obtain ⟨hm, hs⟩ := I2 j batch2 hj
        refine ⟨hm, fun hlen => ?_⟩
        show List.drop cfg.chunk a.remaining = []
        rw [hs hlen]
        exact List.drop_nil
    · intro j p s hj
      by_cases hij : i = j
      · subst hij
        rw [get?_set_self _ _ _ _ hi] at hj
        injection hj with hj2
        exact WPhase.noConfusion hj2
      · rw [get?_set_other _ _ _ _ hij] at hj
        exact I3 j p s hj
    · rcases I5 with h | ⟨hKrem, iw, w, hw, hwne⟩ | ⟨iw, b2, hw, hKb⟩ | ⟨iw, p2, s2, hw, hKp⟩
      · exact Or.inl h
      · rw [← List.take_append_drop cfg.chunk a.remaining] at hKrem
        rcases List.mem_append.mp hKrem with hK | hK
        · exact Or.inr (Or.inr (Or.inl ⟨i, _, get?_set_self _ _ _ _ hi, hK⟩))
        · refine Or.inr (Or.inl ⟨hK, i, _, get?_set_self _ _ _ _ hi, ?_⟩)
          intro h2
          exact WPhase.noConfusion h2
      · have hiw : ¬ i = iw := by
          intro he
          subst he
          rw [hi] at hw
          injection hw with hw2
          exact WPhase.noConfusion hw2
        exact Or.inr (Or.inr (Or.inl ⟨iw, b2, by rw [get?_set_other _ _ _ _ hiw]; exact hw, hKb⟩))
      · have hiw : ¬ i = iw := by
          intro he
          subst he
          rw [hi] at hw
          injection hw with hw2
          exact WPhase.noConfusion hw2
        exact Or.inr (Or.inr (Or.inr ⟨iw, p2, s2,
          by rw [get?_set_other _ _ _ _ hiw]; exact hw, hKp⟩))
    · have hs := sum_map_set phaseSize a.workers i
        (.checkB (a.remaining.take cfg.chunk)) .pull hi
      have h1 : phaseSize .pull = 0 := rfl
      have h2 : phaseSize (.checkB (a.remaining.take cfg.chunk))
          = (a.remaining.take cfg.chunk).length := rfl
      have h3 : (a.remaining.take cfg.chunk).length
          = min cfg.chunk a.remaining.length := List.length_take ..
      have h4 : (a.remaining.drop cfg.chunk).length
          = a.remaining.length - cfg.chunk := List.length_drop ..
      rw [h1, h2, h3] at hs
      show a.attempts + ((a.workers.set i
        (WPhase.checkB (a.remaining.take cfg.chunk))).map phaseSize).sum
        + (a.remaining.drop cfg.chunk).length ≤ crackStream.length
      rw [h4]
      omega
    · intro htr
      have hs := sum_map_set testSize a.workers i
        (.checkB (a.remaining.take cfg.chunk)) .pull hi
      have h1 : testSize .pull = 0 := rfl
      have h2 : testSize (.checkB (a.remaining.take cfg.chunk)) = 0 := rfl
      rw [h1, h2] at hs
      have := I7 htr
      show 1 ≤ a.attempts + ((a.workers.set i
        (WPhase.checkB (a.remaining.take cfg.chunk))).map testSize).sum
      omega
  | stepRun i batch hi hc =>
    have hbatch : batch ≠ [] := by
      intro he
      subst he
      exact absurd hc (by simp [whileCond, anyTruthy])
    refine ⟨I1, ?_, ?_, I4, ?_, ?_, ?_⟩
    · intro j batch2 hj
      by_cases hij : i = j
      · subst hij
        rw [get?_set_self _ _ _ _ hi] at hj
        injection hj with hj2
        exact WPhase.noConfusion hj2
      · rw [get?_set_other _ _ _ _ hij] at hj
        exact I2 j batch2 hj
    · intro j p s hj
      by_cases hij : i = j
      · subst hij
        rw [get?_set_self _ _ _ _ hi] at hj
        injection hj with hj2
        injection hj2 with hp hsz
        subst hp
        subst hsz
        refine ⟨(I2 i batch hi).1, le_refl _, ?_⟩
        rcases batch with _ | ⟨c, t⟩
        · exact absurd rfl hbatch
        · show 1 ≤ (c :: t).length
          simp
      · rw [get?_set_other _ _ _ _ hij] at hj
        exact I3 j p s hj
    · rcases I5 with h | ⟨hKrem, iw, w, hw, hwne⟩ | ⟨iw, b2, hw, hKb⟩ | ⟨iw, p2, s2, hw, hKp⟩
      · exact Or.inl h
      · by_cases hiw : i = iw
        · subst hiw
          refine Or.inr (Or.inl ⟨hKrem, i, _, get?_set_self _ _ _ _ hi, ?_⟩)
          intro h2
          exact WPhase.noConfusion h2
        · exact Or.inr (Or.inl ⟨hKrem, iw, w,
            by rw [get?_set_other _ _ _ _ hiw]; exact hw, hwne⟩)
      · by_cases hiw : i = iw
        · subst hiw
          rw [hi] at hw
          injection hw with hw2
          injection hw2 with hw3
          subst hw3
          exact Or.inr (Or.inr (Or.inr ⟨i, batch, batch.length,
            get?_set_self _ _ _ _ hi, hKb⟩))
        · exact Or.inr (Or.inr (Or.inl ⟨iw, b2,
            by rw [get?_set_other _ _ _ _ hiw]; exact hw, hKb⟩))
      · by_cases hiw : i = iw
        · subst hiw
          rw [hi] at hw
          injection hw with hw2
          exact WPhase.noConfusion hw2
        · exact Or.inr (Or.inr (Or.inr ⟨iw, p2, s2,
            by rw [get?_set_other _ _ _ _ hiw]; exact hw, hKp⟩))
    · have hs := sum_map_set phaseSize a.workers i
        (.test batch batch.length) (.checkB batch) hi
      have h1 : phaseSize (.checkB batch) = batch.length := rfl
      have h2 : phaseSize (.test batch batch.length) = batch.length := rfl
      rw [h1, h2] at hs
      show a.attempts + ((a.workers.set i
        (WPhase.test batch batch.length)).map phaseSize).sum
        + a.remaining.length ≤ crackStream.length
      omega
    · intro htr
      have hs := sum_map_set testSize a.workers i
        (.test batch batch.length) (.checkB batch) hi
      have h1 : testSize (.checkB batch) = 0 := rfl
      have h2 : testSize (.test batch batch.length) = batch.length := rfl
      rw [h1, h2] at hs
      have := I7 htr
      show 1 ≤ a.attempts + ((a.workers.set i
        (WPhase.test batch batch.length)).map testSize).sum
      omega
  | stepExit i batch hi hc =>
    have hcases : anyTruthy batch = false ∨ secretTruthy a.secret = true := by
      unfold whileCond at hc
      rcases Bool.and_eq_false_iff.mp hc with h | h
      · exact Or.inl h
      · right
        rcases hb : secretTruthy a.secret with _ | _
        · rw [hb] at h
          simp at h
        · rfl
    have hBatchNil : anyTruthy batch = false → batch = [] := by
      intro hf
      rcases hb : batch with _ | ⟨c, t⟩
      · rfl
      · subst hb
        have hcm : c ∈ crackStream := (I2 i (c :: t) hi).1 c (by simp)
        have hcne := crackStream_mem_ne_nil c hcm
        unfold anyTruthy at hf
        rw [List.any_cons] at hf
        rcases Bool.or_eq_false_iff.mp hf with ⟨h1, _⟩
        rw [Bool.not_eq_false'] at h1
        exact absurd (List.isEmpty_iff.mp h1) hcne
    refine ⟨I1, ?_, ?_, I4, ?_, ?_, ?_⟩
    · intro j batch2 hj
      by_cases hij : i = j
      · subst hij
        rw [get?_set_self _ _ _ _ hi] at hj
        injection hj with hj2
        exact WPhase.noConfusion hj2
      · rw [get?_set_other _ _ _ _ hij] at hj
        exact I2 j batch2 hj
    · intro j p s hj
      by_cases hij : i = j
      · subst hij
        rw [get?_set_self _ _ _ _ hi] at hj
        injection hj with hj2
        exact WPhase.noConfusion hj2
      · rw [get?_set_other _ _ _ _ hij] at hj
        exact I3 j p s hj
    · rcases I5 with h | ⟨hKrem, iw, w, hw, hwne⟩ | ⟨iw, b2, hw, hKb⟩ | ⟨iw, p2, s2, hw, hKp⟩
      · exact Or.inl h
      · by_cases hiw : i = iw
        · subst hiw
          rcases hcases with hfalse | htr
          · have hnil := hBatchNil hfalse
            subst hnil
            have hrem := (I2 i [] hi).2 (by simp only [List.length_nil]; omega)
            rw [hrem] at hKrem
            simp at hKrem
          · exact Or.inl htr
        · exact Or.inr (Or.inl ⟨hKrem, iw, w,
            by rw [get?_set_other _ _ _ _ hiw]; exact hw, hwne⟩)
      · by_cases hiw : i = iw
        · subst hiw
          rw [hi] at hw
          injection hw with hw2
          injection hw2 with hw3
          subst hw3
          rcases hcases with hfalse | htr
          · have hnil := hBatchNil hfalse
            subst hnil
            simp at hKb
          · exact Or.inl htr
        · exact Or.inr (Or.inr (Or.inl ⟨iw, b2,
            by rw [get?_set_other _ _ _ _ hiw]; exact hw, hKb⟩))
      · by_cases hiw : i = iw
        · subst hiw
          rw [hi] at hw
          injection hw with hw2
          exact WPhase.noConfusion hw2
        · exact Or.inr (Or.inr (Or.inr ⟨iw, p2, s2,
            by rw [get?_set_other _ _ _ _ hiw]; exact hw, hKp⟩))
    · have hs := sum_map_set phaseSize a.workers i .done (.checkB batch) hi
      have h1 : phaseSize .done = 0 := rfl
      have h2 : phaseSize (.checkB batch) = batch.length := rfl
      rw [h1, h2] at hs
      show a.attempts + ((a.workers.set i WPhase.done).map phaseSize).sum
        + a.remaining.length ≤ crackStream.length
      omega
    · intro htr
      have hs := sum_map_set testSize a.workers i .done (.checkB batch) hi
      have h1 : testSize .done = 0 := rfl
      have h2 : testSize (.checkB batch) = 0 := rfl
      rw [h1, h2] at hs
      have := I7 htr
      show 1 ≤ a.attempts + ((a.workers.set i WPhase.done).map testSize).sum
      omega
  | stepTest i c pending size hi =>
    obtain ⟨hmem, hlen, hsz⟩ := I3 i (c :: pending) size hi
    have hcm : c ∈ crackStream := hmem c (by simp)
    refine ⟨I1, ?_, ?_, ?_, ?_, ?_, ?_⟩
    · intro j batch2 hj
      by_cases hij : i = j
      · subst hij
        rw [get?_set_self _ _ _ _ hi] at hj
        injection hj with hj2
        exact WPhase.noConfusion hj2
      · rw [get?_set_other _ _ _ _ hij] at hj
        exact I2 j batch2 hj
    · intro j p s hj
      by_cases hij : i = j
      · subst hij
        rw [get?_set_self _ _ _ _ hi] at hj
        injection hj with hj2
        injection hj2 with hp hsz2
        subst hp
        subst hsz2
        exact ⟨fun d hd => hmem d (by simp [hd]), by simp at hlen; omega, hsz⟩
      · rw [get?_set_other _ _ _ _ hij] at hj
        exact I3 j p s hj
    · by_cases hvc : cfg.verifyc c = true
      · right
        show (if cfg.verifyc c then some c else a.secret) = some KEY
        rw [if_pos hvc, hver c hcm hvc]
      · show (if cfg.verifyc c then some c else a.secret) = none
          ∨ (if cfg.verifyc c then some c else a.secret) = some KEY
        rw [if_neg hvc]
        exact I4
    · by_cases hvc : cfg.verifyc c = true
      · left
        show secretTruthy (if cfg.verifyc c then some c else a.secret) = true
        rw [if_pos hvc, hver c hcm hvc]
        exact secretTruthy_KEY
      · have hsec : (if cfg.verifyc c then some c else a.secret) = a.secret :=
          if_neg hvc
        rcases I5 with h | ⟨hKrem, iw, w, hw, hwne⟩ | ⟨iw, b2, hw, hKb⟩
          | ⟨iw, p2, s2, hw, hKp⟩
        · left
          show secretTruthy (if cfg.verifyc c then some c else a.secret) = true
          rw [hsec]
          exact h
        · by_cases hiw : i = iw
          · subst hiw
            refine Or.inr (Or.inl ⟨hKrem, i, _, get?_set_self _ _ _ _ hi, ?_⟩)
            intro h2
            exact WPhase.noConfusion h2
          · exact Or.inr (Or.inl ⟨hKrem, iw, w,
              by rw [get?_set_other _ _ _ _ hiw]; exact hw, hwne⟩)
        · by_cases hiw : i = iw
          · subst hiw
            rw [hi] at hw
            injection hw with hw2
            exact WPhase.noConfusion hw2
          · exact Or.inr (Or.inr (Or.inl ⟨iw, b2,
              by rw [get?_set_other _ _ _ _ hiw]; exact hw, hKb⟩))
        · by_cases hiw : i = iw
          · subst hiw
            rw [hi] at hw
            injection hw with hw2
            injection hw2 with hp hsz2
            subst hsz2
            have hKpend : KEY ∈ pending := by
              rw [← hp] at hKp
              rcases List.mem_cons.mp hKp with he | hin
              · rw [← he] at hvc
                exact absurd hkey hvc
              · exact hin
            exact Or.inr (Or.inr (Or.inr ⟨i, pending, size,
              get?_set_self _ _ _ _ hi, hKpend⟩))
          · exact Or.inr (Or.inr (Or.inr ⟨iw, p2, s2,
              by rw [get?_set_other _ _ _ _ hiw]; exact hw, hKp⟩))
    · have hs := sum_map_set phaseSize a.workers i
        (.test pending size) (.test (c :: pending) size) hi
      have h1 : phaseSize (.test (c :: pending) size) = size := rfl
      have h2 : phaseSize (.test pending size) = size := rfl
      rw [h1, h2] at hs
      show a.attempts + ((a.workers.set i
        (WPhase.test pending size)).map phaseSize).sum
        + a.remaining.length ≤ crackStream.length
      omega
    · intro htr
      have hs := sum_map_set testSize a.workers i
        (.test pending size) (.test (c :: pending) size) hi
      have h1 : testSize (.test (c :: pending) size) = size := rfl
      have h2 : testSize (.test pending size) = size := rfl
      rw [h1, h2] at hs
      have hge := sum_map_le_of_get? testSize _ _ _
        (get?_set_self a.workers i (.test pending size) _ hi)
      have h3 : testSize (.test pending size) = size := rfl
      rw [h3] at hge
      show 1 ≤ a.attempts + ((a.workers.set i
        (WPhase.test pending size)).map testSize).sum
      omega
  | stepFlush i size hi =>
    refine ⟨I1, ?_, ?_, I4, ?_, ?_, ?_⟩
    · intro j batch2 hj
      by_cases hij : i = j
      · subst hij
        rw [get?_set_self _ _ _ _ hi] at hj
        injection hj with hj2
        exact WPhase.noConfusion hj2
      · rw [get?_set_other _ _ _ _ hij] at hj
        exact I2 j batch2 hj
    · intro j p s hj
      by_cases hij : i = j
      · subst hij
        rw [get?_set_self _ _ _ _ hi] at hj
        injection hj with hj2
        exact WPhase.noConfusion hj2
      · rw [get?_set_other _ _ _ _ hij] at hj
        exact I3 j p s hj
    · rcases I5 with h | ⟨hKrem, iw, w, hw, hwne⟩ | ⟨iw, b2, hw, hKb⟩ | ⟨iw, p2, s2, hw, hKp⟩
      · exact Or.inl h
      · by_cases hiw : i = iw
        · subst hiw
          refine Or.inr (Or.inl ⟨hKrem, i, _, get?_set_self _ _ _ _ hi, ?_⟩)
          intro h2
          exact WPhase.noConfusion h2
        · exact Or.inr (Or.inl ⟨hKrem, iw, w,
            by rw [get?_set_other _ _ _ _ hiw]; exact hw, hwne⟩)
      · by_cases hiw : i = iw
        · subst hiw
          rw [hi] at hw
          injection hw with hw2
          exact WPhase.noConfusion hw2
        · exact Or.inr (Or.inr (Or.inl ⟨iw, b2,
            by rw [get?_set_other _ _ _ _ hiw]; exact hw, hKb⟩))
      · by_cases hiw : i = iw
        · subst hiw
          rw [hi] at hw
          injection hw with hw2
          injection hw2 with hp hsz
          rw [← hp] at hKp
          simp at hKp
        · exact Or.inr (Or.inr (Or.inr ⟨iw, p2, s2,
            by rw [get?_set_other _ _ _ _ hiw]; exact hw, hKp⟩))
    · have hs := sum_map_set phaseSize a.workers i .pull (.test [] size) hi
      have h1 : phaseSize .pull = 0 := rfl
      have h2 : phaseSize (.test [] size) = size := rfl
      rw [h1, h2] at hs
      show a.attempts + size + ((a.workers.set i WPhase.pull).map phaseSize).sum
        + a.remaining.length ≤ crackStream.length
      omega
    · intro htr
      have hs := sum_map_set testSize a.workers i .pull (.test [] size) hi
      have h1 : testSize .pull = 0 := rfl
      have h2 : testSize (.test [] size) = size := rfl
      rw [h1, h2] at hs
      have := I7 htr
      show 1 ≤ a.attempts + size + ((a.workers.set i WPhase.pull).map testSize).sum
      omega

theorem crackInv_reach (cfg : CrackConfig) (hchunk : 1 ≤ cfg.chunk)
    (hver : ∀ c ∈ crackStream, cfg.verifyc c = true → c = KEY)
    (hkey : cfg.verifyc KEY = true) :
    ∀ (a b : CrackState), CReaches cfg a b → CrackInv cfg a → CrackInv cfg b := by
  intro a b hr
  induction hr with
  | refl st => exact id
  | step x y z hxy hyz ih =>
    intro hx
    exact ih (crackInv_step cfg hchunk hver hkey x y hxy hx)

theorem crackInv_final (cfg : CrackConfig) (st : CrackState)
    (hinv : CrackInv cfg st) (hdone : AllDone st) :
    st.secret = some KEY ∧ 1 ≤ st.attempts
      ∧ st.attempts + st.remaining.length ≤ crackStream.length := by
  obtain ⟨I1, I2, I3, I4, I5, I6, I7⟩ := hinv
  have hsec : st.secret = some KEY := by
    rcases I5 with h | ⟨hKrem, iw, w, hw, hwne⟩ | ⟨iw, b2, hw, hKb⟩ | ⟨iw, p2, s2, hw, hKp⟩
    · rcases I4 with h4 | h4
      · rw [h4] at h
        exact absurd h (by simp [secretTruthy])
      · exact h4
    · exact absurd (hdone w (mem_of_get? _ _ _ hw)) hwne
    · have := hdone _ (mem_of_get? _ _ _ hw)
      exact WPhase.noConfusion this
    · have := hdone _ (mem_of_get? _ _ _ hw)
      exact WPhase.noConfusion this
  refine ⟨hsec, ?_, ?_⟩
  · have h0 := sum_map_zero_of_allDone testSize rfl st.workers hdone
    have := I7 (by rw [hsec]; exact secretTruthy_KEY)
    omega
  · have h0 := sum_map_zero_of_allDone phaseSize rfl st.workers hdone
    omega

/-! ### Partition and exit behaviour over arbitrary streams -/

theorem remaining_suffix (cfg : CrackConfig) : ∀ (a b : CrackState), CReaches cfg a b →
    ∃ k, b.remaining = a.remaining.drop k := by
  intro a b hr
  induction hr with
  | refl st => exact ⟨0, rfl⟩
  | step x y z hxy hyz ih =>
    obtain ⟨k, hk⟩ := ih
    cases hxy with
    | stepPull i hi =>
      refine ⟨k + cfg.chunk, ?_⟩
      rw [hk]
      show List.drop k (List.drop cfg.chunk x.remaining) = _
      rw [List.drop_drop, Nat.add_comm]
    | stepRun i batch hi hc => exact ⟨k, hk⟩
    | stepExit i batch hi hc => exact ⟨k, hk⟩
    | stepTest i c pending size hi => exact ⟨k, hk⟩
    | stepFlush i size hi => exact ⟨k, hk⟩

theorem exit_only_falsy (cfg : CrackConfig) (st st' : CrackState) (i : Nat)
    (batch : List (List Char)) (hstep : CStep cfg st st')
    (hb : st.workers.get? i = some (.checkB batch))
    (hd : st'.workers.get? i = some .done) :
    anyTruthy batch = false ∨ secretTruthy st.secret = true := by
  cases hstep with
  | stepPull j hj =>
    by_cases hij : j = i
    · subst hij
      rw [hb] at hj
      injection hj with h2
      exact WPhase.noConfusion h2
    · rw [get?_set_other _ _ _ _ hij] at hd
      rw [hb] at hd
      injection hd with h2
      exact WPhase.noConfusion h2
  | stepRun j batch2 hj hc =>
    by_cases hij : j = i
    · subst hij
      rw [get?_set_self _ _ _ _ hj] at hd
      injection hd with h2
      exact WPhase.noConfusion h2
    · rw [get?_set_other _ _ _ _ hij] at hd
      rw [hb] at hd
      injection hd with h2
      exact WPhase.noConfusion h2
  | stepExit j batch2 hj hc =>
    by_cases hij : j = i
    · subst hij
      rw [hb] at hj
      injection hj with h2
      injection h2 with h3
      subst h3
      unfold whileCond at hc
      rcases Bool.and_eq_false_iff.mp hc with h | h
      · exact Or.inl h
      · right
        rcases hsec : secretTruthy st.secret with _ | _
        · rw [hsec] at h
          simp at h
        · rfl
    · rw [get?_set_other _ _ _ _ hij] at hd
      rw [hb] at hd
      injection hd with h2
      exact WPhase.noConfusion h2
  | stepTest j c pending size hj =>
    by_cases hij : j = i
    · subst hij
      rw [hb] at hj
      injection hj with h2
      exact WPhase.noConfusion h2
    · rw [get?_set_other _ _ _ _ hij] at hd
      rw [hb] at hd
      injection hd with h2
      exact WPhase.noConfusion h2
  | stepFlush j size hj =>
    by_cases hij : j = i
    · subst hij
      rw [hb] at hj
      injection hj with h2
      exact WPhase.noConfusion h2
    · rw [get?_set_other _ _ _ _ hij] at hd
      rw [hb] at hd
      injection hd with h2
      exact WPhase.noConfusion h2

/-! ### Concrete verifier facts

Rejecting the wrong candidates is a concrete HMAC computation on the fixed
target cookie, settled by kernel evaluation. -/

set_option maxHeartbeats 4000000 in
theorem verifyc_foo : check targetCookie (utf8Encode ['f', 'o', 'o']) DEFAULT_SALT
    = false := by decide

set_option maxHeartbeats 4000000 in
theorem verifyc_bar : check targetCookie (utf8Encode ['b', 'a', 'r']) DEFAULT_SALT
    = false := by decide

set_option maxHeartbeats 4000000 in
theorem verifyc_baz : check targetCookie (utf8Encode ['b', 'a', 'z']) DEFAULT_SALT
    = false := by decide

theorem crackCfg_key (chunk : Nat) : (crackCfg chunk).verifyc KEY = true :=
  check_signCore (.obj (.cons ['a'] (.num 1) .nil)) (utf8Encode KEY) DEFAULT_SALT
    false 1700000000

theorem crackCfg_ver (chunk : Nat) :
    ∀ c ∈ crackStream, (crackCfg chunk).verifyc c = true → c = KEY := by
  intro c hc
  have hc2 : c = ['f', 'o', 'o'] ∨ c = ['b', 'a', 'r'] ∨ c = ['b', 'a', 'z']
      ∨ c = KEY := by
    simpa [crackStream] using hc
  rcases hc2 with rfl | rfl | rfl | rfl
  · intro h
    exact absurd (verifyc_foo.symm.trans h) (by intro h2; exact Bool.noConfusion h2)
  · intro h
    exact absurd (verifyc_bar.symm.trans h) (by intro h2; exact Bool.noConfusion h2)
  · intro h
    exact absurd (verifyc_baz.symm.trans h) (by intro h2; exact Bool.noConfusion h2)
  · intro _
    rfl

/-! ## The claims -/

/-- C2 counterexample: the mapping with the single entry " m" ↦ "a" is a
plain dictionary value, but its wire form collides with the markup tag, so
decode returns Markup("a") instead of the original mapping: the round trip
fails on this supported shape. -/
theorem C2_counterexample :
    ∃ cookie, signL (.obj (.cons [' ', 'm'] (.str ['a']) .nil)) (.str KEY) false
        DEFAULT_SALT 1700000000 = .ok cookie
      ∧ decodeL cookie ≠ .ok (.obj (.cons [' ', 'm'] (.str ['a']) .nil)) := by
  refine ⟨signCore (.obj (.cons [' ', 'm'] (.str ['a']) .nil)) (utf8Encode KEY)
    DEFAULT_SALT false 1700000000, rfl, ?_⟩
  have hdec : decodeL (signCore (.obj (.cons [' ', 'm'] (.str ['a']) .nil))
      (utf8Encode KEY) DEFAULT_SALT false 1700000000) = .ok (.markup ['a']) := rfl
  rw [hdec]
  intro h
  injection h with h2
  exact SessionValue.noConfusion h2

/-- C2 (amended): the sign-then-decode round trip returns the original
value for every well-formed session value — mappings with pairwise distinct
keys that never collide with the reserved single-entry tag shape, 128-bit
unique-ids, byte-valued blobs and in-range dates — for every string-type
secret, salt, signing moment and both legacy modes. -/
theorem C2_round_trip (v : SessionValue) (secret : Secret) (legacy : Bool)
    (salt : List Char) (now : Nat) (cookie : List Char) (hv : svOK v = true)
    (h : signL v secret legacy salt now = .ok cookie) :
    decodeL cookie = .ok v :=
  decode_sign_core v secret legacy salt now cookie hv h

/-- C2 witness: a nested value exercising tuples, unique-ids, blobs, markup,
dates and sequences round trips through an actual signed cookie. -/
theorem C2_round_trip_witness :
    svOK (SessionValue.obj (.cons ['k'] (.tup (.cons (.uuid 123456789)
        (.cons (.bytes [0, 255, 7]) (.cons (.markup ['h', 'i'])
        (.cons (.date ⟨1994, 11, 6, 8, 49, 37⟩)
        (.cons (.seq (.cons (.num (-5)) .nil)) .nil)))))) .nil)) = true
    ∧ decodeL (signCore (SessionValue.obj (.cons ['k'] (.tup (.cons (.uuid 123456789)
        (.cons (.bytes [0, 255, 7]) (.cons (.markup ['h', 'i'])
        (.cons (.date ⟨1994, 11, 6, 8, 49, 37⟩)
        (.cons (.seq (.cons (.num (-5)) .nil)) .nil)))))) .nil))
        (utf8Encode KEY) DEFAULT_SALT true 123)
      = .ok (SessionValue.obj (.cons ['k'] (.tup (.cons (.uuid 123456789)
        (.cons (.bytes [0, 255, 7]) (.cons (.markup ['h', 'i'])
        (.cons (.date ⟨1994, 11, 6, 8, 49, 37⟩)
        (.cons (.seq (.cons (.num (-5)) .nil)) .nil)))))) .nil)) :=
  ⟨by decide, C2_round_trip _ (.str KEY) true DEFAULT_SALT 123 _ (by decide) rfl⟩

/-- C3: on the list foo, bar, baz, CHANGEME with a cookie signed under
CHANGEME, for every worker count and chunk size at least one and every
schedule: each step strictly decreases a natural measure (the run
terminates), a run can only get stuck with every worker returned, and every
finished run holds exactly the found secret CHANGEME with an attempts
counter between 1 and four times the worker count. -/
theorem C3_crack_correct (threads chunk : Nat) (ht : 1 ≤ threads) (hc : 1 ≤ chunk)
    (st : CrackState)
    (hr : CReaches (crackCfg chunk) (crackInit crackStream threads) st) :
    (∀ st2, CStep (crackCfg chunk) st st2 → cMeasure st2 < cMeasure st)
    ∧ (¬ AllDone st → ∃ st2, CStep (crackCfg chunk) st st2)
    ∧ (AllDone st → st.secret = some KEY ∧ 1 ≤ st.attempts
        ∧ st.attempts ≤ 4 * threads) := by
  have hinv := crackInv_reach (crackCfg chunk) hc (crackCfg_ver chunk)
    (crackCfg_key chunk) _ _ hr (crackInv_init _ threads ht)
  refine ⟨fun st2 h => cStep_measure _ _ _ h, fun h => cStep_progress _ _ h, fun hd => ?_⟩
  obtain ⟨h1, h2, h3⟩ := crackInv_final _ _ hinv hd
  refine ⟨h1, h2, ?_⟩
  have h4 : crackStream.length = 4 := rfl
  omega

/-- C3 witness: the guarantees instantiated for one worker and chunk one at
the start of the run. -/
theorem C3_crack_correct_witness :
    (∀ st2, CStep (crackCfg 1) (crackInit crackStream 1) st2 →
      cMeasure st2 < cMeasure (crackInit crackStream 1))
    ∧ (¬ AllDone (crackInit crackStream 1) →
        ∃ st2, CStep (crackCfg 1) (crackInit crackStream 1) st2)
    ∧ (AllDone (crackInit crackStream 1) →
        (crackInit crackStream 1).secret = some KEY
        ∧ 1 ≤ (crackInit crackStream 1).attempts
        ∧ (crackInit crackStream 1).attempts ≤ 4 * 1) :=
  C3_crack_correct 1 1 (by decide) (by decide) _ (CReaches.refl _)

/-- C4: every cookie sign returns is framed uncompressed — it starts with a
url-safe base64 character of the payload, never with the compressed-flag
leading dot. -/
theorem C4_sign_uncompressed (v : SessionValue) (secret : Secret) (legacy : Bool)
    (salt : List Char) (now : Nat) (cookie : List Char)
    (h : signL v secret legacy salt now = .ok cookie) :
    ∃ c tl, cookie = c :: tl ∧ c ≠ '.' :=
  sign_uncompressed_core v secret legacy salt now cookie h

/-- C4 witness: a concretely signed cookie starts with a non-dot char. -/
theorem C4_sign_uncompressed_witness :
    ∃ c tl, signCore (.num 1) (Secret.str KEY).toBytes DEFAULT_SALT false 0 = c :: tl
      ∧ c ≠ '.' :=
  C4_sign_uncompressed (.num 1) (.str KEY) false DEFAULT_SALT 0 _ rfl

/-- C5 counterexample: the legacy offset is not the number of seconds from
year one to 1970 — at time zero the legacy timestamp is -1970, not
-62135596800. -/
theorem C5_counterexample :
    ¬ ∀ now : Int, legacyGetTimestamp now = modernGetTimestamp now - 62135596800 := by
  intro h
  have h0 := h 0
  revert h0
  decide

/-- C5 (amended): at every moment the legacy timestamp is the modern
timestamp minus the fixed constant EPOCH the code imports from the calendar
module — which is the Gregorian epoch year 1970 itself, not a count of
seconds. -/
theorem C5_epoch_is_year (now : Int) :
    legacyGetTimestamp now = modernGetTimestamp now - EPOCH ∧ EPOCH = 1970 :=
  ⟨rfl, rfl⟩

/-- C6: for a string-type secret, verify always returns the boolean outcome
of the signature check — mismatches and framing failures are a false result,
never an exception — while a non-string secret raises the upfront
type-validation error. -/
theorem C6_verify_total (cookie : List Char) (secret : Secret) (legacy : Bool)
    (salt : List Char) :
    (secret.isStringType = true →
      verifyL cookie secret legacy salt = .ok (check cookie secret.toBytes salt))
    ∧ (secret.isStringType = false →
      verifyL cookie secret legacy salt = .error .flaskUnsignException) := by
  constructor
  · intro h
    unfold verifyL
    rw [if_pos h]
  · intro h
    unfold verifyL
    rw [if_neg (by rw [h]; exact Bool.false_ne_true)]

/-- C6 witness: a garbage cookie verifies to a boolean under a string
secret and raises the guard error under an integer secret. -/
theorem C6_verify_total_witness :
    verifyL ['x'] (.str KEY) false DEFAULT_SALT
      = .ok (check ['x'] (Secret.str KEY).toBytes DEFAULT_SALT)
    ∧ verifyL ['x'] (.other ['i', 'n', 't']) false DEFAULT_SALT
      = .error .flaskUnsignException :=
  ⟨(C6_verify_total ['x'] (.str KEY) false DEFAULT_SALT).1 rfl,
   (C6_verify_total ['x'] (.other ['i', 'n', 't']) false DEFAULT_SALT).2 rfl⟩

/-- C7 counterexample: an input with a single dot-segment — not three —
decodes successfully to the session mapping a ↦ 1 instead of failing. -/
theorem C7_counterexample :
    decodeL ['e', 'y', 'J', 'h', 'I', 'j', 'o', 'g', 'M', 'X', '0']
      = .ok (.obj (.cons ['a'] (.num 1) .nil))
    ∧ splitOnDot ['e', 'y', 'J', 'h', 'I', 'j', 'o', 'g', 'M', 'X', '0']
      = [['e', 'y', 'J', 'h', 'I', 'j', 'o', 'g', 'M', 'X', '0']] :=
  ⟨rfl, rfl⟩

/-- C7 (amended): unframing keeps only the text before the first dot of the
remainder, whatever the segment count; appended segments never change the
result, and a base64 or UTF-8 failure on that first segment is a decode
error. -/
theorem C7_first_segment (p rest : List Char) (hne : p ≠ [])
    (hnd : ∀ c ∈ p, c ≠ '.') :
    decodeL (p ++ '.' :: rest) = decodeL p
    ∧ (itsB64Decode p = none → decodeL p = .error .decodeError)
    ∧ (∀ bs, itsB64Decode p = some bs → utf8Decode bs = none →
        decodeL p = .error .decodeError) := by
  rcases p with _ | ⟨c, tl⟩
  · exact absurd rfl hne
  refine ⟨?_, ?_, ?_⟩
  · rw [decodeL_eq_of ((c :: tl) ++ '.' :: rest), decodeL_eq_of (c :: tl)]
    rw [cookieFirstSeg_append c tl rest hnd, cookieFirstSeg_nodot c tl hnd]
    rw [show cookieFlag ((c :: tl) ++ '.' :: rest) = false from
      cookieFlag_nodot c _ (hnd c (by simp))]
    rw [cookieFlag_nodot c tl (hnd c (by simp))]
  · intro hb
    rw [decodeL_eq_of (c :: tl), cookieFirstSeg_nodot c tl hnd]
    unfold decodeOf decodePayloadOf
    rw [hb]
  · intro bs hb hu
    rw [decodeL_eq_of (c :: tl), cookieFirstSeg_nodot c tl hnd]
    unfold decodeOf decodePayloadOf
    rw [hb]
    dsimp only
    rw [cookieFlag_nodot c tl (hnd c (by simp)), if_neg Bool.false_ne_true]
    dsimp only
    rw [hu]

/-- C7 witness: the amended behaviour on a concrete payload with a junk
second segment. -/
theorem C7_first_segment_witness :
    decodeL (['e', 'y', 'J', 'h', 'I', 'j', 'o', 'g', 'M', 'X', '0'] ++ '.' :: ['x'])
      = decodeL ['e', 'y', 'J', 'h', 'I', 'j', 'o', 'g', 'M', 'X', '0']
    ∧ (itsB64Decode ['e', 'y', 'J', 'h', 'I', 'j', 'o', 'g', 'M', 'X', '0'] = none →
        decodeL ['e', 'y', 'J', 'h', 'I', 'j', 'o', 'g', 'M', 'X', '0']
          = .error .decodeError)
    ∧ (∀ bs, itsB64Decode ['e', 'y', 'J', 'h', 'I', 'j', 'o', 'g', 'M', 'X', '0']
        = some bs → utf8Decode bs = none →
        decodeL ['e', 'y', 'J', 'h', 'I', 'j', 'o', 'g', 'M', 'X', '0']
          = .error .decodeError) :=
  C7_first_segment ['e', 'y', 'J', 'h', 'I', 'j', 'o', 'g', 'M', 'X', '0'] ['x']
    (by decide) (by decide)

/-- C8 counterexample: a cookie whose payload is the tagged unique-id object
with the non-uuid text x raises the raw ValueError of the UUID constructor,
not DecodeError — the tagged-value rewrite has error paths of its own. -/
theorem C8_counterexample :
    decodeL ['e', 'y', 'I', 'g', 'd', 'S', 'I', '6', 'I', 'C', 'J', '4', 'I', 'n', '0']
      = .error .valueError
    ∧ PyExc.valueError ≠ PyExc.decodeError :=
  ⟨rfl, by decide⟩

/-- C8 (amended): payload-stage failures and JSON syntax failures are
DecodeError, and whenever the wire JSON parses the result is exactly the
hook conversion — whose own failures (ValueError, binascii errors,
TypeError) propagate as themselves. -/
theorem C8_error_paths (cs : List Char) :
    (decodePayloadText cs = none → decodeL cs = .error .decodeError)
    ∧ (∀ text, decodePayloadText cs = some text → jsonLoads text = none →
        decodeL cs = .error .decodeError)
    ∧ (∀ text j, decodePayloadText cs = some text → jsonLoads text = some j →
        decodeL cs = sessionOfJson j) := by
  refine ⟨?_, ?_, ?_⟩
  · intro h
    unfold decodeL
    rw [h]
  · intro text h1 h2
    unfold decodeL
    rw [h1]
    dsimp only
    rw [h2]
  · intro text j h1 h2
    unfold decodeL
    rw [h1]
    dsimp only
    rw [h2]

/-- C8 witness: the empty cookie string decodes its empty payload to empty
text, fails JSON parsing, and raises DecodeError. -/
theorem C8_error_paths_witness : decodeL [] = .error .decodeError :=
  (C8_error_paths []).2.1 [] rfl rfl

/-- C9 counterexample: with candidate stream containing two empty strings —
and a verifier that would accept every candidate — the single worker pulls
the non-empty batch, treats it as exhaustion under Python truthiness, and
returns: the run finishes with no secret found, zero attempts, and the
batch's candidates never tested, with no match, cancellation or fault
involved. -/
theorem C9_counterexample :
    ∃ (cfg : CrackConfig) (stream : List (List Char)) (final : CrackState),
      stream ≠ [] ∧ (∀ c ∈ stream, cfg.verifyc c = true)
      ∧ CReaches cfg (crackInit stream 1) final
      ∧ AllDone final ∧ final.secret = none ∧ final.attempts = 0 := by
  refine ⟨⟨fun _ => true, 2⟩, [[], []], ⟨[], none, 0, [.done]⟩, by simp, fun _ _ => rfl,
    ?_, ?_, rfl, rfl⟩
  · refine CReaches.step _ ⟨[], none, 0, [.checkB [[], []]]⟩ _ ?_
      (CReaches.step _ ⟨[], none, 0, [.done]⟩ _ ?_ (CReaches.refl _))
    · exact CStep.stepPull (crackInit [[], []] 1) 0 rfl
    · exact CStep.stepExit ⟨[], none, 0, [.checkB [[], []]]⟩ 0 [[], []] rfl rfl
  · intro w hw
    simpa using hw

/-- C9 (amended): along every schedule the shared stream is consumed as a
strictly advancing cursor — the unpulled remainder is always a suffix of the
stream, so no candidate is pulled twice or skipped — but a worker exits on a
pulled batch exactly when the batch has no non-empty candidate under Python
truthiness (not only when it is empty) or the found-secret slot is already
truthily set. -/
theorem C9_partition_exit (cfg : CrackConfig) (stream : List (List Char))
    (threads : Nat) (st : CrackState)
    (hr : CReaches cfg (crackInit stream threads) st) :
    (∃ k, st.remaining = stream.drop k)
    ∧ (∀ st2 i batch, CStep cfg st st2 →
        st.workers.get? i = some (.checkB batch) →
        st2.workers.get? i = some .done →
        anyTruthy batch = false ∨ secretTruthy st.secret = true) := by
  constructor
  · exact remaining_suffix cfg _ _ hr
  · intro st2 i batch hstep hb hd
    exact exit_only_falsy cfg st st2 i batch hstep hb hd

/-- C9 witness: the amended property instantiated after the single worker
of the counterexample scenario pulled its all-falsy batch. -/
theorem C9_partition_exit_witness :
    (∃ k, ([] : List (List Char)) = [([] : List Char), []].drop k)
    ∧ (∀ st2 i batch,
        CStep ⟨fun _ => true, 2⟩ ⟨[], none, 0, [.checkB [[], []]]⟩ st2 →
        (⟨[], none, 0, [.checkB [[], []]]⟩ : CrackState).workers.get? i
          = some (.checkB batch) →
        st2.workers.get? i = some .done →
        anyTruthy batch = false
        ∨ secretTruthy (⟨[], none, 0, [.checkB [[], []]]⟩ : CrackState).secret = true) :=
  C9_partition_exit ⟨fun _ => true, 2⟩ [[], []] 1 ⟨[], none, 0, [.checkB [[], []]]⟩
    (CReaches.step _ ⟨[], none, 0, [.checkB [[], []]]⟩ _
      (CStep.stepPull (crackInit [[], []] 1) 0 rfl) (CReaches.refl _))

/-- C10: decode never reads the secret, the timestamp segment or the
signature segment — its result is a function of the compressed flag and the
first dot-segment alone, so two cookies agreeing on those decode
identically, however their other segments differ or are missing. -/
theorem C10_decode_agrees (cs1 cs2 : List Char)
    (hf : cookieFlag cs1 = cookieFlag cs2)
    (hs : cookieFirstSeg cs1 = cookieFirstSeg cs2) :
    decodeL cs1 = decodeL cs2 := by
  rw [decodeL_eq_of cs1, decodeL_eq_of cs2, hf, hs]

/-- C10 witness: a bare payload and the same payload with junk timestamp
and signature segments decode to the same result. -/
theorem C10_decode_agrees_witness :
    decodeL ['e', 'y', 'J', 'h', 'I', 'j', 'o', 'g', 'M', 'X', '0']
      = decodeL (['e', 'y', 'J', 'h', 'I', 'j', 'o', 'g', 'M', 'X', '0']
        ++ ['.', 'j', 'u', 'n', 'k', '.', 's', 'i', 'g']) :=
  C10_decode_agrees _ _ rfl rfl

end FlaskUnsign
